import Mathlib

/-!
# Hourly VWAP from an ITCH 5.0 capture: decoder and aggregator

A shallow embedding of `Utility.h`, `Message.h` and `main.cpp`.

* Unsigned machine integers are natural numbers; every place where the C++
  narrows or wraps carries an explicit `%`.
* The bytes readable at `reader.data()` are a list of bytes and a
  `const std::byte*` is an offset into it.  Where nothing after the end of the
  file is read the list is the file itself; `mappedView` is the whole mapping,
  in which zero bytes fill the last page of the file, and `readDataLoopSized`
  runs the decoder loop on it with the size of the file given apart.  On a
  file of complete records the two runs are the same
  (`readDataIntoQueue_mappedView`).
* A `std::unordered_map` is used only through `find`, `at`, `operator[]` and
  `erase`, so it is a partial function on keys.  The `std::map` of symbols is
  iterated, so it is an association list kept in ascending key order.
* A dereference outside the readable bytes, a `std::out_of_range` thrown by `at`
  and an index of 24 or more into a `std::array<uint64_t, 24>` are results of
  type `Fault`.  A faulting read inside the hourly emission only spoils what
  that call prints; every other fault ends the run.
* The queue hands the messages over in push order, so the consumer is a
  function of the list of messages.
* `double` arithmetic and text formatting are outside the model: a CSV row
  keeps the two integers whose quotient is printed.
-/

namespace VWAP

/-! ## Data -/

/-- One `std::byte` of the memory at `reader.data()`. -/
abbrev Byte := Fin 256

/-- Contents of a `std::string` holding a stock symbol. -/
abbrev Symbol := List Byte

/-- Ways in which the C++ leaves defined behaviour or throws. -/
inductive Fault
  | readPastEnd
  | keyNotFound
  | hourOutOfBounds
  deriving DecidableEq, Repr

deriving instance DecidableEq for Except

/-- A `std::unordered_map` with integer keys, seen through its lookups. -/
abbrev UMap (V : Type) := Nat → Option V

/-- The empty map. -/
def UMap.empty {V : Type} : UMap V := fun _ => none

/-- Effect of `m[k] = v` on the map. -/
def UMap.assign {V : Type} (m : UMap V) (k : Nat) (v : V) : UMap V :=
  fun x => if x = k then some v else m x

/-- Effect of `m.erase(k)`. -/
def UMap.erase {V : Type} (m : UMap V) (k : Nat) : UMap V :=
  fun x => if x = k then none else m x

/-- Value designated by `m[k]`: the stored one, or the value-initialised
default that `operator[]` inserts when the key is absent. -/
def UMap.subscript {V : Type} (m : UMap V) (k : Nat) (dflt : V) : V :=
  (m k).getD dflt

/-- A `std::array<uint64_t, 24>`. -/
abbrev HourArray := Fin 24 → Nat

/-- The array `std::array<uint64_t, 24>{}`. -/
def zeroArray : HourArray := fun _ => 0

/-- Addition of `uint64_t`. -/
def u64add (a b : Nat) : Nat := (a + b) % 2 ^ 64

/-- Subtraction of `uint64_t`. -/
def u64sub (a b : Nat) : Nat := (a + (2 ^ 64 - b % 2 ^ 64)) % 2 ^ 64

/-- Multiplication of `uint64_t`. -/
def u64mul (a b : Nat) : Nat := (a * b) % 2 ^ 64

/-! ## Utility.h -/

/-- Value of a byte sequence loaded into an integer on the little-endian host. -/
def loadLE : List Nat → Nat
  | [] => 0
  | b :: bs => b + 256 * loadLE bs

/-- The `n` bytes of `v` in memory order on the little-endian host. -/
def storeLE : Nat → Nat → List Nat
  | 0, _ => []
  | n + 1, v => v % 256 :: storeLE n (v / 256)

/-- The byte swap `__builtin_bswap16/32/64` on an `n`-byte integer. -/
def swap_endian (n : Nat) (val : Nat) : Nat := loadLE (storeLE n val).reverse

/-- The `n` bytes found at offsets `pos .. pos + n - 1`. -/
def bytesAt (buf : List Byte) (pos n : Nat) : List Nat :=
  (List.range n).map fun i => (buf.getD (pos + i) 0).val

/-- The function `skipByOffset`: `buffer += offset`. -/
def skipByOffset (buffer offset : Nat) : Nat := buffer + offset

/-- The template `read<T>` for `T` an unsigned integer of `n` bytes: load,
advance by `sizeof(T)`, swap.  Returns the value and the advanced pointer.
The source loads unchecked: `buf` holds the bytes that can be read, and a load
that leaves them, which has no defined result, is the fault `readPastEnd`
(here and in `readChar`, `readStockLoop` and `readTimeStamp`). -/
def read (n : Nat) (buf : List Byte) (buffer : Nat) : Except Fault (Nat × Nat) :=
  if buffer + n ≤ buf.length then
    .ok (swap_endian n (loadLE (bytesAt buf buffer n)), buffer + n)
  else .error .readPastEnd

/-- The specialisation `read<char>`: one byte, no swap. -/
def readChar (buf : List Byte) (buffer : Nat) : Except Fault (Nat × Nat) :=
  match buf[buffer]? with
  | some ch => .ok (ch.val, buffer + 1)
  | none => .error .readPastEnd

/-- The predicate `std::isspace` in the C locale. -/
def isspace (ch : Nat) : Bool := ch == 32 || (9 ≤ ch && ch ≤ 13)

/-- The loop of `readStock`: `i` iterations remain, `value` holds the
characters copied so far. -/
def readStockLoop (buf : List Byte) : Nat → Nat → Symbol → Except Fault Symbol
  | 0, _, value => .ok value
  | i + 1, buffer, value =>
    match buf[buffer]? with
    | none => .error .readPastEnd
    | some ch =>
      if ch.val = 0 ∨ isspace ch.val = true then .ok value
      else readStockLoop buf i (buffer + 1) (value ++ [ch])

/-- The function `readStock`: copy up to the first NUL or space character,
then set the pointer to `start_buffer + 8`. -/
def readStock (buf : List Byte) (buffer : Nat) : Except Fault (Symbol × Nat) :=
  match readStockLoop buf 8 buffer [] with
  | .ok value => .ok (value, buffer + 8)
  | .error f => .error f

/-- The big-endian loop of `readTimeStamp`: for `i` from 0 to 5,
`timestamp |= uint64_t(buffer[i]) << ((5 - i) * 8)`. -/
def timeStampLoop (buf : List Byte) (buffer : Nat) : Nat :=
  (List.range 6).foldl
    (fun timestamp i => timestamp ||| ((buf.getD (buffer + i) 0).val <<< ((5 - i) * 8))) 0

/-- The function `readTimeStamp` with `bigEndian = true`. -/
def readTimeStamp (buf : List Byte) (buffer : Nat) : Except Fault (Nat × Nat) :=
  if buffer + 6 ≤ buf.length then .ok (timeStampLoop buf buffer, buffer + 6)
  else .error .readPastEnd

/-! ## Message.h -/

/-- Fields of the base class `ItchMessage` set by `initalize`. -/
structure ItchHeader where
  stock_id : Nat
  message_time : Nat
  deriving DecidableEq, Repr

/-- The nine message classes. -/
inductive ItchMessage
  | StockDirectoryMessage (hdr : ItchHeader) (stock_symbol : Symbol)
  | AddOrderMessage (hdr : ItchHeader) (order_id shares price : Nat)
  | AddOrderMPIDAttributionMessage (hdr : ItchHeader) (order_id shares price : Nat)
  | OrderExecutedMessage (hdr : ItchHeader) (order_id executed_shares match_number : Nat)
  | OrderExecutedWithPriceMessage (hdr : ItchHeader)
      (order_id executed_shares match_number printable execution_price : Nat)
  | OrderReplaceMessage (hdr : ItchHeader) (original_order_id new_order_id shares price : Nat)
  | NonCrossTradeMessage (hdr : ItchHeader) (order_id shares price match_number : Nat)
  | CrossTradeMessage (hdr : ItchHeader) (shares cross_price match_number : Nat)
  | BrokenTradeMessage (hdr : ItchHeader) (match_number : Nat)
  deriving DecidableEq, Repr

/-- Header of a message. -/
def ItchMessage.hdr : ItchMessage → ItchHeader
  | .StockDirectoryMessage h _ => h
  | .AddOrderMessage h _ _ _ => h
  | .AddOrderMPIDAttributionMessage h _ _ _ => h
  | .OrderExecutedMessage h _ _ _ => h
  | .OrderExecutedWithPriceMessage h _ _ _ _ _ => h
  | .OrderReplaceMessage h _ _ _ _ => h
  | .NonCrossTradeMessage h _ _ _ _ => h
  | .CrossTradeMessage h _ _ _ => h
  | .BrokenTradeMessage h _ => h

/-- The member `message_type` given to the base-class constructor. -/
def ItchMessage.message_type : ItchMessage → Nat
  | .StockDirectoryMessage _ _ => 82
  | .AddOrderMessage _ _ _ _ => 65
  | .AddOrderMPIDAttributionMessage _ _ _ _ => 70
  | .OrderExecutedMessage _ _ _ _ => 69
  | .OrderExecutedWithPriceMessage _ _ _ _ _ _ => 67
  | .OrderReplaceMessage _ _ _ _ _ => 85
  | .NonCrossTradeMessage _ _ _ _ _ => 80
  | .CrossTradeMessage _ _ _ _ => 81
  | .BrokenTradeMessage _ _ => 66

/-- The method `getMsgHour`: the quotient narrowed to `uint8_t`. -/
def getMsgHour (message_time : Nat) : Nat := (message_time / 3600000000000) % 256

/-- The method `ItchMessage::initalize`. -/
def initalize (buf : List Byte) (data : Nat) : Except Fault (ItchHeader × Nat) := do
  let (stock_id, data) ← read 2 buf data
  let data := skipByOffset data 2
  let (message_time, data) ← readTimeStamp buf data
  pure (⟨stock_id, message_time⟩, data)

/-- Constructor of `StockDirectoryMessage` (tag R). -/
def mkStockDirectoryMessage (buf : List Byte) (data : Nat) : Except Fault (ItchMessage × Nat) := do
  let (hdr, data) ← initalize buf data
  let (stock_symbol, data) ← readStock buf data
  let data := skipByOffset data 20
  pure (.StockDirectoryMessage hdr stock_symbol, data)

/-- Constructor of `AddOrderMessage` (tag A). -/
def mkAddOrderMessage (buf : List Byte) (data : Nat) : Except Fault (ItchMessage × Nat) := do
  let (hdr, data) ← initalize buf data
  let (order_id, data) ← read 8 buf data
  let data := skipByOffset data 1
  let (shares, data) ← read 4 buf data
  let data := skipByOffset data 8
  let (price, data) ← read 4 buf data
  pure (.AddOrderMessage hdr order_id shares price, data)

/-- Constructor of `AddOrderMPIDAttributionMessage` (tag F). -/
def mkAddOrderMPIDAttributionMessage (buf : List Byte) (data : Nat) :
    Except Fault (ItchMessage × Nat) := do
  let (hdr, data) ← initalize buf data
  let (order_id, data) ← read 8 buf data
  let data := skipByOffset data 1
  let (shares, data) ← read 4 buf data
  let data := skipByOffset data 8
  let (price, data) ← read 4 buf data
  let data := skipByOffset data 4
  pure (.AddOrderMPIDAttributionMessage hdr order_id shares price, data)

/-- Constructor of `OrderExecutedMessage` (tag E). -/
def mkOrderExecutedMessage (buf : List Byte) (data : Nat) : Except Fault (ItchMessage × Nat) := do
  let (hdr, data) ← initalize buf data
  let (order_id, data) ← read 8 buf data
  let (executed_shares, data) ← read 4 buf data
  let (match_number, data) ← read 8 buf data
  pure (.OrderExecutedMessage hdr order_id executed_shares match_number, data)

/-- Constructor of `OrderExecutedWithPriceMessage` (tag C). -/
def mkOrderExecutedWithPriceMessage (buf : List Byte) (data : Nat) :
    Except Fault (ItchMessage × Nat) := do
  let (hdr, data) ← initalize buf data
  let (order_id, data) ← read 8 buf data
  let (executed_shares, data) ← read 4 buf data
  let (match_number, data) ← read 8 buf data
  let (printable, data) ← readChar buf data
  let (execution_price, data) ← read 4 buf data
  pure (.OrderExecutedWithPriceMessage hdr order_id executed_shares match_number printable
    execution_price, data)

/-- Constructor of `OrderReplaceMessage` (tag U). -/
def mkOrderReplaceMessage (buf : List Byte) (data : Nat) : Except Fault (ItchMessage × Nat) := do
  let (hdr, data) ← initalize buf data
  let (original_order_id, data) ← read 8 buf data
  let (new_order_id, data) ← read 8 buf data
  let (shares, data) ← read 4 buf data
  let (price, data) ← read 4 buf data
  pure (.OrderReplaceMessage hdr original_order_id new_order_id shares price, data)

/-- Constructor of `NonCrossTradeMessage` (tag P). -/
def mkNonCrossTradeMessage (buf : List Byte) (data : Nat) : Except Fault (ItchMessage × Nat) := do
  let (hdr, data) ← initalize buf data
  let (order_id, data) ← read 8 buf data
  let data := skipByOffset data 1
  let (shares, data) ← read 4 buf data
  let data := skipByOffset data 8
  let (price, data) ← read 4 buf data
  let (match_number, data) ← read 8 buf data
  pure (.NonCrossTradeMessage hdr order_id shares price match_number, data)

/-- Constructor of `CrossTradeMessage` (tag Q). -/
def mkCrossTradeMessage (buf : List Byte) (data : Nat) : Except Fault (ItchMessage × Nat) := do
  let (hdr, data) ← initalize buf data
  let (shares, data) ← read 8 buf data
  let data := skipByOffset data 8
  let (cross_price, data) ← read 4 buf data
  let (match_number, data) ← read 8 buf data
  let data := skipByOffset data 1
  pure (.CrossTradeMessage hdr shares cross_price match_number, data)

/-- Constructor of `BrokenTradeMessage` (tag B). -/
def mkBrokenTradeMessage (buf : List Byte) (data : Nat) : Except Fault (ItchMessage × Nat) := do
  let (hdr, data) ← initalize buf data
  let (match_number, data) ← read 8 buf data
  pure (.BrokenTradeMessage hdr match_number, data)

/-- The table filled by `populateMessageSizeMap`, read by `getMessageSize`;
keys are character codes, an absent key gives 0. -/
def getMessageSize (messageType : Nat) : Nat :=
  match messageType with
  | 82 => 38   -- R
  | 65 => 35   -- A
  | 70 => 39   -- F
  | 69 => 30   -- E
  | 67 => 35   -- C
  | 85 => 34   -- U
  | 80 => 43   -- P
  | 81 => 39   -- Q
  | 66 => 18   -- B
  | 83 => 11   -- S
  | 72 => 24   -- H
  | 89 => 19   -- Y
  | 76 => 25   -- L
  | 86 => 34   -- V
  | 87 => 11   -- W
  | 75 => 27   -- K
  | 74 => 34   -- J
  | 104 => 20  -- h
  | 88 => 22   -- X
  | 68 => 18   -- D
  | 73 => 49   -- I
  | 78 => 19   -- N
  | 79 => 47   -- O
  | _ => 0

/-- The factory `createMessage` after `registerMessageCreators`: `none` is the
null pointer returned for a tag without a registered creator. -/
def createMessage (messageType : Nat) (buf : List Byte) (data : Nat) :
    Option (Except Fault (ItchMessage × Nat)) :=
  match messageType with
  | 82 => some (mkStockDirectoryMessage buf data)
  | 65 => some (mkAddOrderMessage buf data)
  | 70 => some (mkAddOrderMPIDAttributionMessage buf data)
  | 69 => some (mkOrderExecutedMessage buf data)
  | 67 => some (mkOrderExecutedWithPriceMessage buf data)
  | 85 => some (mkOrderReplaceMessage buf data)
  | 80 => some (mkNonCrossTradeMessage buf data)
  | 81 => some (mkCrossTradeMessage buf data)
  | 66 => some (mkBrokenTradeMessage buf data)
  | _ => none

/-! ## main.cpp: the decoder -/

/-- Local variables of `readDataIntoQueue` that live across iterations: the
pointer `buffer` (as an offset from `reader.data()`) and the counter. -/
structure ReaderState where
  buffer : Nat
  byte_read : Nat
  deriving DecidableEq, Repr

/-- One iteration of the body of the `while` loop of `readDataIntoQueue`:
the new locals and the message pushed on the queue, if any. -/
def readIteration (buf : List Byte) (st : ReaderState) :
    Except Fault (ReaderState × Option ItchMessage) := do
  let (msg_type, buffer) ← readChar buf st.buffer
  let message_size := getMessageSize msg_type
  if message_size ≠ 0 then
    match createMessage msg_type buf buffer with
    | none =>
      pure (⟨skipByOffset buffer message_size, st.byte_read + (message_size + 1)⟩, none)
    | some r =>
      let (message, buffer) ← r
      pure (⟨buffer, st.byte_read + (message_size + 1)⟩, some message)
  else
    pure (⟨buffer, st.byte_read + (message_size + 1)⟩, none)

/-! ## main.cpp: the aggregator -/

/-- One CSV row.  The row keeps the two operands `dollar_volume` and
`volume` of the quotient that is printed in the fourth column. -/
structure Row where
  stock_symbol : Symbol
  stock_id : Nat
  hour : Nat
  dollar_volume : Nat
  volume : Nat
  deriving DecidableEq, Repr

/-- The local `vwap = dollar_volume / 10000.0 / volume` of `calcAndOutputVWAP`,
taken exactly, before the rounding to `double` and the 4-decimal formatting. -/
def Row.vwap (r : Row) : ℚ := (r.dollar_volume : ℚ) / 10000 / r.volume

/-- Effect of `stock_map[k] = v` on the ordered `std::map`. -/
def stockAssign : List (Nat × Symbol) → Nat → Symbol → List (Nat × Symbol)
  | [], k, v => [(k, v)]
  | (k', v') :: rest, k, v =>
    if k < k' then (k, v) :: (k', v') :: rest
    else if k = k' then (k, v) :: rest
    else (k', v') :: stockAssign rest k v

/-- The function `calcAndOutputVWAP`: the rows written to `out`. -/
def calcAndOutputVWAP (hour : Nat) :
    List (Nat × Symbol) → UMap HourArray → UMap HourArray → Except Fault (List Row)
  | [], _, _ => .ok []
  | (stock_id, stock_symbol) :: rest, volume_map, dollar_volume_map =>
    match volume_map stock_id with
    | none => .error .keyNotFound
    | some va =>
      if h : hour < 24 then
        match dollar_volume_map stock_id with
        | none => .error .keyNotFound
        | some da =>
          let volume := va ⟨hour, h⟩
          let dollar_volume := da ⟨hour, h⟩
          match calcAndOutputVWAP hour rest volume_map dollar_volume_map with
          | .error f => .error f
          | .ok rows =>
            if volume = 0 then .ok rows
            else .ok (⟨stock_symbol, stock_id, hour, dollar_volume, volume⟩ :: rows)
      else .error .hourOutOfBounds

/-- Local variables of `processMessage` that live across iterations. -/
structure AggState where
  stock_map : List (Nat × Symbol)
  order_price_map : UMap Nat
  volume_map : UMap HourArray
  dollar_volume_map : UMap HourArray
  matchID_trade_map : UMap (Nat × Nat × Nat × Nat)
  cur_hour : Nat

/-- State at entry of `processMessage`. -/
def AggState.init : AggState :=
  ⟨[], UMap.empty, UMap.empty, UMap.empty, UMap.empty, 0⟩

/-- One call of `calcAndOutputVWAP` made by `processMessage`: the hour passed
and what the call wrote.  An output of `hourOutOfBounds` stands for the
unspecified rows printed from a read past the 24 slots. -/
structure Emission where
  hour : Nat
  output : Except Fault (List Row)

/-- The loop `while (cur_hour < bound) { calcAndOutputVWAP(cur_hour, ...);
++cur_hour; }`, which runs `bound - cur_hour` times; the first argument is
that count.  The bound is a `uint8_t`, so `++cur_hour` stays below 256 and
never wraps.  An exception thrown by `at` leaves the loop; a read past the 24
slots changes no variable of `processMessage`, so the loop goes on and the
call is recorded with the output `hourOutOfBounds`. -/
def hourLoop : Nat → AggState → Except Fault (AggState × List Emission)
  | 0, st => .ok (st, [])
  | n + 1, st =>
    let out := calcAndOutputVWAP st.cur_hour st.stock_map st.volume_map st.dollar_volume_map
    if out = .error .keyNotFound then .error .keyNotFound
    else
      match hourLoop n { st with cur_hour := st.cur_hour + 1 } with
      | .error f => .error f
      | .ok (st', rest) => .ok (st', ⟨st.cur_hour, out⟩ :: rest)

/-- Effect of `m[stock_id][hour] += amount`. -/
def bucketAdd (m : UMap HourArray) (stock_id : Nat) (hour : Fin 24) (amount : Nat) :
    UMap HourArray :=
  let a := m.subscript stock_id zeroArray
  m.assign stock_id (Function.update a hour (u64add (a hour) amount))

/-- Effect of `m[stock_id][hour] -= amount`. -/
def bucketSub (m : UMap HourArray) (stock_id : Nat) (hour : Fin 24) (amount : Nat) :
    UMap HourArray :=
  let a := m.subscript stock_id zeroArray
  m.assign stock_id (Function.update a hour (u64sub (a hour) amount))

/-- The three statements shared by the cases E, C, P and Q: store the trade
under the match number narrowed to the `uint16_t` key, then add to the two
accumulators at `[stock_id][msg_hour]`.  With `msg_hour` of 24 or more the
two additions write outside the arrays: a fault. -/
def applyTrade (st : AggState) (msg_hour stock_id match_number cur_price cur_volume : Nat) :
    Except Fault AggState :=
  let matchID_trade_map :=
    st.matchID_trade_map.assign (match_number % 65536) (stock_id, cur_price, cur_volume, msg_hour)
  if h : msg_hour < 24 then
    .ok { st with
      matchID_trade_map := matchID_trade_map
      dollar_volume_map :=
        bucketAdd st.dollar_volume_map stock_id ⟨msg_hour, h⟩ (u64mul cur_price cur_volume)
      volume_map := bucketAdd st.volume_map stock_id ⟨msg_hour, h⟩ cur_volume }
  else .error .hourOutOfBounds

/-- The `switch (message_type)` of `processMessage`. -/
def handleMessage (st : AggState) (msg_hour : Nat) : ItchMessage → Except Fault AggState
  | .StockDirectoryMessage hdr stock_symbol =>
    .ok { st with
      stock_map := stockAssign st.stock_map hdr.stock_id stock_symbol
      volume_map := st.volume_map.assign hdr.stock_id zeroArray
      dollar_volume_map := st.dollar_volume_map.assign hdr.stock_id zeroArray }
  | .AddOrderMessage _ order_id _ price =>
    .ok { st with order_price_map := st.order_price_map.assign order_id price }
  | .AddOrderMPIDAttributionMessage _ order_id _ price =>
    .ok { st with order_price_map := st.order_price_map.assign order_id price }
  | .OrderExecutedMessage hdr order_id executed_shares match_number =>
    let cur_price := st.order_price_map.subscript order_id 0
    let st := { st with order_price_map := st.order_price_map.assign order_id cur_price }
    applyTrade st msg_hour hdr.stock_id match_number cur_price executed_shares
  | .OrderExecutedWithPriceMessage hdr _ executed_shares match_number printable execution_price =>
    if printable = 78 then .ok st
    else applyTrade st msg_hour hdr.stock_id match_number execution_price executed_shares
  | .OrderReplaceMessage _ original_order_id new_order_id _ price =>
    .ok { st with
      order_price_map := (st.order_price_map.erase original_order_id).assign new_order_id price }
  | .NonCrossTradeMessage hdr _ shares price match_number =>
    applyTrade st msg_hour hdr.stock_id match_number price shares
  | .CrossTradeMessage hdr shares cross_price match_number =>
    applyTrade st msg_hour hdr.stock_id match_number cross_price shares
  | .BrokenTradeMessage _ match_number =>
    match st.matchID_trade_map (match_number % 65536) with
    | none => .ok st
    | some (stock_id, cur_price, cur_volume, trade_hour) =>
      if h : trade_hour < 24 then
        .ok { st with
          dollar_volume_map := bucketSub st.dollar_volume_map (stock_id % 65536) ⟨trade_hour, h⟩
            (u64mul cur_price cur_volume)
          volume_map := bucketSub st.volume_map (stock_id % 65536) ⟨trade_hour, h⟩ cur_volume }
      else .error .hourOutOfBounds

/-- One iteration of the `while (true)` loop of `processMessage` for a popped
message: catch the watermark up, then dispatch. -/
def processOne (st : AggState) (message : ItchMessage) :
    Except Fault (AggState × List Emission) :=
  let msg_hour := getMsgHour message.hdr.message_time
  match hourLoop (msg_hour - st.cur_hour) st with
  | .error f => .error f
  | .ok (st1, out) =>
    match handleMessage st1 msg_hour message with
    | .error f => .error f
    | .ok st2 => .ok (st2, out)

/-- The `while (true)` loop of `processMessage` over the messages popped
before the queue reports that it is finished. -/
def processLoop : AggState → List ItchMessage → Except Fault (AggState × List Emission)
  | st, [] => .ok (st, [])
  | st, message :: rest =>
    match processOne st message with
    | .error f => .error f
    | .ok (st1, out) =>
      match processLoop st1 rest with
      | .error f => .error f
      | .ok (st2, out2) => .ok (st2, out ++ out2)

/-- The function `processMessage` on the sequence of queued messages: the
main loop, then the loop `while (cur_hour < 24u)`. -/
def processMessage (queue : List ItchMessage) : Except Fault (AggState × List Emission) :=
  match processLoop AggState.init queue with
  | .error f => .error f
  | .ok (st, out) =>
    match hourLoop (24 - st.cur_hour) st with
    | .error f => .error f
    | .ok (st1, out1) => .ok (st1, out ++ out1)

/-- The value read as `m[stock_id][hour]`: 0 when the key has no array yet. -/
def bucket (m : UMap HourArray) (stock_id : Nat) (hour : Fin 24) : Nat :=
  m.subscript stock_id zeroArray hour

/-- The rows that the emission of one hour is to write: one per entry of the
symbol table with a non-zero volume in that hour, in table order. -/
def expectedRows (hour : Fin 24) (stock_map : List (Nat × Symbol))
    (volume_map dollar_volume_map : UMap HourArray) : List Row :=
  (stock_map.filter fun p => decide (bucket volume_map p.1 hour ≠ 0)).map fun p =>
    ⟨p.2, p.1, hour.val, bucket dollar_volume_map p.1 hour, bucket volume_map p.1 hour⟩

/-- Every key of the symbol table has an array in both accumulator maps. -/
def KeysPresent (stock_map : List (Nat × Symbol)) (volume_map dollar_volume_map : UMap HourArray) :
    Prop :=
  ∀ p ∈ stock_map, (volume_map p.1).isSome = true ∧ (dollar_volume_map p.1).isSome = true

/-- The keys of the symbol table are strictly ascending, as in a `std::map`. -/
def KeysAscending (stock_map : List (Nat × Symbol)) : Prop :=
  (stock_map.map Prod.fst).Pairwise (· < ·)

instance (stock_map : List (Nat × Symbol)) (volume_map dollar_volume_map : UMap HourArray) :
    Decidable (KeysPresent stock_map volume_map dollar_volume_map) := by
  unfold KeysPresent; infer_instance

instance (stock_map : List (Nat × Symbol)) : Decidable (KeysAscending stock_map) := by
  unfold KeysAscending; infer_instance

/-- Nanoseconds since midnight of the wall-clock time `h:m:s`. -/
def clock (h m s : Nat) : Nat := ((h * 60 + m) * 60 + s) * 1000000000

/-- A symbol table with the stocks 1 and 2. -/
def tableTwo : List (Nat × Symbol) := [(1, [65, 65, 65]), (2, [66, 66, 66])]

/-- Volumes in which stock 1 traded 500 shares in hour 9 and stock 2 never traded. -/
def volumeTwo : UMap HourArray :=
  (UMap.empty.assign 1 (Function.update zeroArray 9 500)).assign 2 zeroArray

/-- Dollar volumes that go with `volumeTwo`. -/
def dollarTwo : UMap HourArray :=
  (UMap.empty.assign 1 (Function.update zeroArray 9 50000000)).assign 2 zeroArray

deriving instance DecidableEq for Emission

/-- The calls that the loop `while (cur_hour < bound)` makes over `n` rounds
when no lookup throws: the hours `cur_hour, ..., cur_hour + n - 1` in order,
each computed from the maps of `st`. -/
def hourEmissions (st : AggState) (n : Nat) : List Emission :=
  (List.range' st.cur_hour n).map fun h =>
    ⟨h, calcAndOutputVWAP h st.stock_map st.volume_map st.dollar_volume_map⟩

/-- Every trade stored in the match index carries an hour below 24. -/
def MatchHours (st : AggState) : Prop :=
  ∀ k e, st.matchID_trade_map k = some e → e.2.2.2 < 24

/-- Timestamp bound of one feed day: 24 h in nanoseconds. -/
def dayNanos : Nat := 86400000000000

/-- The events of the minimal-trade scenario: R(1, "AAA"), A(order 10, price
100000), E(order 10, 500 shares, match 1) at 09:30:00. -/
def scenarioMinimal : List ItchMessage :=
  [.StockDirectoryMessage ⟨1, 0⟩ [65, 65, 65],
   .AddOrderMessage ⟨1, 0⟩ 10 0 100000,
   .OrderExecutedMessage ⟨1, clock 9 30 0⟩ 10 500 1]

/-- State of the minimal-trade scenario before its E event: stock 1 is
registered and order 10 rests at price 100000. -/
def stateBeforeExecution : AggState :=
  { AggState.init with
    stock_map := [(1, [65, 65, 65])]
    order_price_map := UMap.empty.assign 10 100000
    volume_map := UMap.empty.assign 1 zeroArray
    dollar_volume_map := UMap.empty.assign 1 zeroArray }

/-- The events of the non-printable scenario: R(1, "CCC"), then C(order 30,
100 shares, match 3, printable 'N', price 500000) at 11:00:00. -/
def scenarioNonPrintable : List ItchMessage :=
  [.StockDirectoryMessage ⟨1, 0⟩ [67, 67, 67],
   .OrderExecutedWithPriceMessage ⟨1, clock 11 0 0⟩ 30 100 3 78 500000]

/-- State of the non-printable scenario after its R event. -/
def stateRegistered : AggState :=
  { AggState.init with
    stock_map := [(1, [67, 67, 67])]
    volume_map := UMap.empty.assign 1 zeroArray
    dollar_volume_map := UMap.empty.assign 1 zeroArray }

/-- A registration of stock 1 followed by one trade of 100 shares at price
10000 with match number 1, stamped 09:30:00. -/
def tradeMatchOne : List ItchMessage :=
  [.StockDirectoryMessage ⟨1, 0⟩ [65, 65, 65],
   .NonCrossTradeMessage ⟨1, clock 9 30 0⟩ 0 100 10000 1]

/-- A break whose match number 65537 no trade of `tradeMatchOne` carries. -/
def breakUnmatched : ItchMessage := .BrokenTradeMessage ⟨1, clock 9 45 0⟩ 65537

/-- Two trades of stock 1 in hour 9 with the distinct match numbers 1 and
65537, then a break of match number 1. -/
def scenarioCollidingKeys : List ItchMessage :=
  [.StockDirectoryMessage ⟨1, 0⟩ [65, 65, 65],
   .NonCrossTradeMessage ⟨1, clock 9 30 0⟩ 0 100 10000 1,
   .NonCrossTradeMessage ⟨1, clock 9 31 0⟩ 0 7 10000 65537,
   .BrokenTradeMessage ⟨1, clock 9 45 0⟩ 1]

/-- A trade as the reconciliation oracle records it. -/
structure OracleTrade where
  stock_id : Nat
  hour : Nat
  price : Nat
  shares : Nat
  match_number : Nat
  deriving DecidableEq, Repr

/-- Reconciliation oracle, from the specification: the trades applied by an
event sequence, given the resting prices known so far.  A, F and U maintain
the prices; E trades at the resting price (0 when unknown); C trades at its
own price unless it is non-printable; P and Q trade at their own price. -/
def oracleTrades : UMap Nat → List ItchMessage → List OracleTrade
  | _, [] => []
  | prices, .AddOrderMessage _ o _ p :: rest => oracleTrades (prices.assign o p) rest
  | prices, .AddOrderMPIDAttributionMessage _ o _ p :: rest =>
    oracleTrades (prices.assign o p) rest
  | prices, .OrderReplaceMessage _ o n _ p :: rest =>
    oracleTrades ((prices.erase o).assign n p) rest
  | prices, .OrderExecutedMessage hdr o q m :: rest =>
    ⟨hdr.stock_id, getMsgHour hdr.message_time, (prices o).getD 0, q, m⟩
      :: oracleTrades prices rest
  | prices, .OrderExecutedWithPriceMessage hdr _ q m printable p :: rest =>
    if printable = 78 then oracleTrades prices rest
    else ⟨hdr.stock_id, getMsgHour hdr.message_time, p, q, m⟩ :: oracleTrades prices rest
  | prices, .NonCrossTradeMessage hdr _ q p m :: rest =>
    ⟨hdr.stock_id, getMsgHour hdr.message_time, p, q, m⟩ :: oracleTrades prices rest
  | prices, .CrossTradeMessage hdr q p m :: rest =>
    ⟨hdr.stock_id, getMsgHour hdr.message_time, p, q, m⟩ :: oracleTrades prices rest
  | prices, .StockDirectoryMessage _ _ :: rest => oracleTrades prices rest
  | prices, .BrokenTradeMessage _ _ :: rest => oracleTrades prices rest

/-- Reconciliation oracle: the 64-bit match numbers named by the B events. -/
def oracleBroken : List ItchMessage → List Nat
  | [] => []
  | .BrokenTradeMessage _ m :: rest => m :: oracleBroken rest
  | _ :: rest => oracleBroken rest

/-- Reconciliation oracle: the trades of one stock in one hour that were
applied and not broken. -/
def oracleKept (events : List ItchMessage) (stock_id hour : Nat) : List OracleTrade :=
  (oracleTrades UMap.empty events).filter fun t =>
    decide (t.stock_id = stock_id ∧ t.hour = hour ∧ t.match_number ∉ oracleBroken events)

/-- Reconciliation oracle: the sum of shares over the kept trades. -/
def oracleVolume (events : List ItchMessage) (stock_id hour : Nat) : Nat :=
  ((oracleKept events stock_id hour).map fun t => t.shares).sum

/-- Reconciliation oracle: the sum of `price * shares` over the kept trades. -/
def oracleDollarVolume (events : List ItchMessage) (stock_id hour : Nat) : Nat :=
  ((oracleKept events stock_id hour).map fun t => t.price * t.shares).sum

/-- State of the cross-hour break scenario before its B event: the trade of
500 shares at price 100000 with match 1 sits in hour 9 of stock 1. -/
def stateTraded : AggState :=
  { AggState.init with
    stock_map := [(1, [65, 65, 65])]
    order_price_map := UMap.empty.assign 10 100000
    volume_map := UMap.empty.assign 1 (Function.update zeroArray 9 500)
    dollar_volume_map := UMap.empty.assign 1 (Function.update zeroArray 9 50000000)
    matchID_trade_map := UMap.empty.assign 1 (1, 100000, 500, 9)
    cur_hour := 9 }

/-- Big-endian value of a byte sequence: the first byte is the most
significant. -/
def beNat (bs : List Nat) : Nat := bs.foldl (fun acc b => acc * 256 + b) 0

/-- The big-endian unsigned integer held by the `n` bytes at offsets
`pos .. pos + n - 1` of the buffer. -/
def fieldBE (buf : List Byte) (pos n : Nat) : Nat := beNat (bytesAt buf pos n)

/-- The symbol held by the 8-byte field at offset `pos`, as `readStock`
returns it: the bytes before the first NUL or space character. -/
def stockField (buf : List Byte) (pos : Nat) : Symbol :=
  ((List.range 8).map fun i => buf.getD (pos + i) 0).takeWhile
    fun ch => !(decide (ch.val = 0) || isspace ch.val)

/-- Character codes of the nine tags with a registered creator:
R, A, F, E, C, U, P, Q, B. -/
def vwapTags : List Nat := [82, 65, 70, 69, 67, 85, 80, 81, 66]

/-- Character codes of the fourteen tags with a size but no creator:
S, H, Y, L, V, W, K, J, h, X, D, I, N, O. -/
def ignoredTags : List Nat := [83, 72, 89, 76, 86, 87, 75, 74, 104, 88, 68, 73, 78, 79]

/-- A complete B record: tag 'B', bytes 1-2 = 00 01, bytes 3-4 = 00 02, the
timestamp 09:30:00 in bytes 5-10 and the match number 5 in bytes 11-18. -/
def recordBroken : List Byte :=
  [66, 0, 1, 0, 2, 31, 26, 206, 217, 240, 0, 0, 0, 0, 0, 0, 0, 0, 5]

/-- A complete S record (system event): the tag and 11 further bytes. -/
def recordSystem : List Byte := [83, 0, 0, 0, 0, 31, 26, 206, 217, 240, 0, 79]

/-- A complete A record: tag 'A', bytes 1-2 = 00 01, bytes 3-4 = 00 02, the
timestamp 09:30:00, order 10, side 'B', 500 shares, symbol "AAA     " and
price 100000. -/
def recordAdd : List Byte :=
  [65, 0, 1, 0, 2, 31, 26, 206, 217, 240, 0, 0, 0, 0, 0, 0, 0, 0, 10, 66, 0, 0, 1, 244,
   65, 65, 65, 32, 32, 32, 32, 32, 0, 1, 134, 160]

/-- The record `recordAdd` with its side byte (19) and its eight symbol bytes
(24-31) overwritten. -/
def recordAddVariant : List Byte :=
  ((((((((recordAdd.set 19 83).set 24 90).set 25 90).set 26 90).set 27 90).set 28 90).set 29
    90).set 30 90).set 31 90

/-- The value of the byte at offset `i` of the buffer. -/
def byteAt (buf : List Byte) (i : Nat) : Nat := (buf.getD i 0).val

/-- The eight bytes of the symbol field at offset `pos`. -/
def symbolField (buf : List Byte) (pos : Nat) : List Byte :=
  (List.range 8).map fun i => buf.getD (pos + i) 0

/-- A field with only its trailing spaces and NULs removed, as the
specification words the trimming. -/
def trimTrailing (field : List Byte) : List Byte :=
  (field.reverse.dropWhile fun ch => decide (ch.val = 0) || decide (ch.val = 32)).reverse

/-- The symbol field `AB CD   `: a space inside, three spaces at the end. -/
def fieldInnerSpace : List Byte := [65, 66, 32, 67, 68, 32, 32, 32]

/-- The symbol field `AAA`, padded with five spaces. -/
def fieldPadded : List Byte := [65, 65, 65, 32, 32, 32, 32, 32]

/-- The `while (byte_read < reader.size())` loop of `readDataIntoQueue`: the
final locals and the messages pushed, in push order.  The first argument
bounds the number of iterations; an iteration adds at least 1 to
`byte_read`, so `reader.size()` iterations are enough from `byte_read = 0`. -/
def readDataLoop (buf : List Byte) : Nat → ReaderState →
    Except Fault (ReaderState × List ItchMessage)
  | 0, st => .ok (st, [])
  | fuel + 1, st =>
    if st.byte_read < buf.length then
      match readIteration buf st with
      | .error f => .error f
      | .ok (st1, pushed) =>
        match readDataLoop buf fuel st1 with
        | .error f => .error f
        | .ok (st2, queue) => .ok (st2, pushed.toList ++ queue)
    else .ok (st, [])

/-- The function `readDataIntoQueue` on the mapped bytes: the locals at the
end of the loop and the content pushed on the queue before `finish`. -/
def readDataIntoQueue (buf : List Byte) : Except Fault (ReaderState × List ItchMessage) :=
  readDataLoop buf buf.length ⟨0, 0⟩

/-- A byte that is no known tag, followed by the complete B record. -/
def bufferUnknownThenBroken : List Byte := 255 :: recordBroken

/-- Character codes of the tags whose record ends with a decoded field:
A, E, C, U, P, B. -/
def closingFieldTags : List Nat := [65, 69, 67, 85, 80, 66]

/-- The members `queue_` and `finished_` of `ThreadSafeQueue<T>`; the mutex
makes every method atomic, so a method is a function of this state. -/
structure ThreadSafeQueue (T : Type) where
  queue_ : List T
  finished_ : Bool
  deriving DecidableEq, Repr

/-- A queue as constructed: empty, `finished_ = false`. -/
def ThreadSafeQueue.init {T : Type} : ThreadSafeQueue T := ⟨[], false⟩

/-- The method `push`: append at the back. -/
def ThreadSafeQueue.push {T : Type} (q : ThreadSafeQueue T) (value : T) : ThreadSafeQueue T :=
  { q with queue_ := q.queue_ ++ [value] }

/-- The method `pop`.  The wait ends once the queue is non-empty or finished;
`none` stands for a wait that does not end in this state.  Otherwise the
result is `(none, q)` for `return false` and `(some v, q')` for `return true`
with `value = v`, the front element, removed from the queue. -/
def ThreadSafeQueue.pop {T : Type} (q : ThreadSafeQueue T) :
    Option (Option T × ThreadSafeQueue T) :=
  match q.queue_ with
  | [] => if q.finished_ then some (none, q) else none
  | value :: rest => some (some value, { q with queue_ := rest })

/-- The method `finish`. -/
def ThreadSafeQueue.finish {T : Type} (q : ThreadSafeQueue T) : ThreadSafeQueue T :=
  { q with finished_ := true }

/-- The method `isFinished`. -/
def ThreadSafeQueue.isFinished {T : Type} (q : ThreadSafeQueue T) : Bool := q.finished_

/-- The method `empty`. -/
def ThreadSafeQueue.empty {T : Type} (q : ThreadSafeQueue T) : Bool := q.queue_.isEmpty

/-- A call on the queue. -/
inductive QueueOp (T : Type)
  | push (value : T)
  | pop
  | finish
  deriving DecidableEq, Repr

/-- A sequence of calls run one after the other: the final state and the
values of the pops that returned true, in order.  The result is `none` when
some `pop` waits for ever. -/
def runOps {T : Type} : ThreadSafeQueue T → List (QueueOp T) →
    Option (ThreadSafeQueue T × List T)
  | q, [] => some (q, [])
  | q, .push value :: ops => runOps (q.push value) ops
  | q, .finish :: ops => runOps q.finish ops
  | q, .pop :: ops =>
    match q.pop with
    | none => none
    | some (none, q1) => runOps q1 ops
    | some (some value, q1) =>
      match runOps q1 ops with
      | none => none
      | some (q2, popped) => some (q2, value :: popped)

/-- The values pushed by a sequence of calls, in push order. -/
def pushedValues {T : Type} : List (QueueOp T) → List T
  | [] => []
  | .push value :: ops => value :: pushedValues ops
  | _ :: ops => pushedValues ops

/-- The pairing of the two accumulators: a bucket of `volume` is 0 exactly
when the same bucket of `dollar_volume` is 0. -/
def Paired (st : AggState) : Prop :=
  ∀ (s : Nat) (h : Fin 24), bucket st.volume_map s h = 0 ↔ bucket st.dollar_volume_map s h = 0

/-- The stock, price and shares that the handler of a message applies as a
trade in state `st`, if it applies one: E at the resting price (0 when the
order is unknown), C unless non-printable, P and Q at their own price. -/
def tradeOf (st : AggState) : ItchMessage → Option (Nat × Nat × Nat)
  | .OrderExecutedMessage hdr order_id executed_shares _ =>
    some (hdr.stock_id, st.order_price_map.subscript order_id 0, executed_shares)
  | .OrderExecutedWithPriceMessage hdr _ executed_shares _ printable execution_price =>
    if printable = 78 then none else some (hdr.stock_id, execution_price, executed_shares)
  | .NonCrossTradeMessage hdr _ shares price _ => some (hdr.stock_id, price, shares)
  | .CrossTradeMessage hdr shares cross_price _ => some (hdr.stock_id, cross_price, shares)
  | _ => none

/-- Shares of a trade `(stock_id, price, shares, hour)`. -/
def tradeShares (e : Nat × Nat × Nat × Nat) : Nat := e.2.2.1

/-- Price times shares of a trade `(stock_id, price, shares, hour)`, not reduced. -/
def tradeDollars (e : Nat × Nat × Nat × Nat) : Nat := e.2.1 * e.2.2.1

/-- Sum of `f` over the trades of a ledger that belong to stock `s` and hour `h`. -/
def ledgerSum (f : Nat × Nat × Nat × Nat → Nat) : List (Nat × Nat × Nat × Nat) → Nat → Nat → Nat
  | [], _, _ => 0
  | e :: rest, s, h => (if e.1 = s ∧ e.2.2.2 = h then f e else 0) + ledgerSum f rest s h

/-- Bookkeeping of the trades that count, for stating when a run is orderly.
A registration drops the trades of its stock (the handler resets the arrays);
a trade is entered when its price is not 0, its stock id fits 16 bits and
neither sum of its bucket passes 2^64; a B event whose slot of the match
index is empty changes nothing, and one whose slot holds a trade removes that
trade, which has to be in the ledger.  `none` when a condition is not met. -/
def ledgerStep (st : AggState) (ledger : List (Nat × Nat × Nat × Nat))
    (message : ItchMessage) : Option (List (Nat × Nat × Nat × Nat)) :=
  match message with
  | .StockDirectoryMessage hdr _ => some (ledger.filter fun e => decide (e.1 ≠ hdr.stock_id))
  | .BrokenTradeMessage _ match_number =>
    match st.matchID_trade_map (match_number % 65536) with
    | none => some ledger
    | some e => if e ∈ ledger then some (ledger.erase e) else none
  | _ =>
    match tradeOf st message with
    | none => some ledger
    | some (s, p, q) =>
      if p ≠ 0 ∧ s < 65536 ∧
          ledgerSum tradeShares ledger s (getMsgHour message.hdr.message_time) + q < 2 ^ 64 ∧
          ledgerSum tradeDollars ledger s (getMsgHour message.hdr.message_time) + p * q < 2 ^ 64
      then some ((s, p, q, getMsgHour message.hdr.message_time) :: ledger)
      else none

/-- An orderly run: every event meets the condition of `ledgerStep` in the
state in which the main loop processes it. -/
def ledgerRun : AggState → List (Nat × Nat × Nat × Nat) → List ItchMessage → Bool
  | _, _, [] => true
  | st, ledger, message :: rest =>
    match ledgerStep st ledger message with
    | none => false
    | some ledger2 =>
      match processOne st message with
      | .ok (st2, _) => ledgerRun st2 ledger2 rest
      | .error _ => true

/-- The accumulators agree with a ledger: every bucket is the sum over the
trades of the ledger, the sums are below 2^64, and every trade of the ledger
has a non-zero price, a 16-bit stock id and an hour below 24. -/
def Ledgered (volume_map dollar_volume_map : UMap HourArray)
    (ledger : List (Nat × Nat × Nat × Nat)) : Prop :=
  (∀ (s : Nat) (h : Fin 24), bucket volume_map s h = ledgerSum tradeShares ledger s h.val ∧
    bucket dollar_volume_map s h = ledgerSum tradeDollars ledger s h.val) ∧
  (∀ s h : Nat, ledgerSum tradeShares ledger s h < 2 ^ 64 ∧
    ledgerSum tradeDollars ledger s h < 2 ^ 64) ∧
  ∀ e ∈ ledger, e.2.1 ≠ 0 ∧ e.1 < 65536 ∧ e.2.2.2 < 24

/-- A registration of stock 1, then an E event of 500 shares at 09:30:00 on
order 99, which no A, F or U event introduced. -/
def scenarioUnknownOrder : List ItchMessage :=
  [.StockDirectoryMessage ⟨1, 0⟩ [65, 65, 65],
   .OrderExecutedMessage ⟨1, clock 9 30 0⟩ 99 500 1]

/-- A registration of stock 1, then four P trades of 2^31 shares at price
2^31 in hour 9: the products sum to 2^64. -/
def scenarioWrappedSum : List ItchMessage :=
  [.StockDirectoryMessage ⟨1, 0⟩ [65, 65, 65],
   .NonCrossTradeMessage ⟨1, clock 9 30 0⟩ 0 2147483648 2147483648 1,
   .NonCrossTradeMessage ⟨1, clock 9 30 1⟩ 0 2147483648 2147483648 2,
   .NonCrossTradeMessage ⟨1, clock 9 30 2⟩ 0 2147483648 2147483648 3,
   .NonCrossTradeMessage ⟨1, clock 9 30 3⟩ 0 2147483648 2147483648 4]

/-- A registration of stock 1, a P trade of 2 shares at price 1 (match 1), a
P trade of 1 share at price 2 (match 2), then two B events for match 1. -/
def scenarioBrokenTwice : List ItchMessage :=
  [.StockDirectoryMessage ⟨1, 0⟩ [65, 65, 65],
   .NonCrossTradeMessage ⟨1, clock 9 30 0⟩ 0 2 1 1,
   .NonCrossTradeMessage ⟨1, clock 9 30 1⟩ 0 1 2 2,
   .BrokenTradeMessage ⟨1, clock 9 30 2⟩ 1,
   .BrokenTradeMessage ⟨1, clock 9 30 3⟩ 1]

/-- An orderly run: R(1, "AAA"), A(order 10, price 100000), E(order 10, 500
shares, match 1) at 09:30:00, P(100 shares at price 200000, match 2) at
09:45:00, B(match 1) at 09:50:00. -/
def scenarioOrderly : List ItchMessage :=
  [.StockDirectoryMessage ⟨1, 0⟩ [65, 65, 65],
   .AddOrderMessage ⟨1, 0⟩ 10 0 100000,
   .OrderExecutedMessage ⟨1, clock 9 30 0⟩ 10 500 1,
   .NonCrossTradeMessage ⟨1, clock 9 45 0⟩ 0 100 200000 2,
   .BrokenTradeMessage ⟨1, clock 9 50 0⟩ 1]

/-- The index at which the handler of a message touches the hour arrays in
state `st`, if it touches them: the hour of the message for E, printable C, P
and Q (through the shared trade statements), the hour stored with the trade
for a B event that finds one. -/
def bucketIndex (st : AggState) : ItchMessage → Option Nat
  | .OrderExecutedMessage hdr _ _ _ => some (getMsgHour hdr.message_time)
  | .OrderExecutedWithPriceMessage hdr _ _ _ printable _ =>
    if printable = 78 then none else some (getMsgHour hdr.message_time)
  | .NonCrossTradeMessage hdr _ _ _ _ => some (getMsgHour hdr.message_time)
  | .CrossTradeMessage hdr _ _ _ => some (getMsgHour hdr.message_time)
  | .BrokenTradeMessage _ match_number =>
    match st.matchID_trade_map (match_number % 65536) with
    | none => none
    | some (_, _, _, trade_hour) => some trade_hour
  | _ => none

/-- An A event stamped 25:00:00, a value that fits the 48-bit field. -/
def eventLateAdd : ItchMessage := .AddOrderMessage ⟨1, clock 25 0 0⟩ 10 0 100000

/-- A P event stamped 25:00:00. -/
def eventLateTrade : ItchMessage := .NonCrossTradeMessage ⟨1, clock 25 0 0⟩ 0 100 200000 1

/-- The events of the replace scenario: R(1, "BBB"), A(order 20, price
200000), U(orig 20, new 21, price 300000), E(order 21, 100 shares, match 2)
at 10:00:00. -/
def scenarioReplace : List ItchMessage :=
  [.StockDirectoryMessage ⟨1, 0⟩ [66, 66, 66],
   .AddOrderMessage ⟨1, 0⟩ 20 0 200000,
   .OrderReplaceMessage ⟨1, 0⟩ 20 21 0 300000,
   .OrderExecutedMessage ⟨1, clock 10 0 0⟩ 21 100 2]

/-- State of the replace scenario before its U event: stock 1 is registered
and order 20 rests at price 200000. -/
def stateBeforeReplace : AggState :=
  { AggState.init with
    stock_map := [(1, [66, 66, 66])]
    order_price_map := UMap.empty.assign 20 200000
    volume_map := UMap.empty.assign 1 zeroArray
    dollar_volume_map := UMap.empty.assign 1 zeroArray }

/-- A U event whose new order id is its original order id. -/
def eventReplaceSameId : ItchMessage := .OrderReplaceMessage ⟨1, 0⟩ 20 20 0 300000

/-- The events of the cross-trade scenario: R(1, "DDD"), Q(1000000 shares,
cross price 100000, match 4) at 09:30:00. -/
def scenarioCross : List ItchMessage :=
  [.StockDirectoryMessage ⟨1, 0⟩ [68, 68, 68],
   .CrossTradeMessage ⟨1, clock 9 30 0⟩ 1000000 100000 4]

/-- State of the cross-trade scenario before its Q event: stock 1 is
registered. -/
def stateBeforeCross : AggState :=
  { AggState.init with
    stock_map := [(1, [68, 68, 68])]
    volume_map := UMap.empty.assign 1 zeroArray
    dollar_volume_map := UMap.empty.assign 1 zeroArray }

/-- A complete Q record: tag 'Q', bytes 1-2 = 00 01, bytes 3-4 = 00 02, the
timestamp 09:30:00 in bytes 5-10, the shares 5000000000 (00 00 00 01 2A 05 F2
00, more than 2^32) in bytes 11-18, the symbol "DDD     " in bytes 19-26,
the cross price 100000 in bytes 27-30, the match number 4 in bytes 31-38 and
the cross type 'O' in byte 39. -/
def recordCross : List Byte :=
  [81, 0, 1, 0, 2, 31, 26, 206, 217, 240, 0, 0, 0, 0, 1, 42, 5, 242, 0,
   68, 68, 68, 32, 32, 32, 32, 32, 0, 1, 134, 160, 0, 0, 0, 0, 0, 0, 0, 4, 79]

/-- A run in which stock 2 trades without being registered: P(stock 2, 100
shares at price 200000, match 1) at 09:30:00, R(1, "AAA"), then an A event
at 10:00:00 that moves the watermark past hour 9. -/
def scenarioUnregistered : List ItchMessage :=
  [.NonCrossTradeMessage ⟨2, clock 9 30 0⟩ 0 100 200000 1,
   .StockDirectoryMessage ⟨1, clock 9 31 0⟩ [65, 65, 65],
   .AddOrderMessage ⟨1, clock 10 0 0⟩ 10 0 100000]

/-- The loop of `readDataIntoQueue` once more, recording for every iteration
the offset of `buffer` at its start (the record offset) together with the
message it pushed, if any. -/
def readDataTrace (buf : List Byte) : Nat → ReaderState →
    Except Fault (ReaderState × List (Nat × Option ItchMessage))
  | 0, st => .ok (st, [])
  | fuel + 1, st =>
    if st.byte_read < buf.length then
      match readIteration buf st with
      | .error f => .error f
      | .ok (st1, pushed) =>
        match readDataTrace buf fuel st1 with
        | .error f => .error f
        | .ok (st2, trace) => .ok (st2, (st.buffer, pushed) :: trace)
    else .ok (st, [])

/-- Every record met when the buffer is cut into records from offset `pos`
lies inside the buffer: with `n` the size that `getMessageSize` gives for the
tag at a record boundary (0 for an unknown tag), the `1 + n` bytes of the
record end at or before the end of the buffer.  The first argument bounds the
number of records looked at. -/
def recordsComplete (buf : List Byte) : Nat → Nat → Bool
  | 0, _ => true
  | fuel + 1, pos =>
    if pos < buf.length then
      decide (pos + 1 + getMessageSize (byteAt buf pos) ≤ buf.length) &&
        recordsComplete buf fuel (pos + 1 + getMessageSize (byteAt buf pos))
    else true

/-- A buffer of complete records with a byte that is no tag in between: an S
record, the byte FF, a B record and an A record. -/
def bufferMixed : List Byte := recordSystem ++ 255 :: (recordBroken ++ recordAdd)

/-- The cross-trade scenario followed by a trade whose match number 65540
shares the 16-bit key 4 with the cross trade: R(1, "DDD"), Q(1000000 shares,
cross price 100000, match 4) at 09:30:00, P(7 shares, price 10000, match
65540) at 09:31:00. -/
def scenarioCrossThenTrade : List ItchMessage :=
  scenarioCross ++ [.NonCrossTradeMessage ⟨1, clock 9 31 0⟩ 0 7 10000 65540]

/-- The events of `scenarioCrossThenTrade`, then B(match 4) at 09:45:00. -/
def scenarioCrossBroken : List ItchMessage :=
  scenarioCrossThenTrade ++ [.BrokenTradeMessage ⟨1, clock 9 45 0⟩ 4]

/-- The bytes that `mmap(NULL, fileSize, PROT_READ, MAP_PRIVATE, fd, 0)` makes
readable at `reader.data()` when pages have `page` bytes: the bytes of the
file, then zero bytes up to the end of its last page. -/
def mappedView (file : List Byte) (page : Nat) : List Byte :=
  file ++ List.replicate ((page - file.length % page) % page) 0

/-- The `while (byte_read < reader.size())` loop of `readDataIntoQueue` with
the two members of the reader taken apart: `view` holds the bytes readable at
`reader.data()` and `size` is `reader.size()`.  The test of the loop is the
only use of the size; `readDataLoop buf` is the case of a view that ends with
the file.  The first argument bounds the number of iterations. -/
def readDataLoopSized (view : List Byte) (size : Nat) : Nat → ReaderState →
    Except Fault (ReaderState × List ItchMessage)
  | 0, st => .ok (st, [])
  | fuel + 1, st =>
    if st.byte_read < size then
      match readIteration view st with
      | .error f => .error f
      | .ok (st1, pushed) =>
        match readDataLoopSized view size fuel st1 with
        | .error f => .error f
        | .ok (st2, queue) => .ok (st2, pushed.toList ++ queue)
    else .ok (st, [])

/-! # Properties -/

/-! ## Emission of one hour -/

theorem calcAndOutputVWAP_ok (hour : Nat) (hh : hour < 24)
  (volume_map dollar_volume_map : UMap HourArray) :
    ∀ stock_map : List (Nat × Symbol), KeysPresent stock_map volume_map dollar_volume_map →
      calcAndOutputVWAP hour stock_map volume_map dollar_volume_map
        = .ok (expectedRows ⟨hour, hh⟩ stock_map volume_map dollar_volume_map)
  | [], _ => rfl
  | (k, sym) :: rest, hk => by
    have hrest : KeysPresent rest volume_map dollar_volume_map :=
      fun p hp => hk p (List.mem_cons_of_mem _ hp)
    have ih := calcAndOutputVWAP_ok hour hh volume_map dollar_volume_map rest hrest
    obtain ⟨hv, hd⟩ := hk (k, sym) (List.mem_cons_self _ _)
    obtain ⟨va, hva⟩ := Option.isSome_iff_exists.mp hv
    obtain ⟨da, hda⟩ := Option.isSome_iff_exists.mp hd
    simp only at hva hda
    by_cases hz : va ⟨hour, hh⟩ = 0
    · simp [calcAndOutputVWAP, hva, hda, hh, ih, hz, expectedRows, bucket, UMap.subscript]
    · simp [calcAndOutputVWAP, hva, hda, hh, ih, hz, expectedRows, bucket, UMap.subscript]


theorem expectedRows_cons (hour : Fin 24) (p : Nat × Symbol) (sm : List (Nat × Symbol))
    (vm dm : UMap HourArray) :
    expectedRows hour (p :: sm) vm dm =
      (if bucket vm p.1 hour = 0 then []
       else [⟨p.2, p.1, hour.val, bucket dm p.1 hour, bucket vm p.1 hour⟩])
        ++ expectedRows hour sm vm dm := by
  by_cases hz : bucket vm p.1 hour = 0 <;> simp [expectedRows, List.filter_cons, hz]

theorem expectedRows_mem (hour : Fin 24) (vm dm : UMap HourArray) (r : Row) :
    ∀ sm : List (Nat × Symbol), r ∈ expectedRows hour sm vm dm →
      (r.stock_id, r.stock_symbol) ∈ sm ∧ r.hour = hour.val ∧
        r.dollar_volume = bucket dm r.stock_id hour ∧ r.volume = bucket vm r.stock_id hour ∧
        bucket vm r.stock_id hour ≠ 0 := by
  intro sm hr
  simp only [expectedRows, List.mem_map, List.mem_filter, decide_eq_true_eq] at hr
  obtain ⟨p, ⟨hp, hnz⟩, rfl⟩ := hr
  exact ⟨hp, rfl, rfl, rfl, hnz⟩

theorem expectedRows_filter_absent (hour : Fin 24) (vm dm : UMap HourArray) (k : Nat)
    (sm : List (Nat × Symbol)) (hk : ∀ p ∈ sm, p.1 ≠ k) :
    (expectedRows hour sm vm dm).filter (fun r => decide (r.stock_id = k)) = [] := by
  rw [List.filter_eq_nil_iff]
  intro r hr
  have h := (expectedRows_mem hour vm dm r sm hr).1
  simpa using hk _ h

theorem expectedRows_filter_key (hour : Fin 24) (vm dm : UMap HourArray) :
    ∀ sm : List (Nat × Symbol), KeysAscending sm → ∀ p ∈ sm,
      (expectedRows hour sm vm dm).filter (fun r => decide (r.stock_id = p.1)) =
        if bucket vm p.1 hour = 0 then []
        else [⟨p.2, p.1, hour.val, bucket dm p.1 hour, bucket vm p.1 hour⟩]
  | [], _, p, hp => by simp at hp
  | q :: rest, hasc, p, hp => by
    have hasc' : (∀ k ∈ rest.map Prod.fst, q.1 < k) ∧ KeysAscending rest := by
      simpa [KeysAscending] using hasc
    rw [expectedRows_cons, List.filter_append]
    rcases List.mem_cons.mp hp with rfl | hp'
    · have hne : ∀ x ∈ rest, x.1 ≠ p.1 := fun x hx =>
        Nat.ne_of_gt (hasc'.1 x.1 (List.mem_map_of_mem _ hx))
      rw [expectedRows_filter_absent hour vm dm p.1 rest hne]
      by_cases hz : bucket vm p.1 hour = 0 <;> simp [hz]
    · have hlt : q.1 < p.1 := hasc'.1 p.1 (List.mem_map_of_mem _ hp')
      rw [expectedRows_filter_key hour vm dm rest hasc'.2 p hp']
      have hne : q.1 ≠ p.1 := Nat.ne_of_lt hlt
      by_cases hz : bucket vm q.1 hour = 0 <;> simp [hz, hne]

theorem expectedRows_ascending (hour : Fin 24) (vm dm : UMap HourArray)
    (sm : List (Nat × Symbol)) (hasc : KeysAscending sm) :
    ((expectedRows hour sm vm dm).map Row.stock_id).Pairwise (· < ·) := by
  have hsub : List.Sublist ((expectedRows hour sm vm dm).map Row.stock_id) (sm.map Prod.fst) := by
    have h1 : (expectedRows hour sm vm dm).map Row.stock_id
        = (sm.filter fun p => decide (bucket vm p.1 hour ≠ 0)).map Prod.fst := by
      simp [expectedRows, List.map_map, Function.comp_def]
    rw [h1]
    exact (List.filter_sublist _).map _
  exact hasc.sublist hsub

/-- C2: for table keys in ascending order that all have their two arrays, and an hour below 24,
`calcAndOutputVWAP` writes rows in strictly ascending `stock_id` order; a registered stock with
a non-zero volume in that hour has exactly one row, which carries its symbol, its id, the hour
and the two accumulators, a registered stock with zero volume has none, and the value of a row
is `dollar_volume / (10000 * volume)`. -/
theorem C2_calcAndOutputVWAP_rows (hour : Nat) (hh : hour < 24)
    (stock_map : List (Nat × Symbol)) (volume_map dollar_volume_map : UMap HourArray)
    (hasc : KeysAscending stock_map)
    (hkeys : KeysPresent stock_map volume_map dollar_volume_map) :
    ∃ rows, calcAndOutputVWAP hour stock_map volume_map dollar_volume_map = .ok rows ∧
      (rows.map Row.stock_id).Pairwise (· < ·) ∧
      (∀ p ∈ stock_map, bucket volume_map p.1 ⟨hour, hh⟩ ≠ 0 →
        rows.filter (fun r => decide (r.stock_id = p.1)) =
          [⟨p.2, p.1, hour, bucket dollar_volume_map p.1 ⟨hour, hh⟩,
            bucket volume_map p.1 ⟨hour, hh⟩⟩]) ∧
      (∀ p ∈ stock_map, bucket volume_map p.1 ⟨hour, hh⟩ = 0 →
        rows.filter (fun r => decide (r.stock_id = p.1)) = []) ∧
      (∀ r ∈ rows, (r.stock_id, r.stock_symbol) ∈ stock_map ∧ r.hour = hour ∧
        r.vwap = (bucket dollar_volume_map r.stock_id ⟨hour, hh⟩ : ℚ) /
          (10000 * (bucket volume_map r.stock_id ⟨hour, hh⟩ : ℚ))) := by
  refine ⟨_, calcAndOutputVWAP_ok hour hh volume_map dollar_volume_map stock_map hkeys,
    expectedRows_ascending _ _ _ _ hasc, ?_, ?_, ?_⟩
  · intro p hp hnz
    rw [expectedRows_filter_key _ _ _ _ hasc p hp, if_neg hnz]
  · intro p hp hz
    rw [expectedRows_filter_key _ _ _ _ hasc p hp, if_pos hz]
  · intro r hr
    obtain ⟨hmem, hhour, hd, hv, _⟩ := expectedRows_mem _ _ _ r _ hr
    refine ⟨hmem, hhour, ?_⟩
    rw [Row.vwap, hd, hv, div_div]

/-- Witness of C2: a table with two stocks, of which only stock 1 traded in hour 9. -/
theorem C2_calcAndOutputVWAP_rows_witness :
    KeysAscending tableTwo ∧ KeysPresent tableTwo volumeTwo dollarTwo ∧
    ∃ rows, calcAndOutputVWAP 9 tableTwo volumeTwo dollarTwo = .ok rows ∧
      (rows.map Row.stock_id).Pairwise (· < ·) ∧
      (∀ p ∈ tableTwo, bucket volumeTwo p.1 ⟨9, by decide⟩ ≠ 0 →
        rows.filter (fun r => decide (r.stock_id = p.1)) =
          [⟨p.2, p.1, 9, bucket dollarTwo p.1 ⟨9, by decide⟩,
            bucket volumeTwo p.1 ⟨9, by decide⟩⟩]) ∧
      (∀ p ∈ tableTwo, bucket volumeTwo p.1 ⟨9, by decide⟩ = 0 →
        rows.filter (fun r => decide (r.stock_id = p.1)) = []) ∧
      (∀ r ∈ rows, (r.stock_id, r.stock_symbol) ∈ tableTwo ∧ r.hour = 9 ∧
        r.vwap = (bucket dollarTwo r.stock_id ⟨9, by decide⟩ : ℚ) /
          (10000 * (bucket volumeTwo r.stock_id ⟨9, by decide⟩ : ℚ))) :=
  ⟨by decide, by decide,
    C2_calcAndOutputVWAP_rows 9 (by decide) tableTwo volumeTwo dollarTwo (by decide) (by decide)⟩


/-! ## The hour loop -/

theorem calcAndOutputVWAP_no_throw (hour : Nat) (sm : List (Nat × Symbol))
    (vm dm : UMap HourArray) (hk : KeysPresent sm vm dm) :
    calcAndOutputVWAP hour sm vm dm ≠ .error .keyNotFound := by
  by_cases hh : hour < 24
  · rw [calcAndOutputVWAP_ok hour hh vm dm sm hk]; simp
  · cases sm with
    | nil => simp [calcAndOutputVWAP]
    | cons p rest =>
      obtain ⟨k, sym⟩ := p
      obtain ⟨hv, _⟩ := hk (k, sym) (List.mem_cons_self _ _)
      obtain ⟨va, hva⟩ := Option.isSome_iff_exists.mp hv
      simp only at hva
      simp [calcAndOutputVWAP, hva, hh]

theorem hourLoop_ok : ∀ (n : Nat) (st : AggState),
    KeysPresent st.stock_map st.volume_map st.dollar_volume_map →
      hourLoop n st = .ok ({ st with cur_hour := st.cur_hour + n }, hourEmissions st n)
  | 0, st, _ => by simp [hourLoop, hourEmissions]
  | n + 1, st, hk => by
    have ih := hourLoop_ok n { st with cur_hour := st.cur_hour + 1 } hk
    have hne := calcAndOutputVWAP_no_throw st.cur_hour st.stock_map st.volume_map
      st.dollar_volume_map hk
    simp only [hourLoop, hne, if_false, ih]
    simp [hourEmissions, List.range'_succ, Nat.add_assoc, Nat.add_comm 1 n]


/-! ## Invariants of the aggregator loop -/

theorem assign_isSome {V : Type} (m : UMap V) (k x : Nat) (v : V)
    (h : (m x).isSome = true) : ((m.assign k v) x).isSome = true := by
  unfold UMap.assign; split <;> simp [h]

theorem assign_self_isSome {V : Type} (m : UMap V) (k : Nat) (v : V) :
    ((m.assign k v) k).isSome = true := by
  simp [UMap.assign]

theorem bucketAdd_isSome (m : UMap HourArray) (s x : Nat) (h : Fin 24) (a : Nat)
    (hx : (m x).isSome = true) : ((bucketAdd m s h a) x).isSome = true :=
  assign_isSome _ _ _ _ hx

theorem bucketSub_isSome (m : UMap HourArray) (s x : Nat) (h : Fin 24) (a : Nat)
    (hx : (m x).isSome = true) : ((bucketSub m s h a) x).isSome = true :=
  assign_isSome _ _ _ _ hx

theorem mem_stockAssign (k : Nat) (v : Symbol) (p : Nat × Symbol) :
    ∀ sm : List (Nat × Symbol), p ∈ stockAssign sm k v → p = (k, v) ∨ p ∈ sm
  | [], h => by simpa [stockAssign] using h
  | q :: rest, h => by
    unfold stockAssign at h
    split at h
    · rcases List.mem_cons.mp h with h1 | h1
      · exact Or.inl h1
      · exact Or.inr h1
    · split at h
      · rcases List.mem_cons.mp h with h1 | h1
        · exact Or.inl h1
        · exact Or.inr (List.mem_cons_of_mem _ h1)
      · rcases List.mem_cons.mp h with h1 | h1
        · exact Or.inr (h1 ▸ List.mem_cons_self _ _)
        · rcases mem_stockAssign k v p rest h1 with h2 | h2
          · exact Or.inl h2
          · exact Or.inr (List.mem_cons_of_mem _ h2)

theorem applyTrade_ok (st : AggState) (m s mn p q : Nat) (hm : m < 24) :
    applyTrade st m s mn p q = .ok { st with
      matchID_trade_map := st.matchID_trade_map.assign (mn % 65536) (s, p, q, m)
      dollar_volume_map := bucketAdd st.dollar_volume_map s ⟨m, hm⟩ (u64mul p q)
      volume_map := bucketAdd st.volume_map s ⟨m, hm⟩ q } := by
  simp only [applyTrade, hm, dite_true]

theorem handleMessage_broken_ok (st : AggState) (m : Nat) (hdr : ItchHeader) (mn s p q th : Nat)
    (he : st.matchID_trade_map (mn % 65536) = some (s, p, q, th)) (hth : th < 24) :
    handleMessage st m (.BrokenTradeMessage hdr mn) = .ok { st with
      dollar_volume_map := bucketSub st.dollar_volume_map (s % 65536) ⟨th, hth⟩ (u64mul p q)
      volume_map := bucketSub st.volume_map (s % 65536) ⟨th, hth⟩ q } := by
  simp only [handleMessage, he, hth, dite_true]

theorem applyTrade_inv (st : AggState) (m s mn p q : Nat) (hm : m < 24)
    (hk : KeysPresent st.stock_map st.volume_map st.dollar_volume_map) (hmh : MatchHours st) :
    ∃ st2, applyTrade st m s mn p q = .ok st2 ∧
      KeysPresent st2.stock_map st2.volume_map st2.dollar_volume_map ∧ MatchHours st2 ∧
      st2.cur_hour = st.cur_hour := by
  refine ⟨_, applyTrade_ok st m s mn p q hm, ?_, ?_, rfl⟩
  · intro x hx
    exact ⟨bucketAdd_isSome _ _ _ _ _ (hk x hx).1, bucketAdd_isSome _ _ _ _ _ (hk x hx).2⟩
  · intro k e he
    simp only [UMap.assign] at he
    split at he
    · cases he; exact hm
    · exact hmh k e he

theorem range'_glue (a b c : Nat) (hab : a ≤ b) (hbc : b ≤ c) :
    List.range' a (b - a) ++ List.range' b (c - b) = List.range' a (c - a) := by
  obtain ⟨x, rfl⟩ := Nat.exists_eq_add_of_le hab
  obtain ⟨y, rfl⟩ := Nat.exists_eq_add_of_le hbc
  have e1 : a + x - a = x := by omega
  have e2 : a + x + y - (a + x) = y := by omega
  have e3 : a + x + y - a = x + y := by omega
  rw [e1, e2, e3, List.range'_append_1, Nat.add_comm]

theorem handleMessage_inv (st : AggState) (m : Nat) (message : ItchMessage) (hm : m < 24)
    (hk : KeysPresent st.stock_map st.volume_map st.dollar_volume_map) (hmh : MatchHours st) :
    ∃ st2, handleMessage st m message = .ok st2 ∧
      KeysPresent st2.stock_map st2.volume_map st2.dollar_volume_map ∧ MatchHours st2 ∧
      st2.cur_hour = st.cur_hour := by
  cases message with
  | StockDirectoryMessage hdr sym =>
    refine ⟨_, rfl, ?_, hmh, rfl⟩
    intro x hx
    rcases mem_stockAssign _ _ _ _ hx with rfl | hx'
    · exact ⟨assign_self_isSome _ _ _, assign_self_isSome _ _ _⟩
    · exact ⟨assign_isSome _ _ _ _ (hk x hx').1, assign_isSome _ _ _ _ (hk x hx').2⟩
  | AddOrderMessage hdr o sh pr => exact ⟨_, rfl, hk, hmh, rfl⟩
  | AddOrderMPIDAttributionMessage hdr o sh pr => exact ⟨_, rfl, hk, hmh, rfl⟩
  | OrderExecutedMessage hdr o q mn =>
    exact applyTrade_inv { st with order_price_map := _ } m _ _ _ _ hm hk hmh
  | OrderExecutedWithPriceMessage hdr o q mn pr ep =>
    by_cases hp : pr = 78
    · exact ⟨st, by simp [handleMessage, hp], hk, hmh, rfl⟩
    · simpa [handleMessage, hp] using applyTrade_inv st m hdr.stock_id mn ep q hm hk hmh
  | OrderReplaceMessage hdr o n sh pr => exact ⟨_, rfl, hk, hmh, rfl⟩
  | NonCrossTradeMessage hdr o sh pr mn => exact applyTrade_inv st m _ _ _ _ hm hk hmh
  | CrossTradeMessage hdr sh pr mn => exact applyTrade_inv st m _ _ _ _ hm hk hmh
  | BrokenTradeMessage hdr mn =>
    cases he : st.matchID_trade_map (mn % 65536) with
    | none => exact ⟨st, by simp [handleMessage, he], hk, hmh, rfl⟩
    | some e =>
      obtain ⟨s, p, q, th⟩ := e
      have hth : th < 24 := hmh _ _ he
      refine ⟨_, handleMessage_broken_ok st m hdr mn s p q th he hth, ?_, hmh, rfl⟩
      intro x hx
      exact ⟨bucketSub_isSome _ _ _ _ _ (hk x hx).1, bucketSub_isSome _ _ _ _ _ (hk x hx).2⟩

theorem getMsgHour_lt (t : Nat) (ht : t < dayNanos) : getMsgHour t < 24 := by
  unfold getMsgHour; unfold dayNanos at ht; omega

theorem hourEmissions_hours (st : AggState) (n : Nat) :
    (hourEmissions st n).map Emission.hour = List.range' st.cur_hour n := by
  simp [hourEmissions, List.map_map, Function.comp_def]

theorem hourEmissions_ok (st : AggState) (n : Nat) (hn : st.cur_hour + n ≤ 24)
    (hk : KeysPresent st.stock_map st.volume_map st.dollar_volume_map) :
    ∀ e ∈ hourEmissions st n, ∃ rows, e.output = .ok rows := by
  intro e he
  simp only [hourEmissions, List.mem_map, List.mem_range'_1] at he
  obtain ⟨h, ⟨_, h2⟩, rfl⟩ := he
  exact ⟨_, calcAndOutputVWAP_ok h (by omega) _ _ _ hk⟩

theorem processOne_inv (st : AggState) (message : ItchMessage)
    (ht : message.hdr.message_time < dayNanos) (hc : st.cur_hour ≤ 23)
    (hk : KeysPresent st.stock_map st.volume_map st.dollar_volume_map) (hmh : MatchHours st) :
    ∃ st2 out, processOne st message = .ok (st2, out) ∧
      KeysPresent st2.stock_map st2.volume_map st2.dollar_volume_map ∧ MatchHours st2 ∧
      st.cur_hour ≤ st2.cur_hour ∧ st2.cur_hour ≤ 23 ∧
      out.map Emission.hour = List.range' st.cur_hour (st2.cur_hour - st.cur_hour) ∧
      ∀ e ∈ out, ∃ rows, e.output = .ok rows := by
  have hm := getMsgHour_lt _ ht
  obtain ⟨st2, h2, hk2, hmh2, hc2⟩ :=
    handleMessage_inv { st with cur_hour := st.cur_hour +
      (getMsgHour message.hdr.message_time - st.cur_hour) }
      (getMsgHour message.hdr.message_time) message hm hk hmh
  refine ⟨st2, hourEmissions st (getMsgHour message.hdr.message_time - st.cur_hour), ?_, hk2,
    hmh2, ?_, ?_, ?_, ?_⟩
  · simp only [processOne, hourLoop_ok _ st hk, h2]
  · rw [hc2]; simp
  · rw [hc2]; simp only; omega
  · rw [hc2, hourEmissions_hours]; simp
  · exact hourEmissions_ok st _ (by omega) hk

theorem processLoop_inv : ∀ (queue : List ItchMessage) (st : AggState),
    (∀ message ∈ queue, message.hdr.message_time < dayNanos) → st.cur_hour ≤ 23 →
    KeysPresent st.stock_map st.volume_map st.dollar_volume_map → MatchHours st →
    ∃ st2 out, processLoop st queue = .ok (st2, out) ∧
      KeysPresent st2.stock_map st2.volume_map st2.dollar_volume_map ∧ MatchHours st2 ∧
      st.cur_hour ≤ st2.cur_hour ∧ st2.cur_hour ≤ 23 ∧
      out.map Emission.hour = List.range' st.cur_hour (st2.cur_hour - st.cur_hour) ∧
      ∀ e ∈ out, ∃ rows, e.output = .ok rows
  | [], st, _, hc, hk, hmh => ⟨st, [], rfl, hk, hmh, Nat.le_refl _, hc, by simp, by simp⟩
  | message :: rest, st, ht, hc, hk, hmh => by
    obtain ⟨st1, out1, h1, hk1, hmh1, hle1, hc1, hh1, ho1⟩ :=
      processOne_inv st message (ht _ (List.mem_cons_self _ _)) hc hk hmh
    obtain ⟨st2, out2, h2, hk2, hmh2, hle2, hc2, hh2, ho2⟩ :=
      processLoop_inv rest st1 (fun m hm => ht m (List.mem_cons_of_mem _ hm)) hc1 hk1 hmh1
    refine ⟨st2, out1 ++ out2, by simp only [processLoop, h1, h2], hk2, hmh2,
      Nat.le_trans hle1 hle2, hc2, ?_, ?_⟩
    · rw [List.map_append, hh1, hh2, range'_glue _ _ _ hle1 hle2]
    · intro e he
      rcases List.mem_append.mp he with h | h
      · exact ho1 e h
      · exact ho2 e h


/-! ## Whole run -/

/-- C3: when every timestamp is below 24 h, the run of `processMessage` succeeds, the calls of
the hourly emission made by the main loop and then by the end-of-stream loop are for the hours
0, 1, ..., 23, once each and in ascending order, each call writes its rows, the end-of-stream
loop makes the calls from the watermark reached by the main loop up to 23, and `cur_hour`
ends at 24. -/
theorem C3_whole_run_hours (queue : List ItchMessage)
    (ht : ∀ message ∈ queue, message.hdr.message_time < 86400000000000) :
    ∃ st1 out1 st2 out2,
      processLoop AggState.init queue = .ok (st1, out1) ∧
      hourLoop (24 - st1.cur_hour) st1 = .ok (st2, out2) ∧
      processMessage queue = .ok (st2, out1 ++ out2) ∧
      (out1 ++ out2).map Emission.hour = List.range 24 ∧
      out2.map Emission.hour = List.range' st1.cur_hour (24 - st1.cur_hour) ∧
      (∀ e ∈ out1 ++ out2, ∃ rows, e.output = .ok rows) ∧
      st2.cur_hour = 24 := by
  have hk0 : KeysPresent AggState.init.stock_map AggState.init.volume_map
      AggState.init.dollar_volume_map := by
    intro p hp; simp [AggState.init] at hp
  have hm0 : MatchHours AggState.init := by
    intro k e he; simp [AggState.init, UMap.empty] at he
  obtain ⟨st1, out1, h1, hk1, _, _, hc1, hh1, ho1⟩ :=
    processLoop_inv queue AggState.init ht (by simp [AggState.init]) hk0 hm0
  have h2 := hourLoop_ok (24 - st1.cur_hour) st1 hk1
  refine ⟨st1, out1, _, _, h1, h2, by simp only [processMessage, h1, h2], ?_,
    hourEmissions_hours _ _, ?_, ?_⟩
  · rw [List.map_append, hh1, hourEmissions_hours]
    have h0 : AggState.init.cur_hour = 0 := rfl
    rw [h0, range'_glue 0 st1.cur_hour 24 (Nat.zero_le _) (by omega), List.range_eq_range']
  · intro e he
    rcases List.mem_append.mp he with h | h
    · exact ho1 e h
    · exact hourEmissions_ok st1 _ (by omega) hk1 e h
  · show st1.cur_hour + (24 - st1.cur_hour) = 24
    omega

/-- Witness of C3: the minimal-trade scenario, whose last event is stamped 09:30:00. -/
theorem C3_whole_run_hours_witness :
    (∀ message ∈ scenarioMinimal, message.hdr.message_time < 86400000000000) ∧
    ∃ st1 out1 st2 out2,
      processLoop AggState.init scenarioMinimal = .ok (st1, out1) ∧
      hourLoop (24 - st1.cur_hour) st1 = .ok (st2, out2) ∧
      processMessage scenarioMinimal = .ok (st2, out1 ++ out2) ∧
      (out1 ++ out2).map Emission.hour = List.range 24 ∧
      out2.map Emission.hour = List.range' st1.cur_hour (24 - st1.cur_hour) ∧
      (∀ e ∈ out1 ++ out2, ∃ rows, e.output = .ok rows) ∧
      st2.cur_hour = 24 :=
  ⟨by decide, C3_whole_run_hours scenarioMinimal (by decide)⟩


/-! ## Handlers -/

theorem processOne_eq (st : AggState) (message : ItchMessage)
    (hk : KeysPresent st.stock_map st.volume_map st.dollar_volume_map) :
    processOne st message =
      match handleMessage
          { st with cur_hour := st.cur_hour + (getMsgHour message.hdr.message_time - st.cur_hour) }
          (getMsgHour message.hdr.message_time) message with
      | .error f => .error f
      | .ok st2 => .ok (st2, hourEmissions st
        (getMsgHour message.hdr.message_time - st.cur_hour)) := by
  simp only [processOne, hourLoop_ok _ st hk]

theorem processOne_ok_of_handle (st : AggState) (message : ItchMessage) (st2 : AggState)
    (hk : KeysPresent st.stock_map st.volume_map st.dollar_volume_map)
    (h : handleMessage
      { st with cur_hour := st.cur_hour + (getMsgHour message.hdr.message_time - st.cur_hour) }
      (getMsgHour message.hdr.message_time) message = .ok st2) :
    processOne st message
      = .ok (st2, hourEmissions st (getMsgHour message.hdr.message_time - st.cur_hour)) := by
  rw [processOne_eq st _ hk, h]

theorem bucket_bucketAdd_same (m : UMap HourArray) (s : Nat) (h : Fin 24) (a : Nat) :
    bucket (bucketAdd m s h a) s h = (bucket m s h + a) % 2 ^ 64 := by
  simp [bucket, bucketAdd, UMap.subscript, UMap.assign, u64add]

theorem bucket_bucketSub_same (m : UMap HourArray) (s : Nat) (h : Fin 24) (a : Nat) :
    bucket (bucketSub m s h a) s h = (bucket m s h + (2 ^ 64 - a % 2 ^ 64)) % 2 ^ 64 := by
  simp [bucket, bucketSub, UMap.subscript, UMap.assign, u64sub]

theorem bucket_assign_update_other (m : UMap HourArray) (s : Nat) (h : Fin 24) (v : Nat)
    (s' : Nat) (h' : Fin 24) (hne : (s', h') ≠ (s, h)) :
    bucket (m.assign s (Function.update (m.subscript s zeroArray) h v)) s' h' = bucket m s' h' := by
  unfold bucket
  by_cases hs : s' = s
  · subst hs
    have hh : h' ≠ h := fun e => hne (by rw [e])
    simp [UMap.subscript, UMap.assign, Function.update_noteq hh]
  · simp [UMap.subscript, UMap.assign, hs]

theorem bucket_bucketAdd_other (m : UMap HourArray) (s : Nat) (h : Fin 24) (a : Nat)
    (s' : Nat) (h' : Fin 24) (hne : (s', h') ≠ (s, h)) :
    bucket (bucketAdd m s h a) s' h' = bucket m s' h' :=
  bucket_assign_update_other m s h _ s' h' hne

theorem bucket_bucketSub_other (m : UMap HourArray) (s : Nat) (h : Fin 24) (a : Nat)
    (s' : Nat) (h' : Fin 24) (hne : (s', h') ≠ (s, h)) :
    bucket (bucketSub m s h a) s' h' = bucket m s' h' :=
  bucket_assign_update_other m s h _ s' h' hne

/-- C4: in a state whose registered stocks have their arrays, an E event stamped in an hour
`h < 24` is processed without fault; with `p` the price stored for the order (0 when the order
has no entry) it adds the shares to `volume[s][h]` and the 64-bit product `p * shares` to
`dollar_volume[s][h]` (both sums modulo 2^64), stores `(s, p, shares, h)` in the match index at
the key of the match number, and changes no other bucket. -/
theorem C4_execute_by_order_reference (st : AggState) (hdr : ItchHeader)
    (order_id executed_shares match_number : Nat)
    (hk : KeysPresent st.stock_map st.volume_map st.dollar_volume_map)
    (hh : getMsgHour hdr.message_time < 24) :
    ∃ st2 out,
      processOne st (.OrderExecutedMessage hdr order_id executed_shares match_number)
        = .ok (st2, out) ∧
      bucket st2.volume_map hdr.stock_id ⟨getMsgHour hdr.message_time, hh⟩ =
        (bucket st.volume_map hdr.stock_id ⟨getMsgHour hdr.message_time, hh⟩
          + executed_shares) % 2 ^ 64 ∧
      bucket st2.dollar_volume_map hdr.stock_id ⟨getMsgHour hdr.message_time, hh⟩ =
        (bucket st.dollar_volume_map hdr.stock_id ⟨getMsgHour hdr.message_time, hh⟩
          + ((st.order_price_map order_id).getD 0 * executed_shares) % 2 ^ 64) % 2 ^ 64 ∧
      st2.matchID_trade_map (match_number % 65536) =
        some (hdr.stock_id, (st.order_price_map order_id).getD 0, executed_shares,
          getMsgHour hdr.message_time) ∧
      ∀ (s : Nat) (h : Fin 24), (s, h) ≠ (hdr.stock_id, ⟨getMsgHour hdr.message_time, hh⟩) →
        bucket st2.volume_map s h = bucket st.volume_map s h ∧
        bucket st2.dollar_volume_map s h = bucket st.dollar_volume_map s h := by
  have hstep := processOne_ok_of_handle st
    (.OrderExecutedMessage hdr order_id executed_shares match_number) _ hk
    (applyTrade_ok _ _ _ _ _ _ hh)
  refine ⟨_, _, hstep, bucket_bucketAdd_same _ _ _ _, bucket_bucketAdd_same _ _ _ _, ?_, ?_⟩
  · simp [UMap.assign, UMap.subscript]
  · intro s h hne
    exact ⟨bucket_bucketAdd_other _ _ _ _ s h hne, bucket_bucketAdd_other _ _ _ _ s h hne⟩


/-- Witness of C4: the minimal-trade scenario.  In the state reached after R(1, "AAA") and
A(order 10, price 100000) the E event for 500 shares with match 1 at 09:30:00 meets the
hypotheses of C4; the complete run ends with `volume[1][9] = 500` and
`dollar_volume[1][9] = 50000000`, and its emission of hour 9 is the single row AAA,1,9 whose
value is exactly 10. -/
theorem C4_execute_by_order_reference_witness :
    (KeysPresent stateBeforeExecution.stock_map stateBeforeExecution.volume_map
      stateBeforeExecution.dollar_volume_map ∧
    ∃ st2 out,
      processOne stateBeforeExecution (.OrderExecutedMessage ⟨1, clock 9 30 0⟩ 10 500 1)
        = .ok (st2, out) ∧
      bucket st2.volume_map 1 ⟨9, by decide⟩ =
        (bucket stateBeforeExecution.volume_map 1 ⟨9, by decide⟩ + 500) % 2 ^ 64 ∧
      bucket st2.dollar_volume_map 1 ⟨9, by decide⟩ =
        (bucket stateBeforeExecution.dollar_volume_map 1 ⟨9, by decide⟩
          + ((stateBeforeExecution.order_price_map 10).getD 0 * 500) % 2 ^ 64) % 2 ^ 64 ∧
      st2.matchID_trade_map (1 % 65536) =
        some (1, (stateBeforeExecution.order_price_map 10).getD 0, 500, 9) ∧
      ∀ (s : Nat) (h : Fin 24), (s, h) ≠ (1, ⟨9, by decide⟩) →
        bucket st2.volume_map s h = bucket stateBeforeExecution.volume_map s h ∧
        bucket st2.dollar_volume_map s h = bucket stateBeforeExecution.dollar_volume_map s h) ∧
    (∃ st out, processMessage scenarioMinimal = .ok (st, out) ∧
      bucket st.volume_map 1 9 = 500 ∧ bucket st.dollar_volume_map 1 9 = 50000000 ∧
      st.matchID_trade_map 1 = some (1, 100000, 500, 9) ∧
      out[9]? = some ⟨9, .ok [⟨[65, 65, 65], 1, 9, 50000000, 500⟩]⟩) ∧
    Row.vwap ⟨[65, 65, 65], 1, 9, 50000000, 500⟩ = 10 :=
  ⟨⟨by decide,
    C4_execute_by_order_reference stateBeforeExecution ⟨1, clock 9 30 0⟩ 10 500 1
      (by decide) (by decide)⟩,
   ⟨_, _, rfl, by decide, by decide, by decide, by decide⟩,
   by norm_num [Row.vwap]⟩

theorem u64sub_exact (a b : Nat) (hb : b ≤ a) (ha : a < 2 ^ 64) :
    (a + (2 ^ 64 - b % 2 ^ 64)) % 2 ^ 64 = a - b := by
  have h64 : (2 : Nat) ^ 64 = 18446744073709551616 := by norm_num
  rw [h64] at ha ⊢
  omega

/-- C5: when the match index holds `(s, p, q, h)` at the key of match number `m`, with `s` a
16-bit stock id and `h < 24`, a B event for `m` with any timestamp is processed without fault;
it subtracts `q` from `volume[s][h]` and `p * q` from `dollar_volume[s][h]` (64-bit arithmetic,
exact when nothing underflows), changes no other bucket, whatever the hour of the B event is,
and leaves the whole match index, the entry included, as it was. -/
theorem C5_break_reverses_stored_hour (st : AggState) (hdr : ItchHeader)
    (match_number s p q h : Nat)
    (hk : KeysPresent st.stock_map st.volume_map st.dollar_volume_map)
    (hs : s < 65536) (hh : h < 24)
    (he : st.matchID_trade_map (match_number % 65536) = some (s, p, q, h)) :
    ∃ st2 out,
      processOne st (.BrokenTradeMessage hdr match_number) = .ok (st2, out) ∧
      bucket st2.volume_map s ⟨h, hh⟩ =
        (bucket st.volume_map s ⟨h, hh⟩ + (2 ^ 64 - q % 2 ^ 64)) % 2 ^ 64 ∧
      bucket st2.dollar_volume_map s ⟨h, hh⟩ =
        (bucket st.dollar_volume_map s ⟨h, hh⟩ + (2 ^ 64 - (p * q) % 2 ^ 64)) % 2 ^ 64 ∧
      (q ≤ bucket st.volume_map s ⟨h, hh⟩ → bucket st.volume_map s ⟨h, hh⟩ < 2 ^ 64 →
        bucket st2.volume_map s ⟨h, hh⟩ = bucket st.volume_map s ⟨h, hh⟩ - q) ∧
      (p * q ≤ bucket st.dollar_volume_map s ⟨h, hh⟩ →
        bucket st.dollar_volume_map s ⟨h, hh⟩ < 2 ^ 64 →
        bucket st2.dollar_volume_map s ⟨h, hh⟩ = bucket st.dollar_volume_map s ⟨h, hh⟩ - p * q) ∧
      (∀ (s' : Nat) (h' : Fin 24), (s', h') ≠ (s, ⟨h, hh⟩) →
        bucket st2.volume_map s' h' = bucket st.volume_map s' h' ∧
        bucket st2.dollar_volume_map s' h' = bucket st.dollar_volume_map s' h') ∧
      st2.matchID_trade_map = st.matchID_trade_map := by
  have hmod : s % 65536 = s := Nat.mod_eq_of_lt hs
  have hstep := processOne_ok_of_handle st (.BrokenTradeMessage hdr match_number) _ hk
    (handleMessage_broken_ok
      { st with cur_hour := st.cur_hour + (getMsgHour hdr.message_time - st.cur_hour) }
      (getMsgHour hdr.message_time) hdr match_number s p q h he hh)
  rw [hmod] at hstep
  have hv : bucket (bucketSub st.volume_map s ⟨h, hh⟩ q) s ⟨h, hh⟩ =
      (bucket st.volume_map s ⟨h, hh⟩ + (2 ^ 64 - q % 2 ^ 64)) % 2 ^ 64 :=
    bucket_bucketSub_same _ _ _ _
  have hd : bucket (bucketSub st.dollar_volume_map s ⟨h, hh⟩ (u64mul p q)) s ⟨h, hh⟩ =
      (bucket st.dollar_volume_map s ⟨h, hh⟩ + (2 ^ 64 - (p * q) % 2 ^ 64)) % 2 ^ 64 := by
    rw [bucket_bucketSub_same, u64mul, Nat.mod_mod]
  refine ⟨_, _, hstep, hv, hd, ?_, ?_, ?_, rfl⟩
  · intro h1 h2
    exact hv.trans (u64sub_exact _ _ h1 h2)
  · intro h1 h2
    have h3 : p * q < 2 ^ 64 := Nat.lt_of_le_of_lt h1 h2
    rw [hd, Nat.mod_eq_of_lt h3]
    have := u64sub_exact _ _ h1 h2
    rwa [Nat.mod_eq_of_lt h3] at this
  · intro s' h' hne
    exact ⟨bucket_bucketSub_other _ _ _ _ s' h' hne, bucket_bucketSub_other _ _ _ _ s' h' hne⟩


/-- Witness of C5: the cross-hour break.  The trade with match 1 sits in hour 9 and the B event
is stamped 10:10:00; the reversal empties the buckets of hour 9 and hour 10 stays at 0. -/
theorem C5_break_reverses_stored_hour_witness :
    (KeysPresent stateTraded.stock_map stateTraded.volume_map stateTraded.dollar_volume_map ∧
     (1 : Nat) < 65536 ∧ (9 : Nat) < 24 ∧
     stateTraded.matchID_trade_map (1 % 65536) = some (1, 100000, 500, 9) ∧
     ∃ st2 out,
      processOne stateTraded (.BrokenTradeMessage ⟨1, clock 10 10 0⟩ 1) = .ok (st2, out) ∧
      bucket st2.volume_map 1 ⟨9, by decide⟩ =
        (bucket stateTraded.volume_map 1 ⟨9, by decide⟩ + (2 ^ 64 - 500 % 2 ^ 64)) % 2 ^ 64 ∧
      bucket st2.dollar_volume_map 1 ⟨9, by decide⟩ =
        (bucket stateTraded.dollar_volume_map 1 ⟨9, by decide⟩
          + (2 ^ 64 - (100000 * 500) % 2 ^ 64)) % 2 ^ 64 ∧
      (500 ≤ bucket stateTraded.volume_map 1 ⟨9, by decide⟩ →
        bucket stateTraded.volume_map 1 ⟨9, by decide⟩ < 2 ^ 64 →
        bucket st2.volume_map 1 ⟨9, by decide⟩
          = bucket stateTraded.volume_map 1 ⟨9, by decide⟩ - 500) ∧
      (100000 * 500 ≤ bucket stateTraded.dollar_volume_map 1 ⟨9, by decide⟩ →
        bucket stateTraded.dollar_volume_map 1 ⟨9, by decide⟩ < 2 ^ 64 →
        bucket st2.dollar_volume_map 1 ⟨9, by decide⟩
          = bucket stateTraded.dollar_volume_map 1 ⟨9, by decide⟩ - 100000 * 500) ∧
      (∀ (s' : Nat) (h' : Fin 24), (s', h') ≠ (1, ⟨9, by decide⟩) →
        bucket st2.volume_map s' h' = bucket stateTraded.volume_map s' h' ∧
        bucket st2.dollar_volume_map s' h' = bucket stateTraded.dollar_volume_map s' h') ∧
      st2.matchID_trade_map = stateTraded.matchID_trade_map) ∧
    (∃ st2 out,
      processOne stateTraded (.BrokenTradeMessage ⟨1, clock 10 10 0⟩ 1) = .ok (st2, out) ∧
      bucket st2.volume_map 1 9 = 0 ∧ bucket st2.dollar_volume_map 1 9 = 0 ∧
      bucket st2.volume_map 1 10 = 0 ∧ bucket st2.dollar_volume_map 1 10 = 0 ∧
      st2.matchID_trade_map 1 = some (1, 100000, 500, 9) ∧
      st2.cur_hour = 10 ∧ out.map Emission.hour = [9]) :=
  ⟨⟨by decide, by decide, by decide, by decide,
    C5_break_reverses_stored_hour stateTraded ⟨1, clock 10 10 0⟩ 1 1 100000 500 9
      (by decide) (by decide) (by decide) (by decide)⟩,
   ⟨_, _, rfl, by decide, by decide, by decide, by decide, by decide, by decide, by decide⟩⟩

/-- A B event whose key slot in the match index is empty changes nothing but the watermark. -/
theorem break_empty_slot_noop (st : AggState) (hdr : ItchHeader) (match_number : Nat)
    (hk : KeysPresent st.stock_map st.volume_map st.dollar_volume_map)
    (he : st.matchID_trade_map (match_number % 65536) = none) :
    processOne st (.BrokenTradeMessage hdr match_number) =
      .ok ({ st with cur_hour := st.cur_hour + (getMsgHour hdr.message_time - st.cur_hour) },
        hourEmissions st (getMsgHour hdr.message_time - st.cur_hour)) := by
  apply processOne_ok_of_handle st (.BrokenTradeMessage hdr match_number) _ hk
  simp only [handleMessage]
  simp only [he]
  rfl

/-- C6, evaluated: after R(1) and one trade of 100 shares with match number 1, the B event for
match number 65537, which no trade carried, finds the entry of match 1 under the 16-bit key
`65537 % 65536 = 1` and subtracts it: `volume[1][9]` goes from 100 to 0 and
`dollar_volume[1][9]` from 1000000 to 0. -/
theorem C6_unmatched_break_subtracts :
    ∃ st1 out1 st2 out2,
      processLoop AggState.init tradeMatchOne = .ok (st1, out1) ∧
      (oracleTrades UMap.empty tradeMatchOne).map OracleTrade.match_number = [1] ∧
      processOne st1 breakUnmatched = .ok (st2, out2) ∧
      bucket st1.volume_map 1 9 = 100 ∧ bucket st1.dollar_volume_map 1 9 = 1000000 ∧
      bucket st2.volume_map 1 9 = 0 ∧ bucket st2.dollar_volume_map 1 9 = 0 :=
  ⟨_, _, _, _, rfl, by decide, rfl, by decide, by decide, by decide, by decide⟩

/-- C1, evaluated: two trades of stock 1 in hour 9 carry the distinct match numbers 1 and 65537,
which share the 16-bit key 1, and match 1 is then broken.  The oracle keeps the second trade
(7 shares, 70000), the run ends with `volume[1][9] = 100` and `dollar_volume[1][9] = 1000000`:
the break reversed the second trade. -/
theorem C1_reconciliation_fails_on_colliding_keys :
    ∃ st out,
      processMessage scenarioCollidingKeys = .ok (st, out) ∧
      (oracleTrades UMap.empty scenarioCollidingKeys).map OracleTrade.match_number = [1, 65537] ∧
      oracleBroken scenarioCollidingKeys = [1] ∧
      oracleVolume scenarioCollidingKeys 1 9 = 7 ∧
      oracleDollarVolume scenarioCollidingKeys 1 9 = 70000 ∧
      bucket st.volume_map 1 9 = 100 ∧
      bucket st.dollar_volume_map 1 9 = 1000000 :=
  ⟨_, _, rfl, by decide, by decide, by decide, by decide, by decide, by decide⟩


/-- C7: a C event whose `printable` is 'N' (code 78), with any timestamp, is processed without
fault and leaves the symbol table, the order prices, both accumulator maps and the match index
as they were.  A C event with another `printable`, stamped in an hour `h < 24`, is applied as
a trade at `execution_price`: it adds the shares to `volume[s][h]` and
`execution_price * shares` to `dollar_volume[s][h]` (modulo 2^64), stores
`(s, execution_price, shares, h)` at the key of the match number, changes no other bucket, and
neither reads nor changes the order prices. -/
theorem C7_execute_with_price (st : AggState) (hdr : ItchHeader)
    (order_id executed_shares match_number printable execution_price : Nat)
    (hk : KeysPresent st.stock_map st.volume_map st.dollar_volume_map) :
    (printable = 78 →
      ∃ st2 out,
        processOne st (.OrderExecutedWithPriceMessage hdr order_id executed_shares match_number
          printable execution_price) = .ok (st2, out) ∧
        st2.stock_map = st.stock_map ∧ st2.order_price_map = st.order_price_map ∧
        st2.volume_map = st.volume_map ∧ st2.dollar_volume_map = st.dollar_volume_map ∧
        st2.matchID_trade_map = st.matchID_trade_map) ∧
    (printable ≠ 78 → ∀ hh : getMsgHour hdr.message_time < 24,
      ∃ st2 out,
        processOne st (.OrderExecutedWithPriceMessage hdr order_id executed_shares match_number
          printable execution_price) = .ok (st2, out) ∧
        bucket st2.volume_map hdr.stock_id ⟨getMsgHour hdr.message_time, hh⟩ =
          (bucket st.volume_map hdr.stock_id ⟨getMsgHour hdr.message_time, hh⟩
            + executed_shares) % 2 ^ 64 ∧
        bucket st2.dollar_volume_map hdr.stock_id ⟨getMsgHour hdr.message_time, hh⟩ =
          (bucket st.dollar_volume_map hdr.stock_id ⟨getMsgHour hdr.message_time, hh⟩
            + (execution_price * executed_shares) % 2 ^ 64) % 2 ^ 64 ∧
        st2.matchID_trade_map (match_number % 65536) =
          some (hdr.stock_id, execution_price, executed_shares, getMsgHour hdr.message_time) ∧
        (∀ (s : Nat) (h : Fin 24), (s, h) ≠ (hdr.stock_id, ⟨getMsgHour hdr.message_time, hh⟩) →
          bucket st2.volume_map s h = bucket st.volume_map s h ∧
          bucket st2.dollar_volume_map s h = bucket st.dollar_volume_map s h) ∧
        st2.order_price_map = st.order_price_map) := by
  constructor
  · intro hp
    have hstep := processOne_ok_of_handle st
      (.OrderExecutedWithPriceMessage hdr order_id executed_shares match_number printable
        execution_price) _ hk (by simp only [handleMessage, hp, if_true]; rfl)
    exact ⟨_, _, hstep, rfl, rfl, rfl, rfl, rfl⟩
  · intro hp hh
    have hstep := processOne_ok_of_handle st
      (.OrderExecutedWithPriceMessage hdr order_id executed_shares match_number printable
        execution_price) _ hk
      (by simp only [handleMessage, hp, if_false]; exact applyTrade_ok _ _ _ _ _ _ hh)
    refine ⟨_, _, hstep, bucket_bucketAdd_same _ _ _ _, bucket_bucketAdd_same _ _ _ _, ?_, ?_,
      rfl⟩
    · simp [UMap.assign]
    · intro s h hne
      exact ⟨bucket_bucketAdd_other _ _ _ _ s h hne, bucket_bucketAdd_other _ _ _ _ s h hne⟩

/-- Witness of C7: after R(1, "CCC") the event C(order 30, 100 shares, match 3, printable 'N',
price 500000) at 11:00:00 changes no map, and the complete run of the scenario writes no row
in hour 11; the same event with printable 'Y' adds 100 shares and 50000000 to hour 11. -/
theorem C7_execute_with_price_witness :
    KeysPresent stateRegistered.stock_map stateRegistered.volume_map
      stateRegistered.dollar_volume_map ∧
    (∃ st2 out,
      processOne stateRegistered (.OrderExecutedWithPriceMessage ⟨1, clock 11 0 0⟩ 30 100 3 78
        500000) = .ok (st2, out) ∧
      st2.stock_map = stateRegistered.stock_map ∧
      st2.order_price_map = stateRegistered.order_price_map ∧
      st2.volume_map = stateRegistered.volume_map ∧
      st2.dollar_volume_map = stateRegistered.dollar_volume_map ∧
      st2.matchID_trade_map = stateRegistered.matchID_trade_map) ∧
    (∃ st2 out,
      processOne stateRegistered (.OrderExecutedWithPriceMessage ⟨1, clock 11 0 0⟩ 30 100 3 89
        500000) = .ok (st2, out) ∧
      bucket st2.volume_map 1 ⟨11, by decide⟩ =
        (bucket stateRegistered.volume_map 1 ⟨11, by decide⟩ + 100) % 2 ^ 64 ∧
      bucket st2.dollar_volume_map 1 ⟨11, by decide⟩ =
        (bucket stateRegistered.dollar_volume_map 1 ⟨11, by decide⟩
          + (500000 * 100) % 2 ^ 64) % 2 ^ 64 ∧
      st2.matchID_trade_map (3 % 65536) = some (1, 500000, 100, 11) ∧
      (∀ (s : Nat) (h : Fin 24), (s, h) ≠ (1, ⟨11, by decide⟩) →
        bucket st2.volume_map s h = bucket stateRegistered.volume_map s h ∧
        bucket st2.dollar_volume_map s h = bucket stateRegistered.dollar_volume_map s h) ∧
      st2.order_price_map = stateRegistered.order_price_map) ∧
    (∃ st out, processMessage scenarioNonPrintable = .ok (st, out) ∧
      out[11]? = some ⟨11, .ok []⟩ ∧
      (∀ h : Fin 24, bucket st.volume_map 1 h = 0 ∧ bucket st.dollar_volume_map 1 h = 0) ∧
      st.matchID_trade_map 3 = none) :=
  ⟨by decide,
   (C7_execute_with_price stateRegistered ⟨1, clock 11 0 0⟩ 30 100 3 78 500000 (by decide)).1 rfl,
   (C7_execute_with_price stateRegistered ⟨1, clock 11 0 0⟩ 30 100 3 89 500000 (by decide)).2
     (by decide) (by decide),
   ⟨_, _, rfl, by decide, by decide, by decide⟩⟩


/-! ## Reading primitives -/

theorem loadLE_append_single (xs : List Nat) (b : Nat) :
    loadLE (xs ++ [b]) = loadLE xs + 256 ^ xs.length * b := by
  induction xs with
  | nil => simp [loadLE]
  | cons x xs ih =>
    show x + 256 * loadLE (xs ++ [b]) = (x + 256 * loadLE xs) + 256 ^ (xs.length + 1) * b
    rw [ih, pow_succ]
    ring

theorem foldl_be_eq (bs : List Nat) : ∀ acc : Nat,
    bs.foldl (fun acc b => acc * 256 + b) acc = acc * 256 ^ bs.length + loadLE bs.reverse := by
  induction bs with
  | nil => intro acc; simp [loadLE]
  | cons b bs ih =>
    intro acc
    simp only [List.foldl_cons, ih, List.reverse_cons, loadLE_append_single, List.length_cons,
      List.length_reverse, pow_succ]
    ring

theorem loadLE_reverse (bs : List Nat) : loadLE bs.reverse = beNat bs := by
  simp [beNat, foldl_be_eq]

theorem storeLE_loadLE : ∀ bs : List Nat, (∀ b ∈ bs, b < 256) →
    storeLE bs.length (loadLE bs) = bs
  | [], _ => rfl
  | b :: bs, h => by
    have hb : b < 256 := h b (List.mem_cons_self _ _)
    have ih := storeLE_loadLE bs (fun x hx => h x (List.mem_cons_of_mem _ hx))
    have h1 : (b + 256 * loadLE bs) % 256 = b := by omega
    have h2 : (b + 256 * loadLE bs) / 256 = loadLE bs := by omega
    simp only [List.length_cons, loadLE, storeLE, h1, h2, ih]

theorem swap_endian_loadLE (bs : List Nat) (h : ∀ b ∈ bs, b < 256) :
    swap_endian bs.length (loadLE bs) = beNat bs := by
  rw [swap_endian, storeLE_loadLE bs h, loadLE_reverse]

theorem bytesAt_length (buf : List Byte) (pos n : Nat) : (bytesAt buf pos n).length = n := by
  simp [bytesAt]

theorem bytesAt_lt (buf : List Byte) (pos n : Nat) : ∀ b ∈ bytesAt buf pos n, b < 256 := by
  intro b hb
  simp only [bytesAt, List.mem_map] at hb
  obtain ⟨i, _, rfl⟩ := hb
  exact Fin.isLt _

theorem read_ok (n : Nat) (buf : List Byte) (buffer : Nat) (h : buffer + n ≤ buf.length) :
    read n buf buffer = .ok (fieldBE buf buffer n, buffer + n) := by
  have hs := swap_endian_loadLE (bytesAt buf buffer n) (bytesAt_lt buf buffer n)
  rw [bytesAt_length] at hs
  simp only [read, h, if_true, hs, fieldBE]

theorem readChar_ok (buf : List Byte) (buffer : Nat) (h : buffer + 1 ≤ buf.length) :
    readChar buf buffer = .ok ((buf.getD buffer 0).val, buffer + 1) := by
  have hlt : buffer < buf.length := by omega
  simp [readChar, List.getD_eq_getElem?_getD, List.getElem?_eq_getElem hlt]

theorem readTimeStamp_ok (buf : List Byte) (buffer : Nat) (h : buffer + 6 ≤ buf.length) :
    readTimeStamp buf buffer = .ok (timeStampLoop buf buffer, buffer + 6) := by
  simp only [readTimeStamp, h, if_true]

theorem readStockLoop_eq (buf : List Byte) : ∀ (i buffer : Nat) (value : Symbol),
    buffer + i ≤ buf.length →
    readStockLoop buf i buffer value = .ok (value ++
      ((List.range i).map fun j => buf.getD (buffer + j) 0).takeWhile
        fun ch => !(decide (ch.val = 0) || isspace ch.val))
  | 0, buffer, value, _ => by simp [readStockLoop]
  | i + 1, buffer, value, h => by
    have hlt : buffer < buf.length := by omega
    have ih := readStockLoop_eq buf i (buffer + 1) (value ++ [buf[buffer]]) (by omega)
    have hr : (List.range (i + 1)).map (fun j => buf.getD (buffer + j) 0)
        = buf[buffer] :: (List.range i).map (fun j => buf.getD (buffer + 1 + j) 0) := by
      rw [List.range_succ_eq_map]
      simp [List.map_map, Function.comp_def, List.getD_eq_getElem?_getD,
        List.getElem?_eq_getElem hlt, Nat.add_assoc, Nat.add_comm 1]
    rw [hr]
    simp only [readStockLoop, List.getElem?_eq_getElem hlt]
    by_cases hb : (buf[buffer]).val = 0 ∨ isspace (buf[buffer]).val = true
    · have hb2 : (!(decide ((buf[buffer]).val = 0) || isspace (buf[buffer]).val)) = false := by
        rcases hb with h0 | h1
        · simp [h0]
        · simp [h1]
      rw [if_pos hb, List.takeWhile_cons, hb2]
      simp
    · have hb2 : (!(decide ((buf[buffer]).val = 0) || isspace (buf[buffer]).val)) = true := by
        have h0 : ¬ (buf[buffer]).val = 0 := fun e => hb (Or.inl e)
        have h1 : ¬ isspace (buf[buffer]).val = true := fun e => hb (Or.inr e)
        simp [h0, h1]
      simp only [hb, if_false, ih, List.takeWhile_cons, hb2, if_true, List.append_assoc,
        List.singleton_append]

theorem readStock_ok (buf : List Byte) (buffer : Nat) (h : buffer + 8 ≤ buf.length) :
    readStock buf buffer = .ok (stockField buf buffer, buffer + 8) := by
  simp only [readStock, readStockLoop_eq buf 8 buffer [] h, List.nil_append, stockField]

theorem initalize_ok (buf : List Byte) (data : Nat) (h : data + 10 ≤ buf.length) :
    initalize buf data
      = .ok (⟨fieldBE buf data 2, timeStampLoop buf (data + 4)⟩, data + 10) := by
  simp only [initalize, read_ok 2 buf data (by omega), skipByOffset,
    readTimeStamp_ok buf (data + 2 + 2) (by omega), bind, Except.bind, pure, Except.pure]


/-! ## Message constructors -/

theorem mkStockDirectoryMessage_ok (buf : List Byte) (data : Nat) (h : data + 38 ≤ buf.length) :
    mkStockDirectoryMessage buf data = .ok (.StockDirectoryMessage
      ⟨fieldBE buf data 2, timeStampLoop buf (data + 4)⟩ (stockField buf (data + 10)),
      data + 38) := by
  simp only [mkStockDirectoryMessage, initalize_ok buf data (by omega),
    readStock_ok buf (data + 10) (by omega), skipByOffset, bind, Except.bind, pure, Except.pure]

theorem mkAddOrderMessage_ok (buf : List Byte) (data : Nat) (h : data + 35 ≤ buf.length) :
    mkAddOrderMessage buf data = .ok (.AddOrderMessage
      ⟨fieldBE buf data 2, timeStampLoop buf (data + 4)⟩ (fieldBE buf (data + 10) 8)
      (fieldBE buf (data + 19) 4) (fieldBE buf (data + 31) 4), data + 35) := by
  simp only [mkAddOrderMessage, initalize_ok buf data (by omega),
    read_ok 8 buf (data + 10) (by omega), read_ok 4 buf (data + 10 + 8 + 1) (by omega),
    read_ok 4 buf (data + 10 + 8 + 1 + 4 + 8) (by omega), skipByOffset, bind, Except.bind, pure,
    Except.pure]

theorem mkAddOrderMPIDAttributionMessage_ok (buf : List Byte) (data : Nat)
    (h : data + 39 ≤ buf.length) :
    mkAddOrderMPIDAttributionMessage buf data = .ok (.AddOrderMPIDAttributionMessage
      ⟨fieldBE buf data 2, timeStampLoop buf (data + 4)⟩ (fieldBE buf (data + 10) 8)
      (fieldBE buf (data + 19) 4) (fieldBE buf (data + 31) 4), data + 39) := by
  simp only [mkAddOrderMPIDAttributionMessage, initalize_ok buf data (by omega),
    read_ok 8 buf (data + 10) (by omega), read_ok 4 buf (data + 10 + 8 + 1) (by omega),
    read_ok 4 buf (data + 10 + 8 + 1 + 4 + 8) (by omega), skipByOffset, bind, Except.bind, pure,
    Except.pure]

theorem mkOrderExecutedMessage_ok (buf : List Byte) (data : Nat) (h : data + 30 ≤ buf.length) :
    mkOrderExecutedMessage buf data = .ok (.OrderExecutedMessage
      ⟨fieldBE buf data 2, timeStampLoop buf (data + 4)⟩ (fieldBE buf (data + 10) 8)
      (fieldBE buf (data + 18) 4) (fieldBE buf (data + 22) 8), data + 30) := by
  simp only [mkOrderExecutedMessage, initalize_ok buf data (by omega),
    read_ok 8 buf (data + 10) (by omega), read_ok 4 buf (data + 10 + 8) (by omega),
    read_ok 8 buf (data + 10 + 8 + 4) (by omega), bind, Except.bind, pure, Except.pure]

theorem mkOrderExecutedWithPriceMessage_ok (buf : List Byte) (data : Nat)
    (h : data + 35 ≤ buf.length) :
    mkOrderExecutedWithPriceMessage buf data = .ok (.OrderExecutedWithPriceMessage
      ⟨fieldBE buf data 2, timeStampLoop buf (data + 4)⟩ (fieldBE buf (data + 10) 8)
      (fieldBE buf (data + 18) 4) (fieldBE buf (data + 22) 8) (buf.getD (data + 30) 0).val
      (fieldBE buf (data + 31) 4), data + 35) := by
  simp only [mkOrderExecutedWithPriceMessage, initalize_ok buf data (by omega),
    read_ok 8 buf (data + 10) (by omega), read_ok 4 buf (data + 10 + 8) (by omega),
    read_ok 8 buf (data + 10 + 8 + 4) (by omega),
    readChar_ok buf (data + 10 + 8 + 4 + 8) (by omega),
    read_ok 4 buf (data + 10 + 8 + 4 + 8 + 1) (by omega), bind, Except.bind, pure, Except.pure]

theorem mkOrderReplaceMessage_ok (buf : List Byte) (data : Nat) (h : data + 34 ≤ buf.length) :
    mkOrderReplaceMessage buf data = .ok (.OrderReplaceMessage
      ⟨fieldBE buf data 2, timeStampLoop buf (data + 4)⟩ (fieldBE buf (data + 10) 8)
      (fieldBE buf (data + 18) 8) (fieldBE buf (data + 26) 4) (fieldBE buf (data + 30) 4),
      data + 34) := by
  simp only [mkOrderReplaceMessage, initalize_ok buf data (by omega),
    read_ok 8 buf (data + 10) (by omega), read_ok 8 buf (data + 10 + 8) (by omega),
    read_ok 4 buf (data + 10 + 8 + 8) (by omega), read_ok 4 buf (data + 10 + 8 + 8 + 4) (by omega),
    bind, Except.bind, pure, Except.pure]

theorem mkNonCrossTradeMessage_ok (buf : List Byte) (data : Nat) (h : data + 43 ≤ buf.length) :
    mkNonCrossTradeMessage buf data = .ok (.NonCrossTradeMessage
      ⟨fieldBE buf data 2, timeStampLoop buf (data + 4)⟩ (fieldBE buf (data + 10) 8)
      (fieldBE buf (data + 19) 4) (fieldBE buf (data + 31) 4) (fieldBE buf (data + 35) 8),
      data + 43) := by
  simp only [mkNonCrossTradeMessage, initalize_ok buf data (by omega),
    read_ok 8 buf (data + 10) (by omega), read_ok 4 buf (data + 10 + 8 + 1) (by omega),
    read_ok 4 buf (data + 10 + 8 + 1 + 4 + 8) (by omega),
    read_ok 8 buf (data + 10 + 8 + 1 + 4 + 8 + 4) (by omega), skipByOffset, bind, Except.bind,
    pure, Except.pure]

theorem mkCrossTradeMessage_ok (buf : List Byte) (data : Nat) (h : data + 39 ≤ buf.length) :
    mkCrossTradeMessage buf data = .ok (.CrossTradeMessage
      ⟨fieldBE buf data 2, timeStampLoop buf (data + 4)⟩ (fieldBE buf (data + 10) 8)
      (fieldBE buf (data + 26) 4) (fieldBE buf (data + 30) 8), data + 39) := by
  simp only [mkCrossTradeMessage, initalize_ok buf data (by omega),
    read_ok 8 buf (data + 10) (by omega), read_ok 4 buf (data + 10 + 8 + 8) (by omega),
    read_ok 8 buf (data + 10 + 8 + 8 + 4) (by omega), skipByOffset, bind, Except.bind, pure,
    Except.pure]

theorem mkBrokenTradeMessage_ok (buf : List Byte) (data : Nat) (h : data + 18 ≤ buf.length) :
    mkBrokenTradeMessage buf data = .ok (.BrokenTradeMessage
      ⟨fieldBE buf data 2, timeStampLoop buf (data + 4)⟩ (fieldBE buf (data + 10) 8),
      data + 18) := by
  simp only [mkBrokenTradeMessage, initalize_ok buf data (by omega),
    read_ok 8 buf (data + 10) (by omega), bind, Except.bind, pure, Except.pure]


/-! ## One iteration of the decoder -/

theorem readChar_tag (buf : List Byte) (buffer : Nat) (t : Byte) (htag : buf[buffer]? = some t) :
    readChar buf buffer = .ok (t.val, buffer + 1) := by
  simp only [readChar, htag]

theorem readIteration_created (buf : List Byte) (st : ReaderState) (t : Byte)
    (message : ItchMessage) (size : Nat) (htag : buf[st.buffer]? = some t)
    (hsize : getMessageSize t.val = size) (hne : size ≠ 0)
    (hc : createMessage t.val buf (st.buffer + 1) = some (.ok (message, st.buffer + 1 + size))) :
    readIteration buf st
      = .ok (⟨st.buffer + 1 + size, st.byte_read + (size + 1)⟩, some message) := by
  simp only [readIteration, readChar_tag buf st.buffer t htag, bind, Except.bind, hsize, hne,
    ne_eq, not_false_eq_true, if_true, hc, pure, Except.pure]

theorem readIteration_skipped (buf : List Byte) (st : ReaderState) (t : Byte) (size : Nat)
    (htag : buf[st.buffer]? = some t) (hsize : getMessageSize t.val = size) (hne : size ≠ 0)
    (hc : createMessage t.val buf (st.buffer + 1) = none) :
    readIteration buf st = .ok (⟨st.buffer + 1 + size, st.byte_read + (size + 1)⟩, none) := by
  simp only [readIteration, readChar_tag buf st.buffer t htag, bind, Except.bind, hsize, hne,
    ne_eq, not_false_eq_true, if_true, hc, pure, Except.pure, skipByOffset]

theorem readIteration_unknown (buf : List Byte) (st : ReaderState) (t : Byte)
    (htag : buf[st.buffer]? = some t) (hsize : getMessageSize t.val = 0) :
    readIteration buf st = .ok (⟨st.buffer + 1, st.byte_read + 1⟩, none) := by
  simp only [readIteration, readChar_tag buf st.buffer t htag, bind, Except.bind, hsize,
    ne_eq, not_true_eq_false, if_false, pure, Except.pure]

/-- Closed form of one iteration on a complete record of each tag with a creator. -/
theorem readIteration_vwap (buf : List Byte) (st : ReaderState) (t : Byte)
    (htag : buf[st.buffer]? = some t)
    (hlen : st.buffer + 1 + getMessageSize t.val ≤ buf.length) :
    (t.val = 82 → readIteration buf st = .ok (⟨st.buffer + 1 + 38, st.byte_read + (38 + 1)⟩,
      some (.StockDirectoryMessage
        ⟨fieldBE buf (st.buffer + 1) 2, timeStampLoop buf (st.buffer + 1 + 4)⟩
        (stockField buf (st.buffer + 1 + 10))))) ∧
    (t.val = 65 → readIteration buf st = .ok (⟨st.buffer + 1 + 35, st.byte_read + (35 + 1)⟩,
      some (.AddOrderMessage
        ⟨fieldBE buf (st.buffer + 1) 2, timeStampLoop buf (st.buffer + 1 + 4)⟩
        (fieldBE buf (st.buffer + 1 + 10) 8) (fieldBE buf (st.buffer + 1 + 19) 4)
        (fieldBE buf (st.buffer + 1 + 31) 4)))) ∧
    (t.val = 70 → readIteration buf st = .ok (⟨st.buffer + 1 + 39, st.byte_read + (39 + 1)⟩,
      some (.AddOrderMPIDAttributionMessage
        ⟨fieldBE buf (st.buffer + 1) 2, timeStampLoop buf (st.buffer + 1 + 4)⟩
        (fieldBE buf (st.buffer + 1 + 10) 8) (fieldBE buf (st.buffer + 1 + 19) 4)
        (fieldBE buf (st.buffer + 1 + 31) 4)))) ∧
    (t.val = 69 → readIteration buf st = .ok (⟨st.buffer + 1 + 30, st.byte_read + (30 + 1)⟩,
      some (.OrderExecutedMessage
        ⟨fieldBE buf (st.buffer + 1) 2, timeStampLoop buf (st.buffer + 1 + 4)⟩
        (fieldBE buf (st.buffer + 1 + 10) 8) (fieldBE buf (st.buffer + 1 + 18) 4)
        (fieldBE buf (st.buffer + 1 + 22) 8)))) ∧
    (t.val = 67 → readIteration buf st = .ok (⟨st.buffer + 1 + 35, st.byte_read + (35 + 1)⟩,
      some (.OrderExecutedWithPriceMessage
        ⟨fieldBE buf (st.buffer + 1) 2, timeStampLoop buf (st.buffer + 1 + 4)⟩
        (fieldBE buf (st.buffer + 1 + 10) 8) (fieldBE buf (st.buffer + 1 + 18) 4)
        (fieldBE buf (st.buffer + 1 + 22) 8) (buf.getD (st.buffer + 1 + 30) 0).val
        (fieldBE buf (st.buffer + 1 + 31) 4)))) ∧
    (t.val = 85 → readIteration buf st = .ok (⟨st.buffer + 1 + 34, st.byte_read + (34 + 1)⟩,
      some (.OrderReplaceMessage
        ⟨fieldBE buf (st.buffer + 1) 2, timeStampLoop buf (st.buffer + 1 + 4)⟩
        (fieldBE buf (st.buffer + 1 + 10) 8) (fieldBE buf (st.buffer + 1 + 18) 8)
        (fieldBE buf (st.buffer + 1 + 26) 4) (fieldBE buf (st.buffer + 1 + 30) 4)))) ∧
    (t.val = 80 → readIteration buf st = .ok (⟨st.buffer + 1 + 43, st.byte_read + (43 + 1)⟩,
      some (.NonCrossTradeMessage
        ⟨fieldBE buf (st.buffer + 1) 2, timeStampLoop buf (st.buffer + 1 + 4)⟩
        (fieldBE buf (st.buffer + 1 + 10) 8) (fieldBE buf (st.buffer + 1 + 19) 4)
        (fieldBE buf (st.buffer + 1 + 31) 4) (fieldBE buf (st.buffer + 1 + 35) 8)))) ∧
    (t.val = 81 → readIteration buf st = .ok (⟨st.buffer + 1 + 39, st.byte_read + (39 + 1)⟩,
      some (.CrossTradeMessage
        ⟨fieldBE buf (st.buffer + 1) 2, timeStampLoop buf (st.buffer + 1 + 4)⟩
        (fieldBE buf (st.buffer + 1 + 10) 8) (fieldBE buf (st.buffer + 1 + 26) 4)
        (fieldBE buf (st.buffer + 1 + 30) 8)))) ∧
    (t.val = 66 → readIteration buf st = .ok (⟨st.buffer + 1 + 18, st.byte_read + (18 + 1)⟩,
      some (.BrokenTradeMessage
        ⟨fieldBE buf (st.buffer + 1) 2, timeStampLoop buf (st.buffer + 1 + 4)⟩
        (fieldBE buf (st.buffer + 1 + 10) 8)))) := by
  refine ⟨?_, ?_, ?_, ?_, ?_, ?_, ?_, ?_, ?_⟩ <;> intro ht <;> rw [ht] at hlen <;>
    simp only [getMessageSize] at hlen <;>
    refine readIteration_created buf st t _ _ htag (by rw [ht]; rfl) (by decide) ?_ <;>
    rw [ht] <;> simp only [createMessage]
  · rw [mkStockDirectoryMessage_ok buf _ (by omega)]
  · rw [mkAddOrderMessage_ok buf _ (by omega)]
  · rw [mkAddOrderMPIDAttributionMessage_ok buf _ (by omega)]
  · rw [mkOrderExecutedMessage_ok buf _ (by omega)]
  · rw [mkOrderExecutedWithPriceMessage_ok buf _ (by omega)]
  · rw [mkOrderReplaceMessage_ok buf _ (by omega)]
  · rw [mkNonCrossTradeMessage_ok buf _ (by omega)]
  · rw [mkCrossTradeMessage_ok buf _ (by omega)]
  · rw [mkBrokenTradeMessage_ok buf _ (by omega)]


theorem readIteration_of_vwapTag (buf : List Byte) (st : ReaderState) (t : Byte)
    (htag : buf[st.buffer]? = some t) (hknown : t.val ∈ vwapTags)
    (hlen : st.buffer + 1 + getMessageSize t.val ≤ buf.length) :
    ∃ message, readIteration buf st = .ok (⟨st.buffer + 1 + getMessageSize t.val,
        st.byte_read + (getMessageSize t.val + 1)⟩, some message) ∧
      message.message_type = t.val := by
  have h := readIteration_vwap buf st t htag hlen
  simp only [vwapTags, List.mem_cons, List.mem_singleton, List.not_mem_nil, or_false] at hknown
  rcases hknown with ht | ht | ht | ht | ht | ht | ht | ht | ht
  · exact ⟨_, by rw [h.1 ht, ht]; rfl, by rw [ht]; rfl⟩
  · exact ⟨_, by rw [h.2.1 ht, ht]; rfl, by rw [ht]; rfl⟩
  · exact ⟨_, by rw [h.2.2.1 ht, ht]; rfl, by rw [ht]; rfl⟩
  · exact ⟨_, by rw [h.2.2.2.1 ht, ht]; rfl, by rw [ht]; rfl⟩
  · exact ⟨_, by rw [h.2.2.2.2.1 ht, ht]; rfl, by rw [ht]; rfl⟩
  · exact ⟨_, by rw [h.2.2.2.2.2.1 ht, ht]; rfl, by rw [ht]; rfl⟩
  · exact ⟨_, by rw [h.2.2.2.2.2.2.1 ht, ht]; rfl, by rw [ht]; rfl⟩
  · exact ⟨_, by rw [h.2.2.2.2.2.2.2.1 ht, ht]; rfl, by rw [ht]; rfl⟩
  · exact ⟨_, by rw [h.2.2.2.2.2.2.2.2 ht, ht]; rfl, by rw [ht]; rfl⟩

theorem readIteration_of_ignoredTag (buf : List Byte) (st : ReaderState) (t : Byte)
    (htag : buf[st.buffer]? = some t) (hknown : t.val ∈ ignoredTags) :
    readIteration buf st = .ok (⟨st.buffer + 1 + getMessageSize t.val,
      st.byte_read + (getMessageSize t.val + 1)⟩, none) := by
  simp only [ignoredTags, List.mem_cons, List.mem_singleton, List.not_mem_nil, or_false] at hknown
  rcases hknown with ht | ht | ht | ht | ht | ht | ht | ht | ht | ht | ht | ht | ht | ht <;>
    exact readIteration_skipped buf st t _ htag rfl (by rw [ht]; decide) (by rw [ht]; rfl)

/-- C9: on a buffer that holds a complete record of a known tag `t` at the read pointer, one
iteration of the decoder loop succeeds and advances the pointer and `byte_read` each by
`1 + size(t)`, so they stay equal if they were; it pushes exactly one message, of type `t`,
when `t` is one of R, A, F, E, C, U, P, Q, B and none when `t` is one of the fourteen other
known tags; the sizes of the nine are 38, 35, 39, 30, 35, 34, 43, 39, 18. -/
theorem C9_framing (buf : List Byte) (st : ReaderState) (t : Byte)
    (htag : buf[st.buffer]? = some t) (hknown : t.val ∈ vwapTags ++ ignoredTags)
    (hlen : st.buffer + 1 + getMessageSize t.val ≤ buf.length) :
    ∃ st2 out, readIteration buf st = .ok (st2, out) ∧
      st2.buffer = st.buffer + (1 + getMessageSize t.val) ∧
      st2.byte_read = st.byte_read + (1 + getMessageSize t.val) ∧
      (st.buffer = st.byte_read → st2.buffer = st2.byte_read) ∧
      (t.val ∈ vwapTags → ∃ message, out = some message ∧ message.message_type = t.val) ∧
      (t.val ∈ ignoredTags → out = none) ∧
      vwapTags.map getMessageSize = [38, 35, 39, 30, 35, 34, 43, 39, 18] := by
  rcases List.mem_append.mp hknown with hv | hi
  · obtain ⟨message, hm, hty⟩ := readIteration_of_vwapTag buf st t htag hv hlen
    refine ⟨_, _, hm, by simp only; omega, by simp only; omega, ?_, ?_, ?_, rfl⟩
    · intro h; simp only; omega
    · intro _; exact ⟨message, rfl, hty⟩
    · intro hi
      exfalso
      revert hv hi
      simp only [vwapTags, ignoredTags, List.mem_cons, List.mem_singleton, List.not_mem_nil,
        or_false]
      omega
  · refine ⟨_, _, readIteration_of_ignoredTag buf st t htag hi, by simp only; omega,
      by simp only; omega, ?_, ?_, ?_, rfl⟩
    · intro h; simp only; omega
    · intro hv
      exfalso
      revert hv hi
      simp only [vwapTags, ignoredTags, List.mem_cons, List.mem_singleton, List.not_mem_nil,
        or_false]
      omega
    · intro _; rfl

/-- Witness of C9: a B record of 19 bytes at offset 0 gives one message and moves both
counters to 19; an S record of 12 bytes gives no message and moves both to 12. -/
theorem C9_framing_witness :
    (recordBroken[0]? = some 66 ∧ (66 : Byte).val ∈ vwapTags ++ ignoredTags ∧
      0 + 1 + getMessageSize (66 : Byte).val ≤ recordBroken.length ∧
      ∃ st2 out, readIteration recordBroken ⟨0, 0⟩ = .ok (st2, out) ∧
        st2.buffer = 0 + (1 + getMessageSize (66 : Byte).val) ∧
        st2.byte_read = 0 + (1 + getMessageSize (66 : Byte).val) ∧
        ((0 : Nat) = 0 → st2.buffer = st2.byte_read) ∧
        ((66 : Byte).val ∈ vwapTags →
          ∃ message, out = some message ∧ message.message_type = (66 : Byte).val) ∧
        ((66 : Byte).val ∈ ignoredTags → out = none) ∧
        vwapTags.map getMessageSize = [38, 35, 39, 30, 35, 34, 43, 39, 18]) ∧
    readIteration recordBroken ⟨0, 0⟩
      = .ok (⟨19, 19⟩, some (.BrokenTradeMessage ⟨1, clock 9 30 0⟩ 5)) ∧
    readIteration recordSystem ⟨0, 0⟩ = .ok (⟨12, 12⟩, none) :=
  ⟨⟨by decide, by decide, by decide,
    C9_framing recordBroken ⟨0, 0⟩ 66 (by decide) (by decide) (by decide)⟩,
   by decide, by decide⟩


/-! ## Bytes that a decoded message depends on -/

theorem getD_agree (buf buf2 : List Byte) (i : Nat) (h : buf2[i]? = buf[i]?) :
    buf2.getD i 0 = buf.getD i 0 := by
  simp only [List.getD_eq_getElem?_getD, h]

theorem bytesAt_agree (buf buf2 : List Byte) (p n : Nat)
    (h : ∀ i, p ≤ i → i < p + n → buf2[i]? = buf[i]?) : bytesAt buf2 p n = bytesAt buf p n := by
  unfold bytesAt
  apply List.map_congr_left
  intro i hi
  rw [getD_agree buf buf2 (p + i) (h _ (by omega) (by have := List.mem_range.mp hi; omega))]

theorem fieldBE_agree (buf buf2 : List Byte) (p n : Nat)
    (h : ∀ i, p ≤ i → i < p + n → buf2[i]? = buf[i]?) : fieldBE buf2 p n = fieldBE buf p n := by
  rw [fieldBE, fieldBE, bytesAt_agree buf buf2 p n h]

theorem timeStampLoop_agree (buf buf2 : List Byte) (p : Nat)
    (h : ∀ i, p ≤ i → i < p + 6 → buf2[i]? = buf[i]?) :
    timeStampLoop buf2 p = timeStampLoop buf p := by
  unfold timeStampLoop
  apply List.foldl_ext
  intro a i hi
  rw [getD_agree buf buf2 (p + i) (h _ (by omega) (by have := List.mem_range.mp hi; omega))]

theorem stockField_agree (buf buf2 : List Byte) (p : Nat)
    (h : ∀ i, p ≤ i → i < p + 8 → buf2[i]? = buf[i]?) :
    stockField buf2 p = stockField buf p := by
  unfold stockField
  congr 1
  apply List.map_congr_left
  intro i hi
  rw [getD_agree buf buf2 (p + i) (h _ (by omega) (by have := List.mem_range.mp hi; omega))]

theorem fieldBE_two (buf : List Byte) (p : Nat) :
    fieldBE buf p 2 = (buf.getD p 0).val * 256 + (buf.getD (p + 1) 0).val := by
  simp [fieldBE, bytesAt, beNat, List.range_succ]


/-- A message of one of the nine tags does not depend on bytes 3 and 4 of its record. -/
theorem readIteration_agree_header (buf buf2 : List Byte) (st : ReaderState) (t : Byte)
    (htag : buf[st.buffer]? = some t) (hknown : t.val ∈ vwapTags)
    (hlen : st.buffer + 1 + getMessageSize t.val ≤ buf.length)
    (hsame : buf2.length = buf.length)
    (hagree : ∀ i, i ≠ st.buffer + 3 → i ≠ st.buffer + 4 → buf2[i]? = buf[i]?) :
    readIteration buf2 st = readIteration buf st := by
  have htag2 : buf2[st.buffer]? = some t := by
    rw [hagree st.buffer (by omega) (by omega)]; exact htag
  have h1 := readIteration_vwap buf st t htag hlen
  have h2 := readIteration_vwap buf2 st t htag2 (by rw [hsame]; exact hlen)
  have F : ∀ p n, (p + n ≤ st.buffer + 3 ∨ st.buffer + 5 ≤ p) →
      fieldBE buf2 p n = fieldBE buf p n :=
    fun p n h => fieldBE_agree buf buf2 p n (fun i h1 h2 => hagree i (by omega) (by omega))
  have T : ∀ p, (p + 6 ≤ st.buffer + 3 ∨ st.buffer + 5 ≤ p) →
      timeStampLoop buf2 p = timeStampLoop buf p :=
    fun p h => timeStampLoop_agree buf buf2 p (fun i h1 h2 => hagree i (by omega) (by omega))
  have S : ∀ p, (p + 8 ≤ st.buffer + 3 ∨ st.buffer + 5 ≤ p) →
      stockField buf2 p = stockField buf p :=
    fun p h => stockField_agree buf buf2 p (fun i h1 h2 => hagree i (by omega) (by omega))
  have G : ∀ p, (p < st.buffer + 3 ∨ st.buffer + 5 ≤ p) → buf2.getD p 0 = buf.getD p 0 :=
    fun p h => getD_agree buf buf2 p (hagree p (by omega) (by omega))
  simp only [vwapTags, List.mem_cons, List.mem_singleton, List.not_mem_nil, or_false] at hknown
  rcases hknown with ht | ht | ht | ht | ht | ht | ht | ht | ht
  · rw [h1.1 ht, h2.1 ht]; simp (disch := omega) only [F, T, S, G]
  · rw [h1.2.1 ht, h2.2.1 ht]; simp (disch := omega) only [F, T, S, G]
  · rw [h1.2.2.1 ht, h2.2.2.1 ht]; simp (disch := omega) only [F, T, S, G]
  · rw [h1.2.2.2.1 ht, h2.2.2.2.1 ht]; simp (disch := omega) only [F, T, S, G]
  · rw [h1.2.2.2.2.1 ht, h2.2.2.2.2.1 ht]; simp (disch := omega) only [F, T, S, G]
  · rw [h1.2.2.2.2.2.1 ht, h2.2.2.2.2.2.1 ht]; simp (disch := omega) only [F, T, S, G]
  · rw [h1.2.2.2.2.2.2.1 ht, h2.2.2.2.2.2.2.1 ht]; simp (disch := omega) only [F, T, S, G]
  · rw [h1.2.2.2.2.2.2.2.1 ht, h2.2.2.2.2.2.2.2.1 ht]; simp (disch := omega) only [F, T, S, G]
  · rw [h1.2.2.2.2.2.2.2.2 ht, h2.2.2.2.2.2.2.2.2 ht]; simp (disch := omega) only [F, T, S, G]

theorem readIteration_stock_id (buf : List Byte) (st : ReaderState) (t : Byte)
    (htag : buf[st.buffer]? = some t) (hknown : t.val ∈ vwapTags)
    (hlen : st.buffer + 1 + getMessageSize t.val ≤ buf.length) :
    ∃ st2 message, readIteration buf st = .ok (st2, some message) ∧
      message.hdr.stock_id = fieldBE buf (st.buffer + 1) 2 := by
  have h := readIteration_vwap buf st t htag hlen
  simp only [vwapTags, List.mem_cons, List.mem_singleton, List.not_mem_nil, or_false] at hknown
  rcases hknown with ht | ht | ht | ht | ht | ht | ht | ht | ht
  · exact ⟨_, _, h.1 ht, rfl⟩
  · exact ⟨_, _, h.2.1 ht, rfl⟩
  · exact ⟨_, _, h.2.2.1 ht, rfl⟩
  · exact ⟨_, _, h.2.2.2.1 ht, rfl⟩
  · exact ⟨_, _, h.2.2.2.2.1 ht, rfl⟩
  · exact ⟨_, _, h.2.2.2.2.2.1 ht, rfl⟩
  · exact ⟨_, _, h.2.2.2.2.2.2.1 ht, rfl⟩
  · exact ⟨_, _, h.2.2.2.2.2.2.2.1 ht, rfl⟩
  · exact ⟨_, _, h.2.2.2.2.2.2.2.2 ht, rfl⟩

/-- C8 as stated fails: the B record `recordBroken` has 00 01 in bytes 1-2 and 00 02 in bytes
3-4; the decoded `stock_id` is 1, not the value 2 of bytes 3-4, and overwriting byte 2 with 7
changes the decoded `stock_id` to 7. -/
theorem C8_stock_id_not_bytes_3_4 :
    ∃ st2 message st3 message3,
      readIteration recordBroken ⟨0, 0⟩ = .ok (st2, some message) ∧
      fieldBE recordBroken 3 2 = 2 ∧ message.hdr.stock_id = 1 ∧
      message.hdr.stock_id ≠ fieldBE recordBroken 3 2 ∧
      readIteration (recordBroken.set 2 7) ⟨0, 0⟩ = .ok (st3, some message3) ∧
      message3.hdr.stock_id = 7 ∧ message3 ≠ message :=
  ⟨_, _, _, _, rfl, by decide, by decide, by decide, rfl, by decide, by decide⟩

/-- C8, amended: for a complete record of one of the nine tags at the read pointer, the decoded
`stock_id` is the big-endian 16-bit integer of bytes 1-2 of the record, and overwriting bytes 3
and 4 with any two values changes nothing in the result of the iteration. -/
theorem C8_stock_id_bytes_1_2 (buf : List Byte) (st : ReaderState) (t : Byte)
    (htag : buf[st.buffer]? = some t) (hknown : t.val ∈ vwapTags)
    (hlen : st.buffer + 1 + getMessageSize t.val ≤ buf.length) :
    (∃ st2 message, readIteration buf st = .ok (st2, some message) ∧
      message.hdr.stock_id
        = (buf.getD (st.buffer + 1) 0).val * 256 + (buf.getD (st.buffer + 2) 0).val) ∧
    ∀ x y : Byte,
      readIteration ((buf.set (st.buffer + 3) x).set (st.buffer + 4) y) st
        = readIteration buf st := by
  constructor
  · obtain ⟨st2, message, h, hs⟩ := readIteration_stock_id buf st t htag hknown hlen
    exact ⟨st2, message, h, by rw [hs, fieldBE_two]⟩
  · intro x y
    apply readIteration_agree_header buf _ st t htag hknown hlen (by simp)
    intro i h3 h4
    rw [List.getElem?_set_ne (Ne.symm h4), List.getElem?_set_ne (Ne.symm h3)]

/-- Witness of C8, amended: the B record `recordBroken`, with bytes 3-4 overwritten by FF FF. -/
theorem C8_stock_id_bytes_1_2_witness :
    recordBroken[0]? = some 66 ∧ (66 : Byte).val ∈ vwapTags ∧
    0 + 1 + getMessageSize (66 : Byte).val ≤ recordBroken.length ∧
    ((∃ st2 message, readIteration recordBroken ⟨0, 0⟩ = .ok (st2, some message) ∧
      message.hdr.stock_id
        = (recordBroken.getD (0 + 1) 0).val * 256 + (recordBroken.getD (0 + 2) 0).val) ∧
    ∀ x y : Byte,
      readIteration ((recordBroken.set (0 + 3) x).set (0 + 4) y) ⟨0, 0⟩
        = readIteration recordBroken ⟨0, 0⟩) ∧
    readIteration ((recordBroken.set 3 255).set 4 255) ⟨0, 0⟩
      = .ok (⟨19, 19⟩, some (.BrokenTradeMessage ⟨1, clock 9 30 0⟩ 5)) :=
  ⟨by decide, by decide, by decide,
   C8_stock_id_bytes_1_2 recordBroken ⟨0, 0⟩ 66 (by decide) (by decide) (by decide),
   by decide⟩

theorem fieldBE_one (buf : List Byte) (p : Nat) : fieldBE buf p 1 = (buf.getD p 0).val := by
  simp [fieldBE, bytesAt, beNat, List.range_succ]

/-- A decoded A message does not depend on the bytes of its record that no field covers. -/
theorem readIteration_agree_A (buf buf2 : List Byte) (st : ReaderState) (t : Byte)
    (htag : buf[st.buffer]? = some t) (ht : t.val = 65)
    (hlen : st.buffer + 1 + getMessageSize t.val ≤ buf.length)
    (hsame : buf2.length = buf.length)
    (hagree : ∀ i, (i < st.buffer + 19 ∨ st.buffer + 20 ≤ i) →
      (i < st.buffer + 24 ∨ st.buffer + 32 ≤ i) →
      buf2[i]? = buf[i]?) :
    readIteration buf2 st = readIteration buf st := by
  have htag2 : buf2[st.buffer]? = some t := by
    rw [hagree st.buffer (by omega) (by omega)]; exact htag
  have h1 := readIteration_vwap buf st t htag hlen
  have h2 := readIteration_vwap buf2 st t htag2 (by rw [hsame]; exact hlen)
  have F : ∀ p n, (p + n ≤ st.buffer + 19 ∨ st.buffer + 20 ≤ p) ∧
    (p + n ≤ st.buffer + 24 ∨ st.buffer + 32 ≤ p) →
      fieldBE buf2 p n = fieldBE buf p n :=
    fun p n h => fieldBE_agree buf buf2 p n (fun i h1 h2 => hagree i (by omega) (by omega))
  have T : ∀ p, (p + 6 ≤ st.buffer + 19 ∨ st.buffer + 20 ≤ p) ∧
    (p + 6 ≤ st.buffer + 24 ∨ st.buffer + 32 ≤ p) →
      timeStampLoop buf2 p = timeStampLoop buf p :=
    fun p h => timeStampLoop_agree buf buf2 p (fun i h1 h2 => hagree i (by omega) (by omega))
  rw [h1.2.1 ht, h2.2.1 ht]
  simp (disch := omega) only [F, T]

/-- A decoded F message does not depend on the bytes of its record that no field covers. -/
theorem readIteration_agree_F (buf buf2 : List Byte) (st : ReaderState) (t : Byte)
    (htag : buf[st.buffer]? = some t) (ht : t.val = 70)
    (hlen : st.buffer + 1 + getMessageSize t.val ≤ buf.length)
    (hsame : buf2.length = buf.length)
    (hagree : ∀ i, (i < st.buffer + 19 ∨ st.buffer + 20 ≤ i) →
      (i < st.buffer + 24 ∨ st.buffer + 32 ≤ i) → (i < st.buffer + 36 ∨ st.buffer + 40 ≤ i) →
      buf2[i]? = buf[i]?) :
    readIteration buf2 st = readIteration buf st := by
  have htag2 : buf2[st.buffer]? = some t := by
    rw [hagree st.buffer (by omega) (by omega) (by omega)]; exact htag
  have h1 := readIteration_vwap buf st t htag hlen
  have h2 := readIteration_vwap buf2 st t htag2 (by rw [hsame]; exact hlen)
  have F : ∀ p n, (p + n ≤ st.buffer + 19 ∨ st.buffer + 20 ≤ p) ∧
    (p + n ≤ st.buffer + 24 ∨ st.buffer + 32 ≤ p) ∧ (p + n ≤ st.buffer + 36 ∨ st.buffer + 40 ≤ p) →
      fieldBE buf2 p n = fieldBE buf p n :=
    fun p n h => fieldBE_agree buf buf2 p n (fun i h1 h2 => hagree i (by omega) (by omega)
      (by omega))
  have T : ∀ p, (p + 6 ≤ st.buffer + 19 ∨ st.buffer + 20 ≤ p) ∧
    (p + 6 ≤ st.buffer + 24 ∨ st.buffer + 32 ≤ p) ∧ (p + 6 ≤ st.buffer + 36 ∨ st.buffer + 40 ≤ p) →
      timeStampLoop buf2 p = timeStampLoop buf p :=
    fun p h => timeStampLoop_agree buf buf2 p (fun i h1 h2 => hagree i (by omega) (by omega)
      (by omega))
  rw [h1.2.2.1 ht, h2.2.2.1 ht]
  simp (disch := omega) only [F, T]

/-- A decoded P message does not depend on the bytes of its record that no field covers. -/
theorem readIteration_agree_P (buf buf2 : List Byte) (st : ReaderState) (t : Byte)
    (htag : buf[st.buffer]? = some t) (ht : t.val = 80)
    (hlen : st.buffer + 1 + getMessageSize t.val ≤ buf.length)
    (hsame : buf2.length = buf.length)
    (hagree : ∀ i, (i < st.buffer + 19 ∨ st.buffer + 20 ≤ i) →
      (i < st.buffer + 24 ∨ st.buffer + 32 ≤ i) →
      buf2[i]? = buf[i]?) :
    readIteration buf2 st = readIteration buf st := by
  have htag2 : buf2[st.buffer]? = some t := by
    rw [hagree st.buffer (by omega) (by omega)]; exact htag
  have h1 := readIteration_vwap buf st t htag hlen
  have h2 := readIteration_vwap buf2 st t htag2 (by rw [hsame]; exact hlen)
  have F : ∀ p n, (p + n ≤ st.buffer + 19 ∨ st.buffer + 20 ≤ p) ∧
    (p + n ≤ st.buffer + 24 ∨ st.buffer + 32 ≤ p) →
      fieldBE buf2 p n = fieldBE buf p n :=
    fun p n h => fieldBE_agree buf buf2 p n (fun i h1 h2 => hagree i (by omega) (by omega))
  have T : ∀ p, (p + 6 ≤ st.buffer + 19 ∨ st.buffer + 20 ≤ p) ∧
    (p + 6 ≤ st.buffer + 24 ∨ st.buffer + 32 ≤ p) →
      timeStampLoop buf2 p = timeStampLoop buf p :=
    fun p h => timeStampLoop_agree buf buf2 p (fun i h1 h2 => hagree i (by omega) (by omega))
  rw [h1.2.2.2.2.2.2.1 ht, h2.2.2.2.2.2.2.1 ht]
  simp (disch := omega) only [F, T]

/-- A decoded Q message does not depend on the bytes of its record that no field covers. -/
theorem readIteration_agree_Q (buf buf2 : List Byte) (st : ReaderState) (t : Byte)
    (htag : buf[st.buffer]? = some t) (ht : t.val = 81)
    (hlen : st.buffer + 1 + getMessageSize t.val ≤ buf.length)
    (hsame : buf2.length = buf.length)
    (hagree : ∀ i, (i < st.buffer + 19 ∨ st.buffer + 27 ≤ i) →
      (i < st.buffer + 39 ∨ st.buffer + 40 ≤ i) →
      buf2[i]? = buf[i]?) :
    readIteration buf2 st = readIteration buf st := by
  have htag2 : buf2[st.buffer]? = some t := by
    rw [hagree st.buffer (by omega) (by omega)]; exact htag
  have h1 := readIteration_vwap buf st t htag hlen
  have h2 := readIteration_vwap buf2 st t htag2 (by rw [hsame]; exact hlen)
  have F : ∀ p n, (p + n ≤ st.buffer + 19 ∨ st.buffer + 27 ≤ p) ∧
    (p + n ≤ st.buffer + 39 ∨ st.buffer + 40 ≤ p) →
      fieldBE buf2 p n = fieldBE buf p n :=
    fun p n h => fieldBE_agree buf buf2 p n (fun i h1 h2 => hagree i (by omega) (by omega))
  have T : ∀ p, (p + 6 ≤ st.buffer + 19 ∨ st.buffer + 27 ≤ p) ∧
    (p + 6 ≤ st.buffer + 39 ∨ st.buffer + 40 ≤ p) →
      timeStampLoop buf2 p = timeStampLoop buf p :=
    fun p h => timeStampLoop_agree buf buf2 p (fun i h1 h2 => hagree i (by omega) (by omega))
  rw [h1.2.2.2.2.2.2.2.1 ht, h2.2.2.2.2.2.2.2.1 ht]
  simp (disch := omega) only [F, T]

/-- C10: for a complete record at the read pointer (byte 0 = tag), the payload fields of the
decoded message are the big-endian unsigned integers at these bytes of the record: A and F
order_id 11-18, shares 20-23, price 32-35; E order_id 11-18, executed_shares 19-22,
match_number 23-30; C as E, then printable 31 and execution_price 32-35; U original_order_id
11-18, new_order_id 19-26, shares 27-30, price 31-34; P order_id 11-18, shares 20-23, price
32-35, match_number 36-43; Q shares 11-18, cross_price 27-30, match_number 31-38; B
match_number 11-18.  A buffer of the same length that differs only in the bytes no field
covers (A and P: 19 and 24-31; F: 19, 24-31 and 36-39; Q: 19-26 and 39) gives the same result
of the iteration. -/
theorem C10_payload_positions (buf buf2 : List Byte) (st : ReaderState) (t : Byte)
    (htag : buf[st.buffer]? = some t)
    (hlen : st.buffer + 1 + getMessageSize t.val ≤ buf.length)
    (hsame : buf2.length = buf.length) :
    (t.val = 65 →
      (∃ st2 hdr, readIteration buf st = .ok (st2, some (.AddOrderMessage hdr
        (fieldBE buf (st.buffer + 11) 8) (fieldBE buf (st.buffer + 20) 4) (fieldBE buf
          (st.buffer + 32) 4)))) ∧
      ((∀ i, (i < st.buffer + 19 ∨ st.buffer + 20 ≤ i) → (i < st.buffer + 24 ∨ st.buffer + 32 ≤ i) →
          buf2[i]? = buf[i]?) →
        readIteration buf2 st = readIteration buf st)) ∧
    (t.val = 70 →
      (∃ st2 hdr, readIteration buf st = .ok (st2, some (.AddOrderMPIDAttributionMessage hdr
        (fieldBE buf (st.buffer + 11) 8) (fieldBE buf (st.buffer + 20) 4) (fieldBE buf
          (st.buffer + 32) 4)))) ∧
      ((∀ i, (i < st.buffer + 19 ∨ st.buffer + 20 ≤ i) →
        (i < st.buffer + 24 ∨ st.buffer + 32 ≤ i) → (i < st.buffer + 36 ∨ st.buffer + 40 ≤ i) →
          buf2[i]? = buf[i]?) →
        readIteration buf2 st = readIteration buf st)) ∧
    (t.val = 69 →
      (∃ st2 hdr, readIteration buf st = .ok (st2, some (.OrderExecutedMessage hdr
        (fieldBE buf (st.buffer + 11) 8) (fieldBE buf (st.buffer + 19) 4) (fieldBE buf
          (st.buffer + 23) 8))))) ∧
    (t.val = 67 →
      (∃ st2 hdr, readIteration buf st = .ok (st2, some (.OrderExecutedWithPriceMessage hdr
        (fieldBE buf (st.buffer + 11) 8) (fieldBE buf (st.buffer + 19) 4) (fieldBE buf
          (st.buffer + 23) 8) (fieldBE buf (st.buffer + 31) 1) (fieldBE buf
            (st.buffer + 32) 4))))) ∧
    (t.val = 85 →
      (∃ st2 hdr, readIteration buf st = .ok (st2, some (.OrderReplaceMessage hdr
        (fieldBE buf (st.buffer + 11) 8) (fieldBE buf (st.buffer + 19) 8) (fieldBE buf
          (st.buffer + 27) 4) (fieldBE buf (st.buffer + 31) 4))))) ∧
    (t.val = 80 →
      (∃ st2 hdr, readIteration buf st = .ok (st2, some (.NonCrossTradeMessage hdr
        (fieldBE buf (st.buffer + 11) 8) (fieldBE buf (st.buffer + 20) 4) (fieldBE buf
          (st.buffer + 32) 4) (fieldBE buf (st.buffer + 36) 8)))) ∧
      ((∀ i, (i < st.buffer + 19 ∨ st.buffer + 20 ≤ i) → (i < st.buffer + 24 ∨ st.buffer + 32 ≤ i) →
          buf2[i]? = buf[i]?) →
        readIteration buf2 st = readIteration buf st)) ∧
    (t.val = 81 →
      (∃ st2 hdr, readIteration buf st = .ok (st2, some (.CrossTradeMessage hdr
        (fieldBE buf (st.buffer + 11) 8) (fieldBE buf (st.buffer + 27) 4) (fieldBE buf
          (st.buffer + 31) 8)))) ∧
      ((∀ i, (i < st.buffer + 19 ∨ st.buffer + 27 ≤ i) → (i < st.buffer + 39 ∨ st.buffer + 40 ≤ i) →
          buf2[i]? = buf[i]?) →
        readIteration buf2 st = readIteration buf st)) ∧
    (t.val = 66 →
      (∃ st2 hdr, readIteration buf st = .ok (st2, some (.BrokenTradeMessage hdr
        (fieldBE buf (st.buffer + 11) 8))))) := by
  have h := readIteration_vwap buf st t htag hlen
  refine ⟨?_, ?_, ?_, ?_, ?_, ?_, ?_, ?_⟩
  · intro ht
    exact ⟨⟨_, _, h.2.1 ht⟩,
      fun hagree => readIteration_agree_A buf buf2 st t htag ht hlen hsame hagree⟩
  · intro ht
    exact ⟨⟨_, _, h.2.2.1 ht⟩,
      fun hagree => readIteration_agree_F buf buf2 st t htag ht hlen hsame hagree⟩
  · intro ht
    exact ⟨_, _, h.2.2.2.1 ht⟩
  · intro ht
    exact ⟨_, _, by rw [h.2.2.2.2.1 ht, fieldBE_one]⟩
  · intro ht
    exact ⟨_, _, h.2.2.2.2.2.1 ht⟩
  · intro ht
    exact ⟨⟨_, _, h.2.2.2.2.2.2.1 ht⟩,
      fun hagree => readIteration_agree_P buf buf2 st t htag ht hlen hsame hagree⟩
  · intro ht
    exact ⟨⟨_, _, h.2.2.2.2.2.2.2.1 ht⟩,
      fun hagree => readIteration_agree_Q buf buf2 st t htag ht hlen hsame hagree⟩
  · intro ht
    exact ⟨_, _, h.2.2.2.2.2.2.2.2 ht⟩

/-- Witness of C10: the A record `recordAdd` (order 10, 500 shares, price 100000) and the same
record with its side byte and its eight symbol bytes overwritten. -/
theorem C10_payload_positions_witness :
    recordAdd[0]? = some 65 ∧ 0 + 1 + getMessageSize (65 : Byte).val ≤ recordAdd.length ∧
    recordAddVariant.length = recordAdd.length ∧ (65 : Byte).val = 65 ∧
    (∃ st2 hdr, readIteration recordAdd ⟨0, 0⟩ = .ok (st2, some (.AddOrderMessage hdr
        (fieldBE recordAdd (0 + 11) 8) (fieldBE recordAdd (0 + 20) 4)
        (fieldBE recordAdd (0 + 32) 4)))) ∧
    readIteration recordAddVariant ⟨0, 0⟩ = readIteration recordAdd ⟨0, 0⟩ ∧
    readIteration recordAdd ⟨0, 0⟩
      = .ok (⟨36, 36⟩, some (.AddOrderMessage ⟨1, clock 9 30 0⟩ 10 500 100000)) :=
  have h := (C10_payload_positions recordAdd recordAddVariant ⟨0, 0⟩ 65 (by decide) (by decide)
    (by decide)).1 (by decide)
  ⟨by decide, by decide, by decide, by decide, h.1,
   h.2 (fun i h1 h2 => by
     unfold recordAddVariant
     dsimp only at h1 h2
     simp only [Nat.zero_add] at h1 h2
     rw [List.getElem?_set_ne (by omega), List.getElem?_set_ne (by omega),
       List.getElem?_set_ne (by omega), List.getElem?_set_ne (by omega),
       List.getElem?_set_ne (by omega), List.getElem?_set_ne (by omega),
       List.getElem?_set_ne (by omega), List.getElem?_set_ne (by omega),
       List.getElem?_set_ne (by omega)]),
   by decide⟩


/-! ## Well-formedness of reachable states -/

theorem stockAssign_ascending (k : Nat) (v : Symbol) :
    ∀ sm : List (Nat × Symbol), KeysAscending sm → KeysAscending (stockAssign sm k v)
  | [], _ => by simp [stockAssign, KeysAscending]
  | q :: rest, h => by
    have h' : (∀ x ∈ rest.map Prod.fst, q.1 < x) ∧ KeysAscending rest := by
      simpa [KeysAscending] using h
    unfold stockAssign
    split
    · next hlt =>
      simp only [KeysAscending, List.map_cons, List.pairwise_cons]
      refine ⟨?_, h'.1, h'.2⟩
      intro x hx
      rcases List.mem_cons.mp hx with rfl | hx'
      · exact hlt
      · exact Nat.lt_trans hlt (h'.1 x hx')
    · split
      · next hge heq =>
        simp only [KeysAscending, List.map_cons, List.pairwise_cons]
        exact ⟨fun x hx => heq ▸ h'.1 x hx, h'.2⟩
      · next hge hne =>
        have ih := stockAssign_ascending k v rest h'.2
        simp only [KeysAscending, List.map_cons, List.pairwise_cons]
        refine ⟨?_, ih⟩
        intro x hx
        obtain ⟨p, hp, rfl⟩ := List.mem_map.mp hx
        rcases mem_stockAssign k v p rest hp with rfl | hp'
        · show q.1 < k
          omega
        · exact h'.1 p.1 (List.mem_map_of_mem _ hp')

theorem applyTrade_preserves (st st2 : AggState) (m s mn p q : Nat)
    (h : applyTrade st m s mn p q = .ok st2)
    (hk : KeysPresent st.stock_map st.volume_map st.dollar_volume_map)
    (ha : KeysAscending st.stock_map) :
    KeysPresent st2.stock_map st2.volume_map st2.dollar_volume_map ∧
      KeysAscending st2.stock_map := by
  by_cases hm : m < 24
  · rw [applyTrade_ok st m s mn p q hm] at h
    cases h
    exact ⟨fun x hx => ⟨bucketAdd_isSome _ _ _ _ _ (hk x hx).1,
      bucketAdd_isSome _ _ _ _ _ (hk x hx).2⟩, ha⟩
  · simp [applyTrade, hm] at h

theorem handleMessage_preserves (st st2 : AggState) (m : Nat) (message : ItchMessage)
    (h : handleMessage st m message = .ok st2)
    (hk : KeysPresent st.stock_map st.volume_map st.dollar_volume_map)
    (ha : KeysAscending st.stock_map) :
    KeysPresent st2.stock_map st2.volume_map st2.dollar_volume_map ∧
      KeysAscending st2.stock_map := by
  cases message with
  | StockDirectoryMessage hdr sym =>
    cases h
    refine ⟨?_, stockAssign_ascending _ _ _ ha⟩
    intro x hx
    rcases mem_stockAssign _ _ _ _ hx with rfl | hx'
    · exact ⟨assign_self_isSome _ _ _, assign_self_isSome _ _ _⟩
    · exact ⟨assign_isSome _ _ _ _ (hk x hx').1, assign_isSome _ _ _ _ (hk x hx').2⟩
  | AddOrderMessage hdr o sh pr => cases h; exact ⟨hk, ha⟩
  | AddOrderMPIDAttributionMessage hdr o sh pr => cases h; exact ⟨hk, ha⟩
  | OrderExecutedMessage hdr o q mn =>
    exact applyTrade_preserves { st with order_price_map := _ } st2 m _ _ _ _ h hk ha
  | OrderExecutedWithPriceMessage hdr o q mn pr ep =>
    by_cases hp : pr = 78
    · simp only [handleMessage, hp, if_true] at h
      cases h; exact ⟨hk, ha⟩
    · simp only [handleMessage, hp, if_false] at h
      exact applyTrade_preserves st st2 m _ _ _ _ h hk ha
  | OrderReplaceMessage hdr o n sh pr => cases h; exact ⟨hk, ha⟩
  | NonCrossTradeMessage hdr o sh pr mn => exact applyTrade_preserves st st2 m _ _ _ _ h hk ha
  | CrossTradeMessage hdr sh pr mn => exact applyTrade_preserves st st2 m _ _ _ _ h hk ha
  | BrokenTradeMessage hdr mn =>
    cases he : st.matchID_trade_map (mn % 65536) with
    | none =>
      simp only [handleMessage, he] at h
      cases h; exact ⟨hk, ha⟩
    | some e =>
      obtain ⟨s, p, q, th⟩ := e
      by_cases hth : th < 24
      · rw [handleMessage_broken_ok st m hdr mn s p q th he hth] at h
        cases h
        exact ⟨fun x hx => ⟨bucketSub_isSome _ _ _ _ _ (hk x hx).1,
          bucketSub_isSome _ _ _ _ _ (hk x hx).2⟩, ha⟩
      · simp [handleMessage, he, hth] at h

theorem processOne_preserves (st st2 : AggState) (out : List Emission) (message : ItchMessage)
    (h : processOne st message = .ok (st2, out))
    (hk : KeysPresent st.stock_map st.volume_map st.dollar_volume_map)
    (ha : KeysAscending st.stock_map) :
    KeysPresent st2.stock_map st2.volume_map st2.dollar_volume_map ∧
      KeysAscending st2.stock_map := by
  rw [processOne_eq st message hk] at h
  split at h
  · cases h
  · next st3 h3 =>
    cases h
    exact handleMessage_preserves _ _ _ _ h3 hk ha

/-- Every state that the main loop reaches from the initial state has a symbol table with
strictly ascending keys, each of which has its two accumulator arrays. -/
theorem processLoop_preserves : ∀ (queue : List ItchMessage) (st st2 : AggState)
    (out : List Emission), processLoop st queue = .ok (st2, out) →
    KeysPresent st.stock_map st.volume_map st.dollar_volume_map → KeysAscending st.stock_map →
    KeysPresent st2.stock_map st2.volume_map st2.dollar_volume_map ∧
      KeysAscending st2.stock_map
  | [], st, st2, out, h, hk, ha => by
    simp only [processLoop] at h
    cases h; exact ⟨hk, ha⟩
  | message :: rest, st, st2, out, h, hk, ha => by
    simp only [processLoop] at h
    split at h
    · cases h
    · next st1 out1 h1 =>
      obtain ⟨hk1, ha1⟩ := processOne_preserves st st1 out1 message h1 hk ha
      split at h
      · cases h
      · next st3 out3 h3 =>
        cases h
        exact processLoop_preserves rest st1 _ out3 h3 hk1 ha1

theorem reachable_wellformed (queue : List ItchMessage) (st : AggState) (out : List Emission)
    (h : processLoop AggState.init queue = .ok (st, out)) :
    KeysPresent st.stock_map st.volume_map st.dollar_volume_map ∧
      KeysAscending st.stock_map :=
  processLoop_preserves queue AggState.init st out h
    (by intro p hp; simp [AggState.init] at hp) (by simp [AggState.init, KeysAscending])


/-! ## Timestamp -/

theorem lor_shiftLeft_byte (c b s : Nat) (hb : b < 256) :
    (c * 2 ^ (s + 8)) ||| (b <<< s) = (c * 256 + b) * 2 ^ s := by
  have hlt : b * 2 ^ s < 2 ^ (s + 8) := by
    rw [pow_add, Nat.mul_comm]
    exact Nat.mul_lt_mul_of_pos_left hb (Nat.two_pow_pos s)
  rw [Nat.shiftLeft_eq, Nat.mul_comm c, ← Nat.mul_add_lt_is_or hlt c, pow_add]
  ring

theorem timeStampLoop_eq (buf : List Byte) (p : Nat) :
    timeStampLoop buf p =
      byteAt buf p * 2 ^ 40 + byteAt buf (p + 1) * 2 ^ 32 + byteAt buf (p + 2) * 2 ^ 24
        + byteAt buf (p + 3) * 2 ^ 16 + byteAt buf (p + 4) * 2 ^ 8 + byteAt buf (p + 5) := by
  have hb : ∀ i, byteAt buf i < 256 := fun i => Fin.isLt _
  have h0 := lor_shiftLeft_byte 0 (byteAt buf p) 40 (hb _)
  have h1 := lor_shiftLeft_byte (0 * 256 + byteAt buf p) (byteAt buf (p + 1)) 32 (hb _)
  have h2 := lor_shiftLeft_byte ((0 * 256 + byteAt buf p) * 256 + byteAt buf (p + 1))
    (byteAt buf (p + 2)) 24 (hb _)
  have h3 := lor_shiftLeft_byte
    (((0 * 256 + byteAt buf p) * 256 + byteAt buf (p + 1)) * 256 + byteAt buf (p + 2))
    (byteAt buf (p + 3)) 16 (hb _)
  have h4 := lor_shiftLeft_byte
    ((((0 * 256 + byteAt buf p) * 256 + byteAt buf (p + 1)) * 256 + byteAt buf (p + 2)) * 256
      + byteAt buf (p + 3))
    (byteAt buf (p + 4)) 8 (hb _)
  have h5 := lor_shiftLeft_byte
    (((((0 * 256 + byteAt buf p) * 256 + byteAt buf (p + 1)) * 256 + byteAt buf (p + 2)) * 256
      + byteAt buf (p + 3)) * 256 + byteAt buf (p + 4))
    (byteAt buf (p + 5)) 0 (hb _)
  have hl : timeStampLoop buf p =
      ((((((0 * 2 ^ (40 + 8)) ||| (byteAt buf p <<< 40)) ||| (byteAt buf (p + 1) <<< 32))
        ||| (byteAt buf (p + 2) <<< 24)) ||| (byteAt buf (p + 3) <<< 16))
        ||| (byteAt buf (p + 4) <<< 8)) ||| (byteAt buf (p + 5) <<< 0) := by
    simp [timeStampLoop, byteAt, List.range_succ]
  rw [hl, h0, h1, h2, h3, h4, h5]
  ring

theorem readIteration_message_time (buf : List Byte) (st : ReaderState) (t : Byte)
    (htag : buf[st.buffer]? = some t) (hknown : t.val ∈ vwapTags)
    (hlen : st.buffer + 1 + getMessageSize t.val ≤ buf.length) :
    ∃ st2 message, readIteration buf st = .ok (st2, some message) ∧
      message.hdr.message_time = timeStampLoop buf (st.buffer + 5) := by
  have h := readIteration_vwap buf st t htag hlen
  simp only [vwapTags, List.mem_cons, List.mem_singleton, List.not_mem_nil, or_false] at hknown
  rcases hknown with ht | ht | ht | ht | ht | ht | ht | ht | ht
  · exact ⟨_, _, h.1 ht, rfl⟩
  · exact ⟨_, _, h.2.1 ht, rfl⟩
  · exact ⟨_, _, h.2.2.1 ht, rfl⟩
  · exact ⟨_, _, h.2.2.2.1 ht, rfl⟩
  · exact ⟨_, _, h.2.2.2.2.1 ht, rfl⟩
  · exact ⟨_, _, h.2.2.2.2.2.1 ht, rfl⟩
  · exact ⟨_, _, h.2.2.2.2.2.2.1 ht, rfl⟩
  · exact ⟨_, _, h.2.2.2.2.2.2.2.1 ht, rfl⟩
  · exact ⟨_, _, h.2.2.2.2.2.2.2.2 ht, rfl⟩

/-- C11: on six bytes `b0 .. b5` inside the buffer `readTimeStamp` returns
`b0 * 2^40 + b1 * 2^32 + b2 * 2^24 + b3 * 2^16 + b4 * 2^8 + b5`, a value below `2^48`, and
advances the pointer by 6; the `message_time` of the message decoded from a complete record of
one of the nine tags is that value of bytes 5-10 of the record. -/
theorem C11_timestamp_decode (buf : List Byte) :
    (∀ buffer, buffer + 6 ≤ buf.length →
      readTimeStamp buf buffer =
        .ok (byteAt buf buffer * 2 ^ 40 + byteAt buf (buffer + 1) * 2 ^ 32
          + byteAt buf (buffer + 2) * 2 ^ 24 + byteAt buf (buffer + 3) * 2 ^ 16
          + byteAt buf (buffer + 4) * 2 ^ 8 + byteAt buf (buffer + 5), buffer + 6) ∧
      byteAt buf buffer * 2 ^ 40 + byteAt buf (buffer + 1) * 2 ^ 32
          + byteAt buf (buffer + 2) * 2 ^ 24 + byteAt buf (buffer + 3) * 2 ^ 16
          + byteAt buf (buffer + 4) * 2 ^ 8 + byteAt buf (buffer + 5) < 2 ^ 48) ∧
    (∀ (st : ReaderState) (t : Byte), buf[st.buffer]? = some t → t.val ∈ vwapTags →
      st.buffer + 1 + getMessageSize t.val ≤ buf.length →
      ∃ st2 message, readIteration buf st = .ok (st2, some message) ∧
        message.hdr.message_time =
          byteAt buf (st.buffer + 5) * 2 ^ 40 + byteAt buf (st.buffer + 6) * 2 ^ 32
            + byteAt buf (st.buffer + 7) * 2 ^ 24 + byteAt buf (st.buffer + 8) * 2 ^ 16
            + byteAt buf (st.buffer + 9) * 2 ^ 8 + byteAt buf (st.buffer + 10)) := by
  constructor
  · intro buffer h
    constructor
    · rw [readTimeStamp_ok buf buffer h, timeStampLoop_eq]
    · have hb : ∀ i, byteAt buf i < 256 := fun i => Fin.isLt _
      have h0 := hb buffer
      have h1 := hb (buffer + 1)
      have h2 := hb (buffer + 2)
      have h3 := hb (buffer + 3)
      have h4 := hb (buffer + 4)
      have h5 := hb (buffer + 5)
      norm_num
      omega
  · intro st t htag hknown hlen
    obtain ⟨st2, message, h, hm⟩ := readIteration_message_time buf st t htag hknown hlen
    exact ⟨st2, message, h, by rw [hm, timeStampLoop_eq]⟩

/-- Witness of C11: the six bytes 1F 1A CE D9 F0 00 at offset 5 of `recordBroken` are the
timestamp 09:30:00, 34200000000000 ns. -/
theorem C11_timestamp_decode_witness :
    5 + 6 ≤ recordBroken.length ∧
    readTimeStamp recordBroken 5 = .ok (34200000000000, 11) ∧
    (readTimeStamp recordBroken 5 =
        .ok (byteAt recordBroken 5 * 2 ^ 40 + byteAt recordBroken (5 + 1) * 2 ^ 32
          + byteAt recordBroken (5 + 2) * 2 ^ 24 + byteAt recordBroken (5 + 3) * 2 ^ 16
          + byteAt recordBroken (5 + 4) * 2 ^ 8 + byteAt recordBroken (5 + 5), 5 + 6) ∧
      byteAt recordBroken 5 * 2 ^ 40 + byteAt recordBroken (5 + 1) * 2 ^ 32
          + byteAt recordBroken (5 + 2) * 2 ^ 24 + byteAt recordBroken (5 + 3) * 2 ^ 16
          + byteAt recordBroken (5 + 4) * 2 ^ 8 + byteAt recordBroken (5 + 5) < 2 ^ 48) ∧
    recordBroken[0]? = some 66 ∧ (66 : Byte).val ∈ vwapTags ∧
    0 + 1 + getMessageSize (66 : Byte).val ≤ recordBroken.length ∧
    (∃ st2 message, readIteration recordBroken ⟨0, 0⟩ = .ok (st2, some message) ∧
      message.hdr.message_time =
        byteAt recordBroken (0 + 5) * 2 ^ 40 + byteAt recordBroken (0 + 6) * 2 ^ 32
          + byteAt recordBroken (0 + 7) * 2 ^ 24 + byteAt recordBroken (0 + 8) * 2 ^ 16
          + byteAt recordBroken (0 + 9) * 2 ^ 8 + byteAt recordBroken (0 + 10)) :=
  ⟨by decide, by decide, (C11_timestamp_decode recordBroken).1 5 (by decide), by decide,
   by decide, by decide,
   (C11_timestamp_decode recordBroken).2 ⟨0, 0⟩ 66 (by decide) (by decide) (by decide)⟩


/-! ## Symbol field -/

theorem takeWhile_split {α : Type} (p : α → Bool) : ∀ l : List α,
    ∃ rest, l = l.takeWhile p ++ rest ∧ (∀ x ∈ l.takeWhile p, p x = true) ∧
      ∀ x xs, rest = x :: xs → p x = false
  | [] => ⟨[], by simp, by simp, by simp⟩
  | a :: l => by
    obtain ⟨rest, h1, h2, h3⟩ := takeWhile_split p l
    by_cases ha : p a = true
    · refine ⟨rest, ?_, ?_, h3⟩
      · rw [List.takeWhile_cons_of_pos ha, List.cons_append, ← h1]
      · rw [List.takeWhile_cons_of_pos ha]
        intro x hx
        rcases List.mem_cons.mp hx with rfl | hx'
        · exact ha
        · exact h2 x hx'
    · refine ⟨a :: l, ?_, ?_, ?_⟩
      · rw [List.takeWhile_cons_of_neg ha, List.nil_append]
      · rw [List.takeWhile_cons_of_neg ha]; simp
      · intro x xs hx
        cases hx
        simpa using ha

theorem takeWhile_append_stop {α : Type} (p : α → Bool) (pad : List α)
    (hpad : ∀ x ∈ pad, p x = false) : ∀ s : List α, (∀ x ∈ s, p x = true) →
    (s ++ pad).takeWhile p = s
  | [], _ => by
    cases pad with
    | nil => rfl
    | cons x xs =>
      have hx : ¬ p x = true := by simp [hpad x (List.mem_cons_self _ _)]
      rw [List.nil_append, List.takeWhile_cons_of_neg hx]
  | a :: s, hs => by
    have ha : p a = true := hs a (List.mem_cons_self _ _)
    rw [List.cons_append, List.takeWhile_cons_of_pos ha,
      takeWhile_append_stop p pad hpad s (fun x hx => hs x (List.mem_cons_of_mem _ hx))]

/-- C12 as stated fails: on the field `AB CD   ` the trimming of trailing spaces and NULs
gives `AB CD`, and `readStock` returns `AB`. -/
theorem C12_inner_space_ends_symbol :
    trimTrailing fieldInnerSpace = [65, 66, 32, 67, 68] ∧
    readStock fieldInnerSpace 0 = .ok ([65, 66], 8) ∧
    readStock fieldInnerSpace 0 ≠ .ok (trimTrailing fieldInnerSpace, 8) := by
  decide

/-- C12, amended: on an 8-byte field inside the buffer `readStock` advances the pointer by 8
and returns the bytes of the field that precede its first NUL or whitespace character (the
whole field when it has none); so a field made of a part without NUL or whitespace followed
only by spaces and NULs yields that part. -/
theorem C12_symbol_up_to_first_blank (buf : List Byte) (buffer : Nat)
    (h : buffer + 8 ≤ buf.length) :
    ∃ sym rest, readStock buf buffer = .ok (sym, buffer + 8) ∧
      symbolField buf buffer = sym ++ rest ∧
      (∀ ch ∈ sym, ch.val ≠ 0 ∧ isspace ch.val = false) ∧
      (∀ ch tail, rest = ch :: tail → ch.val = 0 ∨ isspace ch.val = true) ∧
      ∀ s pad, symbolField buf buffer = s ++ pad →
        (∀ ch ∈ s, ch.val ≠ 0 ∧ isspace ch.val = false) →
        (∀ ch ∈ pad, ch.val = 0 ∨ ch.val = 32) → sym = s := by
  obtain ⟨rest, h1, h2, h3⟩ :=
    takeWhile_split (fun ch : Byte => !(decide (ch.val = 0) || isspace ch.val))
      (symbolField buf buffer)
  refine ⟨stockField buf buffer, rest, readStock_ok buf buffer h, h1, ?_, ?_, ?_⟩
  · intro ch hch
    have := h2 ch hch
    simpa using this
  · intro ch tail hr
    have := h3 ch tail hr
    by_cases h0 : ch.val = 0
    · exact Or.inl h0
    · right; simpa [h0] using this
  · intro s pad hf hs hpad
    show (symbolField buf buffer).takeWhile _ = s
    rw [hf]
    apply takeWhile_append_stop
    · intro x hx
      rcases hpad x hx with h0 | h32
      · simp [h0]
      · simp [h32, isspace]
    · intro x hx
      have := hs x hx
      simp [this.1, this.2]

/-- Witness of C12, amended: the field `AAA` padded with spaces yields `AAA`. -/
theorem C12_symbol_up_to_first_blank_witness :
    0 + 8 ≤ fieldPadded.length ∧
    readStock fieldPadded 0 = .ok ([65, 65, 65], 8) ∧
    ∃ sym rest, readStock fieldPadded 0 = .ok (sym, 0 + 8) ∧
      symbolField fieldPadded 0 = sym ++ rest ∧
      (∀ ch ∈ sym, ch.val ≠ 0 ∧ isspace ch.val = false) ∧
      (∀ ch tail, rest = ch :: tail → ch.val = 0 ∨ isspace ch.val = true) ∧
      ∀ s pad, symbolField fieldPadded 0 = s ++ pad →
        (∀ ch ∈ s, ch.val ≠ 0 ∧ isspace ch.val = false) →
        (∀ ch ∈ pad, ch.val = 0 ∨ ch.val = 32) → sym = s :=
  ⟨by decide, by decide, C12_symbol_up_to_first_blank fieldPadded 0 (by decide)⟩


/-! ## Unknown tags and truncated records -/

theorem getMessageSize_unknown (n : Nat) (h : n ∉ vwapTags ++ ignoredTags) :
    getMessageSize n = 0 := by
  simp only [vwapTags, ignoredTags, List.mem_append, List.mem_cons, List.mem_singleton,
    List.not_mem_nil, or_false, not_or] at h
  unfold getMessageSize
  split <;> first | rfl | (exfalso; omega)

/-- C13 as stated fails: the buffer made of the byte FF and a complete B record is decoded
without any failure, and the B message is produced from the bytes after the unknown tag. -/
theorem C13_unknown_tag_is_skipped :
    bufferUnknownThenBroken[0]? = some 255 ∧ (255 : Nat) ∉ vwapTags ++ ignoredTags ∧
    readIteration bufferUnknownThenBroken ⟨0, 0⟩ = .ok (⟨1, 1⟩, none) ∧
    readDataIntoQueue bufferUnknownThenBroken
      = .ok (⟨20, 20⟩, [.BrokenTradeMessage ⟨1, clock 9 30 0⟩ 5]) := by
  decide

/-- C13, amended: when the byte at the read pointer is none of the 23 known tags, the iteration
of the decoder loop reports no failure, pushes no message and advances the pointer and
`byte_read` by exactly 1; the loop then goes on from the next byte. -/
theorem C13_unknown_tag_advances_one (buf : List Byte) (st : ReaderState) (t : Byte)
    (htag : buf[st.buffer]? = some t) (hunknown : t.val ∉ vwapTags ++ ignoredTags) :
    readIteration buf st = .ok (⟨st.buffer + 1, st.byte_read + 1⟩, none) ∧
    ∀ fuel, st.byte_read < buf.length →
      readDataLoop buf (fuel + 1) st
        = readDataLoop buf fuel ⟨st.buffer + 1, st.byte_read + 1⟩ := by
  have h := readIteration_unknown buf st t htag (getMessageSize_unknown _ hunknown)
  refine ⟨h, ?_⟩
  intro fuel hlt
  simp only [readDataLoop, hlt, if_true, h, Option.toList, List.nil_append]
  cases readDataLoop buf fuel ⟨st.buffer + 1, st.byte_read + 1⟩ with
  | error f => rfl
  | ok r => rfl

/-- Witness of C13, amended: the byte FF in front of the B record. -/
theorem C13_unknown_tag_advances_one_witness :
    bufferUnknownThenBroken[0]? = some 255 ∧ (255 : Byte).val ∉ vwapTags ++ ignoredTags ∧
    (readIteration bufferUnknownThenBroken ⟨0, 0⟩ = .ok (⟨0 + 1, 0 + 1⟩, none) ∧
    ∀ fuel, 0 < bufferUnknownThenBroken.length →
      readDataLoop bufferUnknownThenBroken (fuel + 1) ⟨0, 0⟩
        = readDataLoop bufferUnknownThenBroken fuel ⟨0 + 1, 0 + 1⟩) :=
  ⟨by decide, by decide,
   C13_unknown_tag_advances_one bufferUnknownThenBroken ⟨0, 0⟩ 255 (by decide) (by decide)⟩


theorem read_past (n : Nat) (buf : List Byte) (buffer : Nat) (h : buf.length < buffer + n) :
    read n buf buffer = .error .readPastEnd := by
  simp only [read, Nat.not_le.mpr h, if_false]

theorem read_cases (n : Nat) (buf : List Byte) (buffer : Nat) :
    read n buf buffer = .error .readPastEnd ∨
      (buffer + n ≤ buf.length ∧ read n buf buffer = .ok (fieldBE buf buffer n, buffer + n)) := by
  by_cases h : buffer + n ≤ buf.length
  · exact Or.inr ⟨h, read_ok n buf buffer h⟩
  · exact Or.inl (read_past n buf buffer (by omega))

theorem initalize_cases (buf : List Byte) (data : Nat) :
    initalize buf data = .error .readPastEnd ∨
      (data + 10 ≤ buf.length ∧ initalize buf data
        = .ok (⟨fieldBE buf data 2, timeStampLoop buf (data + 4)⟩, data + 10)) := by
  by_cases h : data + 10 ≤ buf.length
  · exact Or.inr ⟨h, initalize_ok buf data h⟩
  · left
    rcases read_cases 2 buf data with h1 | ⟨h1, h2⟩
    · simp only [initalize, h1, bind, Except.bind]
    · simp only [initalize, h2, bind, Except.bind, skipByOffset, readTimeStamp]
      rw [if_neg (by omega)]

theorem mkBrokenTradeMessage_past (buf : List Byte) (data : Nat) (h : buf.length < data + 18) :
    mkBrokenTradeMessage buf data = .error .readPastEnd := by
  rcases initalize_cases buf data with h1 | ⟨_, h1⟩
  · simp only [mkBrokenTradeMessage, h1, bind, Except.bind]
  · simp only [mkBrokenTradeMessage, h1, bind, Except.bind, read_past 8 buf (data + 10) (by omega)]


theorem readChar_cases (buf : List Byte) (buffer : Nat) :
    readChar buf buffer = .error .readPastEnd ∨
      (buffer + 1 ≤ buf.length ∧
        readChar buf buffer = .ok ((buf.getD buffer 0).val, buffer + 1)) := by
  by_cases h : buffer + 1 ≤ buf.length
  · exact Or.inr ⟨h, readChar_ok buf buffer h⟩
  · left
    have hn : buf[buffer]? = none := List.getElem?_eq_none (by omega)
    simp only [readChar, hn]

theorem mkAddOrderMessage_past (buf : List Byte) (data : Nat) (h : buf.length < data + 35) :
    mkAddOrderMessage buf data = .error .readPastEnd := by
  rcases initalize_cases buf data with h0 | ⟨_, h0⟩
  · simp only [mkAddOrderMessage, h0, bind, Except.bind]
  · rcases read_cases 8 buf (data + 10) with h1 | ⟨_, h1⟩
    · simp only [mkAddOrderMessage, h0, h1, bind, Except.bind, skipByOffset]
    · rcases read_cases 4 buf (data + 10 + 8 + 1) with h2 | ⟨_, h2⟩
      · simp only [mkAddOrderMessage, h0, h1, h2, bind, Except.bind, skipByOffset]
      · simp only [mkAddOrderMessage, h0, h1, h2, bind, Except.bind, skipByOffset,
          read_past 4 buf (data + 10 + 8 + 1 + 4 + 8) (by omega)]

theorem mkOrderExecutedMessage_past (buf : List Byte) (data : Nat) (h : buf.length < data + 30) :
    mkOrderExecutedMessage buf data = .error .readPastEnd := by
  rcases initalize_cases buf data with h0 | ⟨_, h0⟩
  · simp only [mkOrderExecutedMessage, h0, bind, Except.bind]
  · rcases read_cases 8 buf (data + 10) with h1 | ⟨_, h1⟩
    · simp only [mkOrderExecutedMessage, h0, h1, bind, Except.bind, skipByOffset]
    · rcases read_cases 4 buf (data + 10 + 8) with h2 | ⟨_, h2⟩
      · simp only [mkOrderExecutedMessage, h0, h1, h2, bind, Except.bind, skipByOffset]
      · simp only [mkOrderExecutedMessage, h0, h1, h2, bind, Except.bind, skipByOffset,
          read_past 8 buf (data + 10 + 8 + 4) (by omega)]

theorem mkOrderExecutedWithPriceMessage_past (buf : List Byte) (data : Nat)
    (h : buf.length < data + 35) :
    mkOrderExecutedWithPriceMessage buf data = .error .readPastEnd := by
  rcases initalize_cases buf data with h0 | ⟨_, h0⟩
  · simp only [mkOrderExecutedWithPriceMessage, h0, bind, Except.bind]
  · rcases read_cases 8 buf (data + 10) with h1 | ⟨_, h1⟩
    · simp only [mkOrderExecutedWithPriceMessage, h0, h1, bind, Except.bind, skipByOffset]
    · rcases read_cases 4 buf (data + 10 + 8) with h2 | ⟨_, h2⟩
      · simp only [mkOrderExecutedWithPriceMessage, h0, h1, h2, bind, Except.bind, skipByOffset]
      · rcases read_cases 8 buf (data + 10 + 8 + 4) with h3 | ⟨_, h3⟩
        · simp only [mkOrderExecutedWithPriceMessage, h0, h1, h2, h3, bind, Except.bind,
            skipByOffset]
        · rcases readChar_cases buf (data + 10 + 8 + 4 + 8) with h4 | ⟨_, h4⟩
          · simp only [mkOrderExecutedWithPriceMessage, h0, h1, h2, h3, h4, bind, Except.bind,
              skipByOffset]
          · simp only [mkOrderExecutedWithPriceMessage, h0, h1, h2, h3, h4, bind, Except.bind,
              skipByOffset,
              read_past 4 buf (data + 10 + 8 + 4 + 8 + 1) (by omega)]

theorem mkOrderReplaceMessage_past (buf : List Byte) (data : Nat) (h : buf.length < data + 34) :
    mkOrderReplaceMessage buf data = .error .readPastEnd := by
  rcases initalize_cases buf data with h0 | ⟨_, h0⟩
  · simp only [mkOrderReplaceMessage, h0, bind, Except.bind]
  · rcases read_cases 8 buf (data + 10) with h1 | ⟨_, h1⟩
    · simp only [mkOrderReplaceMessage, h0, h1, bind, Except.bind, skipByOffset]
    · rcases read_cases 8 buf (data + 10 + 8) with h2 | ⟨_, h2⟩
      · simp only [mkOrderReplaceMessage, h0, h1, h2, bind, Except.bind, skipByOffset]
      · rcases read_cases 4 buf (data + 10 + 8 + 8) with h3 | ⟨_, h3⟩
        · simp only [mkOrderReplaceMessage, h0, h1, h2, h3, bind, Except.bind, skipByOffset]
        · simp only [mkOrderReplaceMessage, h0, h1, h2, h3, bind, Except.bind, skipByOffset,
            read_past 4 buf (data + 10 + 8 + 8 + 4) (by omega)]

theorem mkNonCrossTradeMessage_past (buf : List Byte) (data : Nat) (h : buf.length < data + 43) :
    mkNonCrossTradeMessage buf data = .error .readPastEnd := by
  rcases initalize_cases buf data with h0 | ⟨_, h0⟩
  · simp only [mkNonCrossTradeMessage, h0, bind, Except.bind]
  · rcases read_cases 8 buf (data + 10) with h1 | ⟨_, h1⟩
    · simp only [mkNonCrossTradeMessage, h0, h1, bind, Except.bind, skipByOffset]
    · rcases read_cases 4 buf (data + 10 + 8 + 1) with h2 | ⟨_, h2⟩
      · simp only [mkNonCrossTradeMessage, h0, h1, h2, bind, Except.bind, skipByOffset]
      · rcases read_cases 4 buf (data + 10 + 8 + 1 + 4 + 8) with h3 | ⟨_, h3⟩
        · simp only [mkNonCrossTradeMessage, h0, h1, h2, h3, bind, Except.bind, skipByOffset]
        · simp only [mkNonCrossTradeMessage, h0, h1, h2, h3, bind, Except.bind, skipByOffset,
            read_past 8 buf (data + 10 + 8 + 1 + 4 + 8 + 4) (by omega)]


theorem readIteration_fault (buf : List Byte) (st : ReaderState) (t : Byte) (f : Fault)
    (htag : buf[st.buffer]? = some t) (hne : getMessageSize t.val ≠ 0)
    (hc : createMessage t.val buf (st.buffer + 1) = some (.error f)) :
    readIteration buf st = .error f := by
  simp only [readIteration, readChar_tag buf st.buffer t htag, bind, Except.bind, hne,
    ne_eq, not_false_eq_true, if_true, hc]

theorem readIteration_past_view (buf : List Byte) (st : ReaderState) (t : Byte)
    (htag : buf[st.buffer]? = some t)
    (hcut : buf.length < st.buffer + 1 + getMessageSize t.val)
    (hknown : t.val ∈ closingFieldTags) : readIteration buf st = .error .readPastEnd := by
  simp only [closingFieldTags, List.mem_cons, List.mem_singleton, List.not_mem_nil,
    or_false] at hknown
  rcases hknown with ht | ht | ht | ht | ht | ht <;> rw [ht] at hcut <;>
    simp only [getMessageSize] at hcut <;>
    refine readIteration_fault buf st t _ htag (by rw [ht]; decide) ?_ <;>
    rw [ht] <;> simp only [createMessage]
  · rw [mkAddOrderMessage_past buf _ (by omega)]
  · rw [mkOrderExecutedMessage_past buf _ (by omega)]
  · rw [mkOrderExecutedWithPriceMessage_past buf _ (by omega)]
  · rw [mkOrderReplaceMessage_past buf _ (by omega)]
  · rw [mkNonCrossTradeMessage_past buf _ (by omega)]
  · rw [mkBrokenTradeMessage_past buf _ (by omega)]

/-! ## Queue -/

theorem runOps_fifo {T : Type} : ∀ (ops : List (QueueOp T)) (q q2 : ThreadSafeQueue T)
    (popped : List T), runOps q ops = some (q2, popped) →
    popped ++ q2.queue_ = q.queue_ ++ pushedValues ops
  | [], q, q2, popped, h => by
    simp only [runOps, Option.some.injEq, Prod.mk.injEq] at h
    obtain ⟨rfl, rfl⟩ := h
    simp [pushedValues]
  | .push value :: ops, q, q2, popped, h => by
    have ih := runOps_fifo ops (q.push value) q2 popped h
    rw [ih]
    simp [ThreadSafeQueue.push, pushedValues]
  | .finish :: ops, q, q2, popped, h => by
    have ih := runOps_fifo ops q.finish q2 popped h
    rw [ih]
    simp [ThreadSafeQueue.finish, pushedValues]
  | .pop :: ops, q, q2, popped, h => by
    simp only [runOps] at h
    cases hq : q.queue_ with
    | nil =>
      by_cases hf : q.finished_ = true
      · simp only [ThreadSafeQueue.pop, hq, hf, if_true] at h
        have ih := runOps_fifo ops q q2 popped h
        rw [ih, hq]
        simp [pushedValues]
      · simp [ThreadSafeQueue.pop, hq, hf] at h
    | cons v rest =>
      simp only [ThreadSafeQueue.pop, hq] at h
      cases hr : runOps { q with queue_ := rest } ops with
      | none => simp [hr] at h
      | some r =>
        obtain ⟨q3, p3⟩ := r
        simp only [hr, Option.some.injEq, Prod.mk.injEq] at h
        obtain ⟨rfl, rfl⟩ := h
        have ih := runOps_fifo ops { q with queue_ := rest } q3 p3 hr
        simp only [List.cons_append, ih]
        simp [pushedValues]

theorem runOps_pushes {T : Type} : ∀ (vs : List T) (q : ThreadSafeQueue T)
    (ops : List (QueueOp T)),
    runOps q (vs.map QueueOp.push ++ ops) = runOps { q with queue_ := q.queue_ ++ vs } ops
  | [], q, ops => by simp
  | v :: vs, q, ops => by
    have ih := runOps_pushes vs (q.push v) ops
    show runOps (q.push v) (vs.map QueueOp.push ++ ops) = _
    rw [ih]
    simp [ThreadSafeQueue.push]

theorem runOps_pops {T : Type} : ∀ (vs : List T) (f : Bool),
    runOps ⟨vs, f⟩ (List.replicate vs.length QueueOp.pop) = some (⟨[], f⟩, vs)
  | [], f => rfl
  | v :: vs, f => by
    simp only [List.length_cons, List.replicate_succ, runOps, ThreadSafeQueue.pop,
      runOps_pops vs f]

/-- C15: in the sequential model of `ThreadSafeQueue`, for every run of calls from a fresh
queue the values of the successful pops, followed by what is left in the queue, are the pushed
values in push order; `pop` returns false exactly when the list is empty and `finish` has been
called; after pushes and a `finish`, as many pops as there were pushes return all the values in
order and one more pop returns false; and `finish` twice is `finish` once. -/
theorem C15_queue_semantics {T : Type} :
    (∀ (ops : List (QueueOp T)) (q : ThreadSafeQueue T) (popped : List T),
      runOps ThreadSafeQueue.init ops = some (q, popped) →
        popped ++ q.queue_ = pushedValues ops) ∧
    (∀ (vs : List T),
      runOps ThreadSafeQueue.init (vs.map QueueOp.push ++ List.replicate vs.length QueueOp.pop)
        = some (⟨[], false⟩, vs)) ∧
    (∀ q q1 : ThreadSafeQueue T,
      q.pop = some (none, q1) ↔ (q.queue_ = [] ∧ q.finished_ = true ∧ q1 = q)) ∧
    (∀ (vs : List T),
      runOps ThreadSafeQueue.init
          (vs.map QueueOp.push ++
            (QueueOp.finish :: (List.replicate vs.length QueueOp.pop ++ [QueueOp.pop])))
        = some (⟨[], true⟩, vs)) ∧
    (∀ q : ThreadSafeQueue T, q.finish.finish = q.finish) := by
  refine ⟨?_, ?_, ?_, ?_, ?_⟩
  · intro ops q popped h
    have := runOps_fifo ops ThreadSafeQueue.init q popped h
    simpa [ThreadSafeQueue.init] using this
  · intro vs
    rw [runOps_pushes]
    simpa [ThreadSafeQueue.init] using runOps_pops vs false
  · intro q q1
    cases hq : q.queue_ with
    | nil =>
      by_cases hf : q.finished_ = true
      · simp only [ThreadSafeQueue.pop, hq, hf, if_true, Option.some.injEq, Prod.mk.injEq,
          true_and]
        exact eq_comm
      · simp [ThreadSafeQueue.pop, hq, hf]
    | cons v rest => simp [ThreadSafeQueue.pop, hq]
  · intro vs
    rw [runOps_pushes]
    simp only [ThreadSafeQueue.init, List.nil_append, runOps, ThreadSafeQueue.finish]
    have hp : ∀ (ws : List T),
        runOps (⟨ws, true⟩ : ThreadSafeQueue T)
          (List.replicate ws.length QueueOp.pop ++ [QueueOp.pop]) = some (⟨[], true⟩, ws) := by
      intro ws
      induction ws with
      | nil => rfl
      | cons w ws ih =>
        show (match runOps (⟨ws, true⟩ : ThreadSafeQueue T)
            (List.replicate ws.length QueueOp.pop ++ [QueueOp.pop]) with
          | none => none
          | some (q2, popped) => some (q2, w :: popped)) = _
        rw [ih]
    exact hp vs
  · intro q
    rfl

/-- Instance of C15: pushes of 1, 2, 3 with a pop in between, then `finish` and pops. -/
theorem C15_queue_semantics_witness :
    runOps (ThreadSafeQueue.init : ThreadSafeQueue Nat)
        [.push 1, .push 2, .pop, .push 3, .finish, .pop, .pop, .pop]
      = some (⟨[], true⟩, [1, 2, 3]) ∧
    [1, 2, 3] ++ ([] : List Nat) =
      pushedValues
        ([.push 1, .push 2, .pop, .push 3, .finish, .pop, .pop, .pop] : List (QueueOp Nat)) ∧
    runOps (ThreadSafeQueue.init : ThreadSafeQueue Nat) [.pop] = none :=
  ⟨by decide,
   C15_queue_semantics.1 [.push 1, .push 2, .pop, .push 3, .finish, .pop, .pop, .pop]
     ⟨[], true⟩ [1, 2, 3] (by decide),
   by decide⟩


/-! ## Break, then the same trade again -/

theorem u64_sub_add_cancel (x a : Nat) (hx : x < 2 ^ 64) :
    ((x + (2 ^ 64 - a % 2 ^ 64)) % 2 ^ 64 + a) % 2 ^ 64 = x := by
  have h64 : (2 : Nat) ^ 64 = 18446744073709551616 := by norm_num
  rw [h64] at hx ⊢
  omega

theorem bucket_add_sub_restore (m : UMap HourArray) (s : Nat) (h : Fin 24) (a : Nat)
    (hx : bucket m s h < 2 ^ 64) (s' : Nat) (h' : Fin 24) :
    bucket (bucketAdd (bucketSub m s h a) s h a) s' h' = bucket m s' h' := by
  by_cases hne : (s', h') = (s, h)
  · cases hne
    rw [bucket_bucketAdd_same, bucket_bucketSub_same, u64_sub_add_cancel _ _ hx]
  · rw [bucket_bucketAdd_other _ _ _ _ _ _ hne, bucket_bucketSub_other _ _ _ _ _ _ hne]

theorem trade_after_break (st : AggState) (s p q h m2 cT : Nat) (opm : UMap Nat)
    (hh : h < 24) (hv : bucket st.volume_map s ⟨h, hh⟩ < 2 ^ 64)
    (hd : bucket st.dollar_volume_map s ⟨h, hh⟩ < 2 ^ 64) :
    ∃ st2,
      applyTrade
        { st with
          dollar_volume_map := bucketSub st.dollar_volume_map s ⟨h, hh⟩ (u64mul p q)
          volume_map := bucketSub st.volume_map s ⟨h, hh⟩ q
          cur_hour := cT
          order_price_map := opm } h s m2 p q = .ok st2 ∧
      ∀ (s' : Nat) (h' : Fin 24),
        bucket st2.volume_map s' h' = bucket st.volume_map s' h' ∧
        bucket st2.dollar_volume_map s' h' = bucket st.dollar_volume_map s' h' := by
  refine ⟨_, applyTrade_ok _ h s m2 p q hh, ?_⟩
  intro s' h'
  exact ⟨bucket_add_sub_restore _ _ _ _ hv s' h', bucket_add_sub_restore _ _ _ _ hd s' h'⟩

/-- C16: let the match index hold the trade `(s, p, q, h)` at the key of match number `m`, with
`s` a 16-bit stock id, `h < 24` and the two accumulators of `(s, h)` below `2^64`.  Processing
`B(m)` and then a trade event for stock `s` stamped in hour `h` with price `p`, shares `q`
and any match number (a P event, a Q event, a printable C event, or an E event on an order
resting at price `p`) succeeds and leaves every bucket of `volume` and of `dollar_volume`
with the value it had before the B event, so every quotient of the two is the same as
before. -/
theorem C16_break_then_reapply (st : AggState) (hdrB hdrT : ItchHeader)
    (m m2 s p q h order_id printable : Nat) (trade : ItchMessage)
    (hk : KeysPresent st.stock_map st.volume_map st.dollar_volume_map)
    (hs : s < 65536) (hh : h < 24)
    (he : st.matchID_trade_map (m % 65536) = some (s, p, q, h))
    (hv : bucket st.volume_map s ⟨h, hh⟩ < 2 ^ 64)
    (hd : bucket st.dollar_volume_map s ⟨h, hh⟩ < 2 ^ 64)
    (hstock : hdrT.stock_id = s) (hhour : getMsgHour hdrT.message_time = h)
    (htrade : trade = .NonCrossTradeMessage hdrT order_id q p m2 ∨
      trade = .CrossTradeMessage hdrT q p m2 ∨
      (trade = .OrderExecutedWithPriceMessage hdrT order_id q m2 printable p ∧ printable ≠ 78) ∨
      (trade = .OrderExecutedMessage hdrT order_id q m2 ∧
        (st.order_price_map order_id).getD 0 = p)) :
    ∃ st1 out1 st2 out2,
      processOne st (.BrokenTradeMessage hdrB m) = .ok (st1, out1) ∧
      processOne st1 trade = .ok (st2, out2) ∧
      ∀ (s' : Nat) (h' : Fin 24),
        bucket st2.volume_map s' h' = bucket st.volume_map s' h' ∧
        bucket st2.dollar_volume_map s' h' = bucket st.dollar_volume_map s' h' ∧
        (bucket st2.dollar_volume_map s' h' : ℚ) / 10000 / bucket st2.volume_map s' h' =
          (bucket st.dollar_volume_map s' h' : ℚ) / 10000 / bucket st.volume_map s' h' := by
  subst hstock hhour
  have fin : ∀ (st1 st2 : AggState) (out1 : List Emission),
      processOne st (.BrokenTradeMessage hdrB m) = .ok (st1, out1) →
      KeysPresent st1.stock_map st1.volume_map st1.dollar_volume_map →
      handleMessage
        { st1 with cur_hour := st1.cur_hour + (getMsgHour trade.hdr.message_time - st1.cur_hour) }
        (getMsgHour trade.hdr.message_time) trade = .ok st2 →
      (∀ (s' : Nat) (h' : Fin 24),
        bucket st2.volume_map s' h' = bucket st.volume_map s' h' ∧
        bucket st2.dollar_volume_map s' h' = bucket st.dollar_volume_map s' h') →
      ∃ st1 out1 st2 out2,
        processOne st (.BrokenTradeMessage hdrB m) = .ok (st1, out1) ∧
        processOne st1 trade = .ok (st2, out2) ∧
        ∀ (s' : Nat) (h' : Fin 24),
          bucket st2.volume_map s' h' = bucket st.volume_map s' h' ∧
          bucket st2.dollar_volume_map s' h' = bucket st.dollar_volume_map s' h' ∧
          (bucket st2.dollar_volume_map s' h' : ℚ) / 10000 / bucket st2.volume_map s' h' =
            (bucket st.dollar_volume_map s' h' : ℚ) / 10000 / bucket st.volume_map s' h' := by
    intro st1 st2 out1 h1 hk1 h2 hb
    refine ⟨st1, out1, st2, _, h1, processOne_ok_of_handle st1 trade st2 hk1 h2, ?_⟩
    intro s' h'
    exact ⟨(hb s' h').1, (hb s' h').2, by rw [(hb s' h').1, (hb s' h').2]⟩
  have hmod : hdrT.stock_id % 65536 = hdrT.stock_id := Nat.mod_eq_of_lt hs
  have hB := processOne_ok_of_handle st (.BrokenTradeMessage hdrB m) _ hk
    (handleMessage_broken_ok
      { st with cur_hour := st.cur_hour + (getMsgHour hdrB.message_time - st.cur_hour) }
      (getMsgHour hdrB.message_time) hdrB m hdrT.stock_id p q (getMsgHour hdrT.message_time)
      he hh)
  rw [hmod] at hB
  have hk1 : KeysPresent st.stock_map
      (bucketSub st.volume_map hdrT.stock_id ⟨getMsgHour hdrT.message_time, hh⟩ q)
      (bucketSub st.dollar_volume_map hdrT.stock_id ⟨getMsgHour hdrT.message_time, hh⟩
        (u64mul p q)) :=
    fun x hx => ⟨bucketSub_isSome _ _ _ _ _ (hk x hx).1, bucketSub_isSome _ _ _ _ _ (hk x hx).2⟩
  rcases htrade with rfl | rfl | ⟨rfl, hp⟩ | ⟨rfl, hp⟩
  · obtain ⟨st2, h2, hb⟩ := trade_after_break st hdrT.stock_id p q
      (getMsgHour hdrT.message_time) m2
      (st.cur_hour + (getMsgHour hdrB.message_time - st.cur_hour)
        + (getMsgHour hdrT.message_time
          - (st.cur_hour + (getMsgHour hdrB.message_time - st.cur_hour))))
      st.order_price_map hh hv hd
    exact fin _ st2 _ hB hk1 h2 hb
  · obtain ⟨st2, h2, hb⟩ := trade_after_break st hdrT.stock_id p q
      (getMsgHour hdrT.message_time) m2
      (st.cur_hour + (getMsgHour hdrB.message_time - st.cur_hour)
        + (getMsgHour hdrT.message_time
          - (st.cur_hour + (getMsgHour hdrB.message_time - st.cur_hour))))
      st.order_price_map hh hv hd
    exact fin _ st2 _ hB hk1 h2 hb
  · obtain ⟨st2, h2, hb⟩ := trade_after_break st hdrT.stock_id p q
      (getMsgHour hdrT.message_time) m2
      (st.cur_hour + (getMsgHour hdrB.message_time - st.cur_hour)
        + (getMsgHour hdrT.message_time
          - (st.cur_hour + (getMsgHour hdrB.message_time - st.cur_hour))))
      st.order_price_map hh hv hd
    refine fin _ st2 _ hB hk1 ?_ hb
    simp only [handleMessage, hp, if_false]
    exact h2
  · subst hp
    obtain ⟨st2, h2, hb⟩ := trade_after_break st hdrT.stock_id
      ((st.order_price_map order_id).getD 0) q
      (getMsgHour hdrT.message_time) m2
      (st.cur_hour + (getMsgHour hdrB.message_time - st.cur_hour)
        + (getMsgHour hdrT.message_time
          - (st.cur_hour + (getMsgHour hdrB.message_time - st.cur_hour))))
      (st.order_price_map.assign order_id (st.order_price_map.subscript order_id 0)) hh hv hd
    exact fin _ st2 _ hB hk1 h2 hb

/-- Witness of C16: in `stateTraded` the trade of 500 shares at 100000 with match 1 is broken
at 09:45:00 and applied again at 09:50:00 as a P event with match 2; hour 9 of stock 1 holds
500 and 50000000 again. -/
theorem C16_break_then_reapply_witness :
    KeysPresent stateTraded.stock_map stateTraded.volume_map stateTraded.dollar_volume_map ∧
    stateTraded.matchID_trade_map (1 % 65536) = some (1, 100000, 500, 9) ∧
    bucket stateTraded.volume_map 1 ⟨9, by decide⟩ < 2 ^ 64 ∧
    bucket stateTraded.dollar_volume_map 1 ⟨9, by decide⟩ < 2 ^ 64 ∧
    getMsgHour (clock 9 50 0) = 9 ∧
    (∃ st1 out1 st2 out2,
      processOne stateTraded (.BrokenTradeMessage ⟨1, clock 9 45 0⟩ 1) = .ok (st1, out1) ∧
      processOne st1 (.NonCrossTradeMessage ⟨1, clock 9 50 0⟩ 0 500 100000 2)
        = .ok (st2, out2) ∧
      ∀ (s' : Nat) (h' : Fin 24),
        bucket st2.volume_map s' h' = bucket stateTraded.volume_map s' h' ∧
        bucket st2.dollar_volume_map s' h' = bucket stateTraded.dollar_volume_map s' h' ∧
        (bucket st2.dollar_volume_map s' h' : ℚ) / 10000 / bucket st2.volume_map s' h' =
          (bucket stateTraded.dollar_volume_map s' h' : ℚ) / 10000
            / bucket stateTraded.volume_map s' h') ∧
    (∃ st1 out1 st2 out2,
      processOne stateTraded (.BrokenTradeMessage ⟨1, clock 9 45 0⟩ 1) = .ok (st1, out1) ∧
      processOne st1 (.NonCrossTradeMessage ⟨1, clock 9 50 0⟩ 0 500 100000 2)
        = .ok (st2, out2) ∧
      bucket st1.volume_map 1 9 = 0 ∧ bucket st1.dollar_volume_map 1 9 = 0 ∧
      bucket st2.volume_map 1 9 = 500 ∧ bucket st2.dollar_volume_map 1 9 = 50000000) :=
  ⟨by decide, by decide, by decide, by decide, by decide,
   C16_break_then_reapply stateTraded ⟨1, clock 9 45 0⟩ ⟨1, clock 9 50 0⟩ 1 2 1 100000 500 9 0 0
     (.NonCrossTradeMessage ⟨1, clock 9 50 0⟩ 0 500 100000 2)
     (by decide) (by decide) (by decide) (by decide) (by decide) (by decide) rfl (by decide)
     (Or.inl rfl),
   ⟨_, _, _, _, rfl, rfl, by decide, by decide, by decide, by decide⟩⟩


/-! ## Watermark -/

theorem hourLoop_result : ∀ (n : Nat) (st st2 : AggState) (out : List Emission),
    hourLoop n st = .ok (st2, out) → st2 = { st with cur_hour := st.cur_hour + n }
  | 0, st, st2, out, h => by
    simp only [hourLoop, Except.ok.injEq, Prod.mk.injEq] at h
    rw [← h.1]
    rfl
  | n + 1, st, st2, out, h => by
    simp only [hourLoop] at h
    split at h
    · cases h
    · split at h
      · cases h
      · next st3 rest h3 =>
        simp only [Except.ok.injEq, Prod.mk.injEq] at h
        have ih := hourLoop_result n _ st3 rest h3
        rw [← h.1, ih]
        simp [Nat.add_assoc, Nat.add_comm 1 n]

theorem handleMessage_cur_hour (st st2 : AggState) (m : Nat) (message : ItchMessage)
    (h : handleMessage st m message = .ok st2) : st2.cur_hour = st.cur_hour := by
  have ht : ∀ (st1 : AggState) (s mn p q : Nat), applyTrade st1 m s mn p q = .ok st2 →
      st2.cur_hour = st1.cur_hour := by
    intro st1 s mn p q h1
    by_cases hm : m < 24
    · rw [applyTrade_ok st1 m s mn p q hm] at h1
      cases h1; rfl
    · simp [applyTrade, hm] at h1
  cases message with
  | StockDirectoryMessage hdr sym => cases h; rfl
  | AddOrderMessage hdr o sh pr => cases h; rfl
  | AddOrderMPIDAttributionMessage hdr o sh pr => cases h; rfl
  | OrderExecutedMessage hdr o q mn =>
    exact ht { st with
      order_price_map := st.order_price_map.assign o (st.order_price_map.subscript o 0) }
      _ _ _ _ h
  | OrderExecutedWithPriceMessage hdr o q mn pr ep =>
    by_cases hp : pr = 78
    · simp only [handleMessage, hp, if_true] at h
      cases h; rfl
    · simp only [handleMessage, hp, if_false] at h
      exact ht _ _ _ _ _ h
  | OrderReplaceMessage hdr o n sh pr => cases h; rfl
  | NonCrossTradeMessage hdr o sh pr mn => exact ht _ _ _ _ _ h
  | CrossTradeMessage hdr sh pr mn => exact ht _ _ _ _ _ h
  | BrokenTradeMessage hdr mn =>
    cases he : st.matchID_trade_map (mn % 65536) with
    | none =>
      simp only [handleMessage, he] at h
      cases h; rfl
    | some e =>
      obtain ⟨s, p, q, th⟩ := e
      by_cases hth : th < 24
      · rw [handleMessage_broken_ok st m hdr mn s p q th he hth] at h
        cases h; rfl
      · simp [handleMessage, he, hth] at h

theorem processOne_cur_hour (st st2 : AggState) (out : List Emission) (message : ItchMessage)
    (h : processOne st message = .ok (st2, out)) :
    st2.cur_hour = max st.cur_hour (getMsgHour message.hdr.message_time) := by
  simp only [processOne] at h
  split at h
  · cases h
  · next st1 out1 h1 =>
    split at h
    · cases h
    · next st3 h3 =>
      simp only [Except.ok.injEq, Prod.mk.injEq] at h
      rw [← h.1, handleMessage_cur_hour _ _ _ _ h3, hourLoop_result _ _ _ _ h1]
      simp only
      omega

theorem processLoop_cur_hour : ∀ (queue : List ItchMessage) (st st2 : AggState)
    (out : List Emission), processLoop st queue = .ok (st2, out) → st.cur_hour ≤ st2.cur_hour
  | [], st, st2, out, h => by
    simp only [processLoop, Except.ok.injEq, Prod.mk.injEq] at h
    rw [← h.1]
  | message :: rest, st, st2, out, h => by
    simp only [processLoop] at h
    split at h
    · cases h
    · next st1 out1 h1 =>
      split at h
      · cases h
      · next st3 out3 h3 =>
        simp only [Except.ok.injEq, Prod.mk.injEq] at h
        have e1 := processOne_cur_hour st st1 out1 message h1
        have e2 := processLoop_cur_hour rest st1 st3 out3 h3
        rw [← h.1]
        omega

/-- C17: in a state with watermark `c` whose registered stocks have their arrays, for an event
with hour `m`, the watermark loop calls the hourly emission for `c, c + 1, ..., m - 1` in that
order (no call when `m ≤ c`), each call computed from the maps of the state before the event,
and ends with `cur_hour = max c m`; the step is the handler applied to that state, with those
calls as its output, so a step that returns leaves `cur_hour = max c m`; and along any
sequence of events that the main loop processes `cur_hour` does not decrease. -/
theorem C17_drain_then_apply (st : AggState) (message : ItchMessage)
    (hk : KeysPresent st.stock_map st.volume_map st.dollar_volume_map) :
    hourLoop (getMsgHour message.hdr.message_time - st.cur_hour) st =
      .ok ({ st with cur_hour := max st.cur_hour (getMsgHour message.hdr.message_time) },
        hourEmissions st (getMsgHour message.hdr.message_time - st.cur_hour)) ∧
    (hourEmissions st (getMsgHour message.hdr.message_time - st.cur_hour)).map Emission.hour =
      List.range' st.cur_hour (getMsgHour message.hdr.message_time - st.cur_hour) ∧
    (∀ e ∈ hourEmissions st (getMsgHour message.hdr.message_time - st.cur_hour),
      e.output = calcAndOutputVWAP e.hour st.stock_map st.volume_map st.dollar_volume_map) ∧
    processOne st message =
      (match handleMessage
          { st with cur_hour := max st.cur_hour (getMsgHour message.hdr.message_time) }
          (getMsgHour message.hdr.message_time) message with
        | .error f => .error f
        | .ok st2 =>
          .ok (st2, hourEmissions st (getMsgHour message.hdr.message_time - st.cur_hour))) ∧
    (∀ st2 out, processOne st message = .ok (st2, out) →
      st2.cur_hour = max st.cur_hour (getMsgHour message.hdr.message_time) ∧
      out = hourEmissions st (getMsgHour message.hdr.message_time - st.cur_hour)) ∧
    (∀ (queue : List ItchMessage) (st2 : AggState) (out : List Emission),
      processLoop st queue = .ok (st2, out) → st.cur_hour ≤ st2.cur_hour) := by
  have hmax : st.cur_hour + (getMsgHour message.hdr.message_time - st.cur_hour)
      = max st.cur_hour (getMsgHour message.hdr.message_time) := by omega
  have hstep := processOne_eq st message hk
  rw [hmax] at hstep
  refine ⟨?_, hourEmissions_hours _ _, ?_, hstep, ?_, ?_⟩
  · rw [hourLoop_ok _ st hk, hmax]
  · intro e he
    simp only [hourEmissions, List.mem_map] at he
    obtain ⟨h, _, rfl⟩ := he
    rfl
  · intro st2 out h
    refine ⟨processOne_cur_hour st st2 out message h, ?_⟩
    rw [hstep] at h
    split at h
    · cases h
    · simp only [Except.ok.injEq, Prod.mk.injEq] at h
      exact h.2.symm
  · intro queue st2 out h
    exact processLoop_cur_hour queue st st2 out h

/-- Witness of C17: in `stateTraded` (watermark 9) an A event stamped 12:00:00 makes the calls
for the hours 9, 10, 11, the first with the row of stock 1, and leaves the watermark at 12. -/
theorem C17_drain_then_apply_witness :
    KeysPresent stateTraded.stock_map stateTraded.volume_map stateTraded.dollar_volume_map ∧
    processOne stateTraded (.AddOrderMessage ⟨1, clock 12 0 0⟩ 11 0 5) =
      (match handleMessage
          { stateTraded with cur_hour := max stateTraded.cur_hour (getMsgHour (clock 12 0 0)) }
          (getMsgHour (clock 12 0 0)) (.AddOrderMessage ⟨1, clock 12 0 0⟩ 11 0 5) with
        | .error f => .error f
        | .ok st2 =>
          .ok (st2, hourEmissions stateTraded (getMsgHour (clock 12 0 0) - stateTraded.cur_hour))) ∧
    (∃ st2 out,
      processOne stateTraded (.AddOrderMessage ⟨1, clock 12 0 0⟩ 11 0 5) = .ok (st2, out) ∧
      st2.cur_hour = 12 ∧
      out = [⟨9, .ok [⟨[65, 65, 65], 1, 9, 50000000, 500⟩]⟩, ⟨10, .ok []⟩, ⟨11, .ok []⟩]) :=
  ⟨by decide,
   (C17_drain_then_apply stateTraded (.AddOrderMessage ⟨1, clock 12 0 0⟩ 11 0 5)
     (by decide)).2.2.2.1,
   ⟨_, _, rfl, by decide, by decide⟩⟩


/-! ## Pairing of the accumulators -/

theorem processOne_handle (st st2 : AggState) (out : List Emission) (message : ItchMessage)
    (h : processOne st message = .ok (st2, out)) :
    ∃ c, handleMessage { st with cur_hour := c } (getMsgHour message.hdr.message_time) message
      = .ok st2 := by
  simp only [processOne] at h
  split at h
  · cases h
  · next st1 out1 h1 =>
    split at h
    · cases h
    · next st3 h3 =>
      simp only [Except.ok.injEq, Prod.mk.injEq] at h
      rw [hourLoop_result _ _ _ _ h1, h.1] at h3
      exact ⟨_, h3⟩

theorem bucket_assign_zero (m : UMap HourArray) (k s : Nat) (h : Fin 24) :
    bucket (m.assign k zeroArray) s h = if s = k then 0 else bucket m s h := by
  by_cases hs : s = k <;> simp [bucket, UMap.assign, UMap.subscript, hs, zeroArray]

theorem ledgerSum_erase (f : Nat × Nat × Nat × Nat → Nat) (e : Nat × Nat × Nat × Nat)
    (s h : Nat) : ∀ ledger : List (Nat × Nat × Nat × Nat), e ∈ ledger →
    ledgerSum f (ledger.erase e) s h + (if e.1 = s ∧ e.2.2.2 = h then f e else 0) =
      ledgerSum f ledger s h
  | [], hmem => by cases hmem
  | a :: rest, hmem => by
    by_cases hae : a = e
    · subst hae
      rw [List.erase_cons_head]
      simp only [ledgerSum]
      omega
    · have hbeq : ¬ (a == e) = true := by simpa using hae
      have hrest : e ∈ rest := by
        rcases List.mem_cons.mp hmem with h1 | h1
        · exact absurd h1.symm hae
        · exact h1
      rw [List.erase_cons_tail hbeq]
      simp only [ledgerSum]
      have ih := ledgerSum_erase f e s h rest hrest
      omega

theorem ledgerSum_filter (f : Nat × Nat × Nat × Nat → Nat) (k s h : Nat) :
    ∀ ledger : List (Nat × Nat × Nat × Nat),
    ledgerSum f (ledger.filter fun e => decide (e.1 ≠ k)) s h =
      if s = k then 0 else ledgerSum f ledger s h
  | [] => by simp [ledgerSum]
  | a :: rest => by
    have ih := ledgerSum_filter f k s h rest
    by_cases hak : a.1 = k
    · rw [List.filter_cons_of_neg (by simpa using hak), ih]
      by_cases hs : s = k
      · simp [hs]
      · have hne : ¬ (a.1 = s ∧ a.2.2.2 = h) := fun hc => hs (hc.1.symm.trans hak)
        simp only [hs, if_false, ledgerSum, hne, Nat.zero_add]
    · rw [List.filter_cons_of_pos (by simpa using hak)]
      simp only [ledgerSum, ih]
      by_cases hs : s = k
      · have hne : ¬ (a.1 = k ∧ a.2.2.2 = h) := fun hc => hak hc.1
        simp only [hs, if_true, hne, if_false]
      · simp only [hs, if_false]

theorem ledgerSum_zero_iff (s h : Nat) : ∀ ledger : List (Nat × Nat × Nat × Nat),
    (∀ e ∈ ledger, e.2.1 ≠ 0) →
    (ledgerSum tradeShares ledger s h = 0 ↔ ledgerSum tradeDollars ledger s h = 0)
  | [], _ => by simp [ledgerSum]
  | a :: rest, hp => by
    have ih := ledgerSum_zero_iff s h rest fun e he => hp e (List.mem_cons_of_mem a he)
    have ha : a.2.1 ≠ 0 := hp a (List.mem_cons_self a rest)
    simp only [ledgerSum]
    by_cases hc : a.1 = s ∧ a.2.2.2 = h
    · simp only [hc, and_self, if_true, Nat.add_eq_zero_iff, tradeShares, tradeDollars,
        Nat.mul_eq_zero, ha, false_or, ih]
    · simp only [hc, if_false, Nat.zero_add, ih]

theorem ledgered_paired (st : AggState) (ledger : List (Nat × Nat × Nat × Nat))
    (hI : Ledgered st.volume_map st.dollar_volume_map ledger) : Paired st := by
  intro s h
  rw [(hI.1 s h).1, (hI.1 s h).2]
  exact ledgerSum_zero_iff s h.val ledger fun e he => (hI.2.2 e he).1

theorem applyTrade_ledgered (st st2 : AggState) (m s mn p q : Nat)
    (ledger : List (Nat × Nat × Nat × Nat))
    (hI : Ledgered st.volume_map st.dollar_volume_map ledger) (hp : p ≠ 0) (hs : s < 65536)
    (hv : ledgerSum tradeShares ledger s m + q < 2 ^ 64)
    (hd : ledgerSum tradeDollars ledger s m + p * q < 2 ^ 64)
    (h : applyTrade st m s mn p q = .ok st2) :
    Ledgered st2.volume_map st2.dollar_volume_map ((s, p, q, m) :: ledger) := by
  by_cases hm : m < 24
  · rw [applyTrade_ok st m s mn p q hm] at h
    cases h
    refine ⟨?_, ?_, ?_⟩
    · intro s' h'
      show bucket (bucketAdd st.volume_map s ⟨m, hm⟩ q) s' h' = _ ∧
        bucket (bucketAdd st.dollar_volume_map s ⟨m, hm⟩ (u64mul p q)) s' h' = _
      by_cases hne : (s', h') = (s, ⟨m, hm⟩)
      · cases hne
        have hpq : p * q < 2 ^ 64 := by omega
        rw [bucket_bucketAdd_same, bucket_bucketAdd_same, u64mul, Nat.mod_eq_of_lt hpq,
          (hI.1 s ⟨m, hm⟩).1, (hI.1 s ⟨m, hm⟩).2, Nat.mod_eq_of_lt hv, Nat.mod_eq_of_lt hd]
        simp only [ledgerSum, and_self, if_true, tradeShares, tradeDollars]
        omega
      · rw [bucket_bucketAdd_other _ _ _ _ _ _ hne, bucket_bucketAdd_other _ _ _ _ _ _ hne]
        have hc : ¬ (s = s' ∧ m = h'.val) := by
          rintro ⟨h1, h2⟩
          exact hne (Prod.ext h1.symm (Fin.ext h2.symm))
        simp only [ledgerSum, hc, if_false, Nat.zero_add]
        exact hI.1 s' h'
    · intro s' h'
      simp only [ledgerSum, tradeShares, tradeDollars]
      by_cases hc : s = s' ∧ m = h'
      · obtain ⟨h1, h2⟩ := hc
        subst h1 h2
        simp only [and_self, if_true]
        constructor <;> omega
      · simp only [hc, if_false, Nat.zero_add]
        exact hI.2.1 s' h'
    · intro e he
      rcases List.mem_cons.mp he with h1 | h1
      · subst h1
        exact ⟨hp, hs, hm⟩
      · exact hI.2.2 e h1
  · simp [applyTrade, hm] at h

theorem break_ledgered (st st2 : AggState) (m mn : Nat) (hdr : ItchHeader)
    (ledger : List (Nat × Nat × Nat × Nat)) (e : Nat × Nat × Nat × Nat)
    (hI : Ledgered st.volume_map st.dollar_volume_map ledger)
    (he : st.matchID_trade_map (mn % 65536) = some e) (hmem : e ∈ ledger)
    (h : handleMessage st m (.BrokenTradeMessage hdr mn) = .ok st2) :
    Ledgered st2.volume_map st2.dollar_volume_map (ledger.erase e) := by
  obtain ⟨s, p, q, th⟩ := e
  obtain ⟨_, hs, hth⟩ := hI.2.2 _ hmem
  have hs' : s % 65536 = s := Nat.mod_eq_of_lt hs
  have hth' : th < 24 := hth
  rw [handleMessage_broken_ok st m hdr mn s p q th he hth', hs'] at h
  cases h
  have eV := fun s' h' => ledgerSum_erase tradeShares (s, p, q, th) s' h' ledger hmem
  have eD := fun s' h' => ledgerSum_erase tradeDollars (s, p, q, th) s' h' ledger hmem
  refine ⟨?_, ?_, ?_⟩
  · intro s' h'
    show bucket (bucketSub st.volume_map s ⟨th, hth'⟩ q) s' h' = _ ∧
      bucket (bucketSub st.dollar_volume_map s ⟨th, hth'⟩ (u64mul p q)) s' h' = _
    by_cases hne : (s', h') = (s, ⟨th, hth'⟩)
    · cases hne
      have e1 := eV s th
      have e2 := eD s th
      dsimp only at e1 e2
      simp only [and_self, if_true, tradeShares, tradeDollars] at e1 e2
      have b1 := (hI.2.1 s th).1
      have b2 := (hI.2.1 s th).2
      have hpq : p * q < 2 ^ 64 := by omega
      rw [bucket_bucketSub_same, bucket_bucketSub_same, u64mul, Nat.mod_eq_of_lt hpq,
        (hI.1 s ⟨th, hth'⟩).1, (hI.1 s ⟨th, hth'⟩).2,
        u64sub_exact _ _ (by omega) b1, u64sub_exact _ _ (by omega) b2]
      dsimp only
      constructor <;> omega
    · rw [bucket_bucketSub_other _ _ _ _ _ _ hne, bucket_bucketSub_other _ _ _ _ _ _ hne]
      have hc : ¬ (s = s' ∧ th = h'.val) := by
        rintro ⟨h1, h2⟩
        exact hne (Prod.ext h1.symm (Fin.ext h2.symm))
      have e1 := eV s' h'.val
      have e2 := eD s' h'.val
      dsimp only at e1 e2
      simp only [hc, if_false, Nat.add_zero] at e1 e2
      rw [e1, e2]
      exact hI.1 s' h'
  · intro s' h'
    have e1 := eV s' h'
    have e2 := eD s' h'
    have b := hI.2.1 s' h'
    constructor <;> omega
  · intro e' he'
    exact hI.2.2 e' (List.mem_of_mem_erase he')

theorem handleMessage_ledgered (st st2 : AggState) (message : ItchMessage)
    (ledger ledger2 : List (Nat × Nat × Nat × Nat))
    (hI : Ledgered st.volume_map st.dollar_volume_map ledger)
    (hs : ledgerStep st ledger message = some ledger2)
    (h : handleMessage st (getMsgHour message.hdr.message_time) message = .ok st2) :
    Ledgered st2.volume_map st2.dollar_volume_map ledger2 := by
  cases message with
  | StockDirectoryMessage hdr sym =>
    simp only [handleMessage, Except.ok.injEq] at h
    simp only [ledgerStep, Option.some.injEq] at hs
    subst h hs
    refine ⟨?_, ?_, ?_⟩
    · intro s h'
      show bucket (st.volume_map.assign hdr.stock_id zeroArray) s h' = _ ∧
        bucket (st.dollar_volume_map.assign hdr.stock_id zeroArray) s h' = _
      rw [bucket_assign_zero, bucket_assign_zero, ledgerSum_filter, ledgerSum_filter]
      by_cases hk : s = hdr.stock_id
      · simp only [hk, if_true, and_self]
      · simp only [hk, if_false]
        exact hI.1 s h'
    · intro s h'
      rw [ledgerSum_filter, ledgerSum_filter]
      by_cases hk : s = hdr.stock_id
      · simp only [hk, if_true]
        constructor <;> norm_num
      · simp only [hk, if_false]
        exact hI.2.1 s h'
    · intro e he
      exact hI.2.2 e (List.mem_filter.mp he).1
  | AddOrderMessage hdr o sh p =>
    simp only [handleMessage, Except.ok.injEq] at h
    simp only [ledgerStep, tradeOf, Option.some.injEq] at hs
    subst h hs
    exact hI
  | AddOrderMPIDAttributionMessage hdr o sh p =>
    simp only [handleMessage, Except.ok.injEq] at h
    simp only [ledgerStep, tradeOf, Option.some.injEq] at hs
    subst h hs
    exact hI
  | OrderReplaceMessage hdr o n sh p =>
    simp only [handleMessage, Except.ok.injEq] at h
    simp only [ledgerStep, tradeOf, Option.some.injEq] at hs
    subst h hs
    exact hI
  | OrderExecutedMessage hdr o q mn =>
    simp only [handleMessage] at h
    simp only [ledgerStep, tradeOf] at hs
    split at hs
    · next hc =>
      simp only [Option.some.injEq] at hs
      subst hs
      exact applyTrade_ledgered
        { st with order_price_map :=
            st.order_price_map.assign o (st.order_price_map.subscript o 0) }
        st2 _ _ mn _ _ ledger hI hc.1 hc.2.1 hc.2.2.1 hc.2.2.2 h
    · cases hs
  | OrderExecutedWithPriceMessage hdr o q mn pr p =>
    simp only [handleMessage] at h
    simp only [ledgerStep, tradeOf] at hs
    by_cases hpr : pr = 78
    · simp only [hpr, if_true, Except.ok.injEq, Option.some.injEq] at h hs
      subst h hs
      exact hI
    · simp only [hpr, if_false] at h hs
      split at hs
      · next hc =>
        simp only [Option.some.injEq] at hs
        subst hs
        exact applyTrade_ledgered _ st2 _ _ mn _ _ ledger hI hc.1 hc.2.1 hc.2.2.1 hc.2.2.2 h
      · cases hs
  | NonCrossTradeMessage hdr o q p mn =>
    simp only [handleMessage] at h
    simp only [ledgerStep, tradeOf] at hs
    split at hs
    · next hc =>
      simp only [Option.some.injEq] at hs
      subst hs
      exact applyTrade_ledgered _ st2 _ _ mn _ _ ledger hI hc.1 hc.2.1 hc.2.2.1 hc.2.2.2 h
    · cases hs
  | CrossTradeMessage hdr q p mn =>
    simp only [handleMessage] at h
    simp only [ledgerStep, tradeOf] at hs
    split at hs
    · next hc =>
      simp only [Option.some.injEq] at hs
      subst hs
      exact applyTrade_ledgered _ st2 _ _ mn _ _ ledger hI hc.1 hc.2.1 hc.2.2.1 hc.2.2.2 h
    · cases hs
  | BrokenTradeMessage hdr mn =>
    simp only [ledgerStep] at hs
    cases he : st.matchID_trade_map (mn % 65536) with
    | none =>
      simp only [handleMessage, he, Except.ok.injEq] at h
      simp only [he, Option.some.injEq] at hs
      subst h hs
      exact hI
    | some e =>
      simp only [he] at hs
      split at hs
      · next hmem =>
        simp only [Option.some.injEq] at hs
        subst hs
        exact break_ledgered st st2 _ mn hdr ledger e hI he hmem h
      · cases hs

theorem processOne_ledgered (st st2 : AggState) (out : List Emission) (message : ItchMessage)
    (ledger ledger2 : List (Nat × Nat × Nat × Nat))
    (hI : Ledgered st.volume_map st.dollar_volume_map ledger)
    (hs : ledgerStep st ledger message = some ledger2)
    (h : processOne st message = .ok (st2, out)) :
    Ledgered st2.volume_map st2.dollar_volume_map ledger2 := by
  obtain ⟨c, hc⟩ := processOne_handle st st2 out message h
  exact handleMessage_ledgered { st with cur_hour := c } st2 message ledger ledger2 hI hs hc

theorem processLoop_ledgered : ∀ (queue : List ItchMessage) (st st2 : AggState)
    (out : List Emission) (ledger : List (Nat × Nat × Nat × Nat)),
    Ledgered st.volume_map st.dollar_volume_map ledger → ledgerRun st ledger queue = true →
    processLoop st queue = .ok (st2, out) → Paired st2
  | [], st, st2, out, ledger, hI, _, h => by
    simp only [processLoop, Except.ok.injEq, Prod.mk.injEq] at h
    rw [← h.1]
    exact ledgered_paired st ledger hI
  | message :: rest, st, st2, out, ledger, hI, hr, h => by
    simp only [processLoop] at h
    split at h
    · cases h
    · next st1 out1 h1 =>
      split at h
      · cases h
      · next st3 out3 h3 =>
        simp only [Except.ok.injEq, Prod.mk.injEq] at h
        simp only [ledgerRun, h1] at hr
        split at hr
        · cases hr
        · next ledger2 hs =>
          rw [← h.1]
          exact processLoop_ledgered rest st1 st3 out3 ledger2
            (processOne_ledgered st st1 out1 message ledger ledger2 hI hs h1) hr h3

theorem ledgered_init : Ledgered AggState.init.volume_map AggState.init.dollar_volume_map [] := by
  refine ⟨?_, ?_, ?_⟩
  · intro s h
    exact ⟨rfl, rfl⟩
  · intro s h
    simp only [ledgerSum]
    constructor <;> norm_num
  · intro e he
    cases he

/-- C18 (as stated, refuted): three runs from the empty state end with `volume[1][9] ≠ 0` and
`dollar_volume[1][9] = 0`: an E event on an order that no event introduced trades 500 shares at
price 0; four trades of 2^31 shares at price 2^31 bring the 64-bit dollar sum round to 0; and a
B event repeated for one trade subtracts that trade twice. -/
theorem C18_pairing_fails :
    (∃ st out, processLoop AggState.init scenarioUnknownOrder = .ok (st, out) ∧
      bucket st.volume_map 1 9 = 500 ∧ bucket st.dollar_volume_map 1 9 = 0 ∧
      ¬ (bucket st.volume_map 1 9 = 0 ↔ bucket st.dollar_volume_map 1 9 = 0)) ∧
    (∃ st out, processLoop AggState.init scenarioWrappedSum = .ok (st, out) ∧
      bucket st.volume_map 1 9 = 8589934592 ∧ bucket st.dollar_volume_map 1 9 = 0) ∧
    (∃ st out, processLoop AggState.init scenarioBrokenTwice = .ok (st, out) ∧
      bucket st.volume_map 1 9 = 18446744073709551615 ∧ bucket st.dollar_volume_map 1 9 = 0) :=
  ⟨⟨_, _, rfl, by decide, by decide, by decide⟩, ⟨_, _, rfl, by decide, by decide⟩,
    ⟨_, _, rfl, by decide, by decide⟩⟩

/-- C18 (amended): in every state that the main loop reaches from the empty state over an
orderly sequence of events, `volume[s][h] = 0` exactly when `dollar_volume[s][h] = 0`, for all
stock ids `s` and hours `h` in 0..23.  Orderly (`ledgerRun`): every trade applied has a
non-zero price and a 16-bit stock id, neither sum of its bucket passes 2^64, and every B event
either finds its slot of the match index empty or finds there a trade that is still on the
ledger of the trades applied and neither removed by a B event nor reset by a later
registration of their stock. -/
theorem C18_paired_in_orderly_runs (queue : List ItchMessage) (st : AggState)
    (out : List Emission) (hr : ledgerRun AggState.init [] queue = true)
    (h : processLoop AggState.init queue = .ok (st, out)) :
    ∀ (s : Nat) (hour : Fin 24),
      bucket st.volume_map s hour = 0 ↔ bucket st.dollar_volume_map s hour = 0 :=
  processLoop_ledgered queue AggState.init st out [] ledgered_init hr h

theorem C18_paired_in_orderly_runs_witness :
    ledgerRun AggState.init [] scenarioOrderly = true ∧
    ∃ st out, processLoop AggState.init scenarioOrderly = .ok (st, out) ∧
      bucket st.volume_map 1 9 = 100 ∧ bucket st.dollar_volume_map 1 9 = 20000000 ∧
      ∀ (s : Nat) (hour : Fin 24),
        bucket st.volume_map s hour = 0 ↔ bucket st.dollar_volume_map s hour = 0 :=
  ⟨by decide, _, _, rfl, by decide, by decide,
    C18_paired_in_orderly_runs scenarioOrderly _ _ (by decide) rfl⟩


/-! ## Range of the watermark -/

theorem bucketIndex_lt (st : AggState) (message : ItchMessage) (hmh : MatchHours st)
    (ht : message.hdr.message_time < dayNanos) (i : Nat)
    (hi : bucketIndex st message = some i) : i < 24 := by
  have hm := getMsgHour_lt _ ht
  cases message with
  | StockDirectoryMessage hdr sym => cases hi
  | AddOrderMessage hdr o sh p => cases hi
  | AddOrderMPIDAttributionMessage hdr o sh p => cases hi
  | OrderReplaceMessage hdr o n sh p => cases hi
  | OrderExecutedMessage hdr o q mn =>
    simp only [bucketIndex, Option.some.injEq] at hi
    rw [← hi]; exact hm
  | OrderExecutedWithPriceMessage hdr o q mn pr p =>
    simp only [bucketIndex] at hi
    split at hi
    · cases hi
    · simp only [Option.some.injEq] at hi
      rw [← hi]; exact hm
  | NonCrossTradeMessage hdr o q p mn =>
    simp only [bucketIndex, Option.some.injEq] at hi
    rw [← hi]; exact hm
  | CrossTradeMessage hdr q p mn =>
    simp only [bucketIndex, Option.some.injEq] at hi
    rw [← hi]; exact hm
  | BrokenTradeMessage hdr mn =>
    simp only [bucketIndex] at hi
    split at hi
    · cases hi
    · next s p q th he =>
      simp only [Option.some.injEq] at hi
      rw [← hi]
      exact hmh _ _ he

/-- C19 (as stated, refuted): timestamps are 48-bit values, so hours up to 78 occur.  From the
empty state an A event stamped 25:00:00 is processed without fault, the hourly emission is
called for the hours 0, ..., 24, hour 24 among them, and `cur_hour` becomes 25; and a P event
stamped 25:00:00 has its handler index the hour arrays at 25, outside the 24 slots. -/
theorem C19_late_timestamp_leaves_range :
    eventLateAdd.hdr.message_time < 2 ^ 48 ∧
    (∃ st out, processLoop AggState.init [eventLateAdd] = .ok (st, out) ∧
      st.cur_hour = 25 ∧ ¬ st.cur_hour ≤ 24 ∧
      out.map Emission.hour = List.range 25 ∧ 24 ∈ out.map Emission.hour) ∧
    bucketIndex AggState.init eventLateTrade = some 25 ∧
    processLoop AggState.init [eventLateTrade] = .error .hourOutOfBounds :=
  ⟨by decide, ⟨_, _, rfl, by decide, by decide, by decide, by decide⟩, by decide, rfl⟩

/-- C19 (amended): when every timestamp of the sequence is below 24 h, the main loop processes
the sequence from the empty state without fault and reaches a state with `cur_hour` in 0..23;
every hour it passed to the hourly emission is in 0..23; the handler of any next event stamped
below 24 h indexes the hour arrays in 0..23; and the end-of-stream loop passes hours in 0..23
and leaves `cur_hour = 24`. -/
theorem C19_watermark_range (queue : List ItchMessage)
    (ht : ∀ message ∈ queue, message.hdr.message_time < dayNanos) :
    ∃ st out, processLoop AggState.init queue = .ok (st, out) ∧
      st.cur_hour ≤ 23 ∧ (∀ e ∈ out, e.hour < 24) ∧
      (∀ message : ItchMessage, message.hdr.message_time < dayNanos →
        ∀ i, bucketIndex st message = some i → i < 24) ∧
      ∃ st2 out2, processMessage queue = .ok (st2, out ++ out2) ∧
        st2.cur_hour = 24 ∧ ∀ e ∈ out2, e.hour < 24 := by
  have hk0 : KeysPresent AggState.init.stock_map AggState.init.volume_map
      AggState.init.dollar_volume_map := by
    intro p hp; simp [AggState.init] at hp
  have hm0 : MatchHours AggState.init := by
    intro k e he; simp [AggState.init, UMap.empty] at he
  obtain ⟨st1, out1, h1, hk1, hmh1, _, hc1, hh1, _⟩ :=
    processLoop_inv queue AggState.init ht (by simp [AggState.init]) hk0 hm0
  have h2 := hourLoop_ok (24 - st1.cur_hour) st1 hk1
  have hours : ∀ (l : List Emission) (a n : Nat), l.map Emission.hour = List.range' a n →
      a + n ≤ 24 → ∀ e ∈ l, e.hour < 24 := by
    intro l a n hl hn e he
    have hmem : e.hour ∈ l.map Emission.hour := List.mem_map_of_mem _ he
    rw [hl, List.mem_range'_1] at hmem
    omega
  have h0 : AggState.init.cur_hour = 0 := rfl
  refine ⟨st1, out1, h1, hc1, hours out1 _ _ hh1 (by omega), ?_,
    { st1 with cur_hour := st1.cur_hour + (24 - st1.cur_hour) },
    hourEmissions st1 (24 - st1.cur_hour), by simp only [processMessage, h1, h2], ?_,
    hours _ _ _ (hourEmissions_hours st1 (24 - st1.cur_hour)) (by omega)⟩
  · intro message htm i hi
    exact bucketIndex_lt st1 message hmh1 htm i hi
  · show st1.cur_hour + (24 - st1.cur_hour) = 24
    omega

theorem C19_watermark_range_witness :
    (∀ message ∈ scenarioOrderly, message.hdr.message_time < dayNanos) ∧
    ∃ st out, processLoop AggState.init scenarioOrderly = .ok (st, out) ∧
      st.cur_hour ≤ 23 ∧ (∀ e ∈ out, e.hour < 24) ∧
      (∀ message : ItchMessage, message.hdr.message_time < dayNanos →
        ∀ i, bucketIndex st message = some i → i < 24) ∧
      ∃ st2 out2, processMessage scenarioOrderly = .ok (st2, out ++ out2) ∧
        st2.cur_hour = 24 ∧ ∀ e ∈ out2, e.hour < 24 :=
  ⟨by decide, C19_watermark_range scenarioOrderly (by decide)⟩


/-! ## Replace -/

/-- C20 (as stated, refuted): a U event whose new order id equals its original order id leaves
an entry for that id, the new price: the handler erases first and assigns afterwards. -/
theorem C20_replace_same_id_keeps_entry :
    ∃ st2 out, processOne stateBeforeReplace eventReplaceSameId = .ok (st2, out) ∧
      st2.order_price_map 20 = some 300000 ∧ st2.order_price_map 20 ≠ none :=
  ⟨_, _, rfl, by decide, by decide⟩

/-- C20 (amended): in a state whose registered stocks have their arrays, a U event
`(orig, new, price)` is processed without fault; afterwards `order_price_map` maps `new` to
`price`, has no entry for `orig` when `orig ≠ new`, and is unchanged at every other order id;
the symbol table, `volume_map`, `dollar_volume_map` and the match index are unchanged.  The
scenario R(1, "BBB"), A(order 20, price 200000), U(orig 20, new 21, price 300000), E(order 21,
100 shares, match 2, 10:00:00) gives for hour 10 the single row BBB, 1, 10 with dollar volume
30000000 over volume 100, whose VWAP is exactly 30. -/
theorem C20_replace (st : AggState) (hdr : ItchHeader) (orig new shares price : Nat)
    (hk : KeysPresent st.stock_map st.volume_map st.dollar_volume_map) :
    (∃ st2 out, processOne st (.OrderReplaceMessage hdr orig new shares price) = .ok (st2, out) ∧
      st2.order_price_map new = some price ∧
      (orig ≠ new → st2.order_price_map orig = none) ∧
      (∀ k, k ≠ orig → k ≠ new → st2.order_price_map k = st.order_price_map k) ∧
      st2.stock_map = st.stock_map ∧ st2.volume_map = st.volume_map ∧
      st2.dollar_volume_map = st.dollar_volume_map ∧
      st2.matchID_trade_map = st.matchID_trade_map) ∧
    (∃ st out, processMessage scenarioReplace = .ok (st, out) ∧
      out[10]? = some ⟨10, .ok [⟨[66, 66, 66], 1, 10, 30000000, 100⟩]⟩) ∧
    Row.vwap ⟨[66, 66, 66], 1, 10, 30000000, 100⟩ = 30 := by
  have hstep := processOne_ok_of_handle st (.OrderReplaceMessage hdr orig new shares price) _ hk rfl
  refine ⟨⟨_, _, hstep, ?_, ?_, ?_, rfl, rfl, rfl, rfl⟩, ⟨_, _, rfl, by decide⟩,
    by norm_num [Row.vwap]⟩
  · simp [UMap.assign]
  · intro hne
    simp [UMap.assign, UMap.erase, hne]
  · intro k h1 h2
    simp [UMap.assign, UMap.erase, h1, h2]

theorem C20_replace_witness :
    KeysPresent stateBeforeReplace.stock_map stateBeforeReplace.volume_map
      stateBeforeReplace.dollar_volume_map ∧
    (∃ st2 out, processOne stateBeforeReplace (.OrderReplaceMessage ⟨1, 0⟩ 20 21 0 300000)
        = .ok (st2, out) ∧
      st2.order_price_map 21 = some 300000 ∧
      (20 ≠ 21 → st2.order_price_map 20 = none) ∧
      (∀ k, k ≠ 20 → k ≠ 21 → st2.order_price_map k = stateBeforeReplace.order_price_map k) ∧
      st2.stock_map = stateBeforeReplace.stock_map ∧
      st2.volume_map = stateBeforeReplace.volume_map ∧
      st2.dollar_volume_map = stateBeforeReplace.dollar_volume_map ∧
      st2.matchID_trade_map = stateBeforeReplace.matchID_trade_map) ∧
    (∃ st out, processMessage scenarioReplace = .ok (st, out) ∧
      out[10]? = some ⟨10, .ok [⟨[66, 66, 66], 1, 10, 30000000, 100⟩]⟩) ∧
    Row.vwap ⟨[66, 66, 66], 1, 10, 30000000, 100⟩ = 30 :=
  ⟨by decide, C20_replace stateBeforeReplace ⟨1, 0⟩ 20 21 0 300000 (by decide)⟩


/-! ## The bound on the iterations of the decoder loop -/

theorem readIteration_byte_read (buf : List Byte) (st st1 : ReaderState)
    (pushed : Option ItchMessage) (h : readIteration buf st = .ok (st1, pushed)) :
    st.byte_read < st1.byte_read := by
  simp only [readIteration, bind, Except.bind, pure, Except.pure] at h
  split at h
  · cases h
  · next r hr =>
    obtain ⟨msg_type, buffer⟩ := r
    dsimp only at h
    split at h
    · split at h
      · simp only [Except.ok.injEq, Prod.mk.injEq] at h
        rw [← h.1]
        show st.byte_read < st.byte_read + _
        omega
      · next r2 hr2 =>
        split at h
        · cases h
        · next r3 hr3 =>
          simp only [Except.ok.injEq, Prod.mk.injEq] at h
          rw [← h.1]
          show st.byte_read < st.byte_read + _
          omega
    · simp only [Except.ok.injEq, Prod.mk.injEq] at h
      rw [← h.1]
      show st.byte_read < st.byte_read + _
      omega

theorem readDataLoop_complete (buf : List Byte) : ∀ (fuel : Nat) (st st2 : ReaderState)
    (queue : List ItchMessage), buf.length ≤ st.byte_read + fuel →
    readDataLoop buf fuel st = .ok (st2, queue) → buf.length ≤ st2.byte_read
  | 0, st, st2, queue, hf, h => by
    simp only [readDataLoop, Except.ok.injEq, Prod.mk.injEq] at h
    rw [← h.1]
    omega
  | fuel + 1, st, st2, queue, hf, h => by
    simp only [readDataLoop] at h
    split at h
    · split at h
      · cases h
      · next st1 pushed h1 =>
        split at h
        · cases h
        · next st3 q3 h3 =>
          simp only [Except.ok.injEq, Prod.mk.injEq] at h
          have hlt := readIteration_byte_read buf st st1 pushed h1
          have ih := readDataLoop_complete buf fuel st1 st3 q3 (by omega) h3
          rw [← h.1]
          exact ih
    · next hge =>
      simp only [Except.ok.injEq, Prod.mk.injEq] at h
      rw [← h.1]
      omega

theorem readDataIntoQueue_complete (buf : List Byte) (st : ReaderState)
    (queue : List ItchMessage) (h : readDataIntoQueue buf = .ok (st, queue)) :
    buf.length ≤ st.byte_read :=
  readDataLoop_complete buf buf.length ⟨0, 0⟩ st queue (by simp) h


/-! ## Cross trades -/

theorem u64_add_sub_cancel (x a : Nat) (hx : x < 2 ^ 64) :
    ((x + a) % 2 ^ 64 + (2 ^ 64 - a % 2 ^ 64)) % 2 ^ 64 = x := by
  have h64 : (2 : Nat) ^ 64 = 18446744073709551616 := by norm_num
  rw [h64] at hx ⊢
  omega

theorem trade_then_break (st st2 : AggState) (m s mn p q : Nat) (hdrB : ItchHeader)
    (hm : m < 24) (hs : s < 65536) (h2 : applyTrade st m s mn p q = .ok st2)
    (hk : KeysPresent st.stock_map st.volume_map st.dollar_volume_map) :
    ∃ st3 out3, processOne st2 (.BrokenTradeMessage hdrB mn) = .ok (st3, out3) ∧
      bucket st3.volume_map s ⟨m, hm⟩ =
        (bucket st2.volume_map s ⟨m, hm⟩ + (2 ^ 64 - q % 2 ^ 64)) % 2 ^ 64 ∧
      bucket st3.dollar_volume_map s ⟨m, hm⟩ =
        (bucket st2.dollar_volume_map s ⟨m, hm⟩ + (2 ^ 64 - (p * q) % 2 ^ 64)) % 2 ^ 64 ∧
      (bucket st.volume_map s ⟨m, hm⟩ < 2 ^ 64 →
        bucket st3.volume_map s ⟨m, hm⟩ = bucket st.volume_map s ⟨m, hm⟩) ∧
      (bucket st.dollar_volume_map s ⟨m, hm⟩ < 2 ^ 64 →
        bucket st3.dollar_volume_map s ⟨m, hm⟩ = bucket st.dollar_volume_map s ⟨m, hm⟩) ∧
      ∀ (s' : Nat) (h' : Fin 24), (s', h') ≠ (s, ⟨m, hm⟩) →
        bucket st3.volume_map s' h' = bucket st.volume_map s' h' ∧
        bucket st3.dollar_volume_map s' h' = bucket st.dollar_volume_map s' h' := by
  rw [applyTrade_ok st m s mn p q hm] at h2
  cases h2
  have hmod : s % 65536 = s := Nat.mod_eq_of_lt hs
  have hk2 : KeysPresent st.stock_map (bucketAdd st.volume_map s ⟨m, hm⟩ q)
      (bucketAdd st.dollar_volume_map s ⟨m, hm⟩ (u64mul p q)) :=
    fun x hx => ⟨bucketAdd_isSome _ _ _ _ _ (hk x hx).1, bucketAdd_isSome _ _ _ _ _ (hk x hx).2⟩
  have he : (st.matchID_trade_map.assign (mn % 65536) (s, p, q, m)) (mn % 65536)
      = some (s, p, q, m) := by
    simp [UMap.assign]
  have hstep := processOne_ok_of_handle
    { st with
      matchID_trade_map := st.matchID_trade_map.assign (mn % 65536) (s, p, q, m)
      dollar_volume_map := bucketAdd st.dollar_volume_map s ⟨m, hm⟩ (u64mul p q)
      volume_map := bucketAdd st.volume_map s ⟨m, hm⟩ q }
    (.BrokenTradeMessage hdrB mn) _ hk2
    (handleMessage_broken_ok _ (getMsgHour hdrB.message_time) hdrB mn s p q m he hm)
  rw [hmod] at hstep
  refine ⟨_, _, hstep, bucket_bucketSub_same _ _ _ _, ?_, ?_, ?_, ?_⟩
  · show bucket (bucketSub _ s ⟨m, hm⟩ (u64mul p q)) s ⟨m, hm⟩ = _
    rw [bucket_bucketSub_same, u64mul, Nat.mod_mod]
  · intro hx
    show bucket (bucketSub (bucketAdd st.volume_map s ⟨m, hm⟩ q) s ⟨m, hm⟩ q) s ⟨m, hm⟩ = _
    rw [bucket_bucketSub_same, bucket_bucketAdd_same]
    exact u64_add_sub_cancel _ _ hx
  · intro hx
    show bucket (bucketSub (bucketAdd st.dollar_volume_map s ⟨m, hm⟩ (u64mul p q)) s ⟨m, hm⟩
      (u64mul p q)) s ⟨m, hm⟩ = _
    rw [bucket_bucketSub_same, bucket_bucketAdd_same]
    exact u64_add_sub_cancel _ _ hx
  · intro s' h' hne
    constructor
    · show bucket (bucketSub (bucketAdd st.volume_map s ⟨m, hm⟩ q) s ⟨m, hm⟩ q) s' h' = _
      rw [bucket_bucketSub_other _ _ _ _ _ _ hne, bucket_bucketAdd_other _ _ _ _ _ _ hne]
    · show bucket (bucketSub (bucketAdd st.dollar_volume_map s ⟨m, hm⟩ (u64mul p q)) s
        ⟨m, hm⟩ (u64mul p q)) s' h' = _
      rw [bucket_bucketSub_other _ _ _ _ _ _ hne, bucket_bucketAdd_other _ _ _ _ _ _ hne]

theorem break_entry (st : AggState) (hdrB : ItchHeader) (mn s p q m : Nat) (hm : m < 24)
    (hs : s < 65536) (hk : KeysPresent st.stock_map st.volume_map st.dollar_volume_map)
    (he : st.matchID_trade_map (mn % 65536) = some (s, p, q, m)) :
    ∃ st3 out3, processOne st (.BrokenTradeMessage hdrB mn) = .ok (st3, out3) ∧
      bucket st3.volume_map s ⟨m, hm⟩ =
        (bucket st.volume_map s ⟨m, hm⟩ + (2 ^ 64 - q % 2 ^ 64)) % 2 ^ 64 ∧
      bucket st3.dollar_volume_map s ⟨m, hm⟩ =
        (bucket st.dollar_volume_map s ⟨m, hm⟩ + (2 ^ 64 - (p * q) % 2 ^ 64)) % 2 ^ 64 := by
  have hmod : s % 65536 = s := Nat.mod_eq_of_lt hs
  have hstep := processOne_ok_of_handle st (.BrokenTradeMessage hdrB mn) _ hk
    (handleMessage_broken_ok
      { st with cur_hour := st.cur_hour + (getMsgHour hdrB.message_time - st.cur_hour) }
      (getMsgHour hdrB.message_time) hdrB mn s p q m he hm)
  rw [hmod] at hstep
  refine ⟨_, _, hstep, bucket_bucketSub_same _ _ _ _, ?_⟩
  show bucket (bucketSub _ s ⟨m, hm⟩ (u64mul p q)) s ⟨m, hm⟩ = _
  rw [bucket_bucketSub_same, u64mul, Nat.mod_mod]

/-- The Q handler: in a state whose registered stocks have their arrays, a Q event for a
16-bit stock id `s` stamped in an hour `h < 24`, with any shares value (no bound: values above
2^32 included), is processed without fault: it adds the shares to `volume[s][h]` and the
64-bit product `cross_price * shares` to `dollar_volume[s][h]` (sums modulo 2^64), stores
`(s, cross_price, shares, h)` with the shares unreduced in the match index and changes no other
bucket.  A B event for that match processed next subtracts the shares and the same 64-bit
product, so both buckets of `(s, h)` are back at their `uint64_t` values and no other bucket has
changed; and in any later state in which the match index still holds that entry a B event for
the match subtracts those two amounts.  The constructor of a Q record takes the shares from
all 8 bytes of the field.  The scenario R(1, "DDD"), Q(1000000 shares, cross price 100000,
match 4, 09:30:00) gives for hour 9 the single row DDD, 1, 9 with dollar volume 100000000000
over volume 1000000, whose VWAP is exactly 10. -/
theorem crossTrade_widening (st : AggState) (hdr hdrB : ItchHeader)
    (shares cross_price match_number : Nat)
    (hk : KeysPresent st.stock_map st.volume_map st.dollar_volume_map)
    (hh : getMsgHour hdr.message_time < 24) (hs : hdr.stock_id < 65536) :
    (∃ st2 out,
      processOne st (.CrossTradeMessage hdr shares cross_price match_number) = .ok (st2, out) ∧
      bucket st2.volume_map hdr.stock_id ⟨getMsgHour hdr.message_time, hh⟩ =
        (bucket st.volume_map hdr.stock_id ⟨getMsgHour hdr.message_time, hh⟩ + shares)
          % 2 ^ 64 ∧
      bucket st2.dollar_volume_map hdr.stock_id ⟨getMsgHour hdr.message_time, hh⟩ =
        (bucket st.dollar_volume_map hdr.stock_id ⟨getMsgHour hdr.message_time, hh⟩
          + (cross_price * shares) % 2 ^ 64) % 2 ^ 64 ∧
      st2.matchID_trade_map (match_number % 65536) =
        some (hdr.stock_id, cross_price, shares, getMsgHour hdr.message_time) ∧
      (∀ (s : Nat) (h : Fin 24), (s, h) ≠ (hdr.stock_id, ⟨getMsgHour hdr.message_time, hh⟩) →
        bucket st2.volume_map s h = bucket st.volume_map s h ∧
        bucket st2.dollar_volume_map s h = bucket st.dollar_volume_map s h) ∧
      ∃ st3 out3, processOne st2 (.BrokenTradeMessage hdrB match_number) = .ok (st3, out3) ∧
        bucket st3.volume_map hdr.stock_id ⟨getMsgHour hdr.message_time, hh⟩ =
          (bucket st2.volume_map hdr.stock_id ⟨getMsgHour hdr.message_time, hh⟩
            + (2 ^ 64 - shares % 2 ^ 64)) % 2 ^ 64 ∧
        bucket st3.dollar_volume_map hdr.stock_id ⟨getMsgHour hdr.message_time, hh⟩ =
          (bucket st2.dollar_volume_map hdr.stock_id ⟨getMsgHour hdr.message_time, hh⟩
            + (2 ^ 64 - (cross_price * shares) % 2 ^ 64)) % 2 ^ 64 ∧
        (bucket st.volume_map hdr.stock_id ⟨getMsgHour hdr.message_time, hh⟩ < 2 ^ 64 →
          bucket st3.volume_map hdr.stock_id ⟨getMsgHour hdr.message_time, hh⟩ =
            bucket st.volume_map hdr.stock_id ⟨getMsgHour hdr.message_time, hh⟩) ∧
        (bucket st.dollar_volume_map hdr.stock_id ⟨getMsgHour hdr.message_time, hh⟩ < 2 ^ 64 →
          bucket st3.dollar_volume_map hdr.stock_id ⟨getMsgHour hdr.message_time, hh⟩ =
            bucket st.dollar_volume_map hdr.stock_id ⟨getMsgHour hdr.message_time, hh⟩) ∧
        ∀ (s : Nat) (h : Fin 24), (s, h) ≠ (hdr.stock_id, ⟨getMsgHour hdr.message_time, hh⟩) →
          bucket st3.volume_map s h = bucket st.volume_map s h ∧
          bucket st3.dollar_volume_map s h = bucket st.dollar_volume_map s h) ∧
    (∀ st4 : AggState, KeysPresent st4.stock_map st4.volume_map st4.dollar_volume_map →
      st4.matchID_trade_map (match_number % 65536) =
        some (hdr.stock_id, cross_price, shares, getMsgHour hdr.message_time) →
      ∃ st5 out5, processOne st4 (.BrokenTradeMessage hdrB match_number) = .ok (st5, out5) ∧
        bucket st5.volume_map hdr.stock_id ⟨getMsgHour hdr.message_time, hh⟩ =
          (bucket st4.volume_map hdr.stock_id ⟨getMsgHour hdr.message_time, hh⟩
            + (2 ^ 64 - shares % 2 ^ 64)) % 2 ^ 64 ∧
        bucket st5.dollar_volume_map hdr.stock_id ⟨getMsgHour hdr.message_time, hh⟩ =
          (bucket st4.dollar_volume_map hdr.stock_id ⟨getMsgHour hdr.message_time, hh⟩
            + (2 ^ 64 - (cross_price * shares) % 2 ^ 64)) % 2 ^ 64) ∧
    (∀ (buf : List Byte) (data : Nat), data + 39 ≤ buf.length →
      ∃ hdr2 price mn, mkCrossTradeMessage buf data =
        .ok (.CrossTradeMessage hdr2 (fieldBE buf (data + 10) 8) price mn, data + 39)) ∧
    (∃ st out, processMessage scenarioCross = .ok (st, out) ∧
      out[9]? = some ⟨9, .ok [⟨[68, 68, 68], 1, 9, 100000000000, 1000000⟩]⟩) ∧
    Row.vwap ⟨[68, 68, 68], 1, 9, 100000000000, 1000000⟩ = 10 := by
  have hstep := processOne_ok_of_handle st
    (.CrossTradeMessage hdr shares cross_price match_number) _ hk
    (applyTrade_ok _ _ _ _ _ _ hh)
  have hbreak := trade_then_break
    { st with cur_hour := st.cur_hour + (getMsgHour hdr.message_time - st.cur_hour) } _
    (getMsgHour hdr.message_time) hdr.stock_id match_number cross_price shares hdrB hh hs
    (applyTrade_ok _ _ _ _ _ _ hh) hk
  refine ⟨⟨_, _, hstep, bucket_bucketAdd_same _ _ _ _, bucket_bucketAdd_same _ _ _ _, ?_, ?_,
    hbreak⟩, ?_, ?_, ⟨_, _, rfl, by decide⟩, by norm_num [Row.vwap]⟩
  · simp [UMap.assign]
  · intro s h hne
    exact ⟨bucket_bucketAdd_other _ _ _ _ s h hne, bucket_bucketAdd_other _ _ _ _ s h hne⟩
  · intro st4 hk4 he4
    exact break_entry st4 hdrB match_number hdr.stock_id cross_price shares
      (getMsgHour hdr.message_time) hh hs hk4 he4
  · intro buf data hlen
    exact ⟨_, _, _, mkCrossTradeMessage_ok buf data hlen⟩

/-- Instance of `crossTrade_widening`: in the state reached after R(1, "DDD") a Q event of
5000000000 shares (more than 2^32) at cross price 100000 with match 4 at 09:30:00; hour 9 of
stock 1 then holds 5000000000 and 500000000000000, the match index holds the shares in full,
and the B event for match 4 at 09:45:00 brings both buckets back to 0.  The record
`recordCross` decodes to that Q event. -/
theorem crossTrade_widening_instance :
    KeysPresent stateBeforeCross.stock_map stateBeforeCross.volume_map
      stateBeforeCross.dollar_volume_map ∧
    getMsgHour (clock 9 30 0) < 24 ∧ (1 : Nat) < 65536 ∧ 2 ^ 32 < 5000000000 ∧
    (∃ st2 out,
      processOne stateBeforeCross (.CrossTradeMessage ⟨1, clock 9 30 0⟩ 5000000000 100000 4)
        = .ok (st2, out) ∧
      bucket st2.volume_map 1 9 = 5000000000 ∧
      bucket st2.dollar_volume_map 1 9 = 500000000000000 ∧
      st2.matchID_trade_map (4 % 65536) = some (1, 100000, 5000000000, 9) ∧
      ∃ st3 out3, processOne st2 (.BrokenTradeMessage ⟨1, clock 9 45 0⟩ 4) = .ok (st3, out3) ∧
        bucket st3.volume_map 1 9 = 0 ∧ bucket st3.dollar_volume_map 1 9 = 0) ∧
    readIteration recordCross ⟨0, 0⟩ =
      .ok (⟨40, 40⟩, some (.CrossTradeMessage ⟨1, clock 9 30 0⟩ 5000000000 100000 4)) := by
  obtain ⟨st2, out, h1, hv, hd, hm, _, st3, out3, h3, _, _, rv, rd, _⟩ :=
    (crossTrade_widening stateBeforeCross ⟨1, clock 9 30 0⟩ ⟨1, clock 9 45 0⟩
      5000000000 100000 4 (by decide) (by decide) (by decide)).1
  exact ⟨by decide, by decide, by decide, by decide,
    ⟨st2, out, h1, hv.trans (by decide), hd.trans (by decide), hm, st3, out3, h3,
      (rv (by decide)).trans (by decide), (rd (by decide)).trans (by decide)⟩, by decide⟩


/-! ## Hour of a timestamp -/

theorem timeStampLoop_lt (buf : List Byte) (p : Nat) : timeStampLoop buf p < 2 ^ 48 := by
  rw [timeStampLoop_eq]
  have hb : ∀ i, byteAt buf i < 256 := fun i => Fin.isLt _
  have h0 := hb p
  have h1 := hb (p + 1)
  have h2 := hb (p + 2)
  have h3 := hb (p + 3)
  have h4 := hb (p + 4)
  have h5 := hb (p + 5)
  norm_num
  omega

theorem getMsgHour_of_lt (t : Nat) (ht : t < 2 ^ 48) :
    getMsgHour t = t / 3600000000000 ∧ t / 3600000000000 ≤ 78 := by
  have h48 : (2 : Nat) ^ 48 = 281474976710656 := by norm_num
  rw [h48] at ht
  unfold getMsgHour
  omega

/-- C22: for every timestamp `t` below 2^48, `getMsgHour` returns the quotient
`t / 3600000000000` (floor division), which is at most 78, so the narrowing to `uint8_t` loses
nothing; for every `h` in 0..23 the timestamp `h * 3600000000000` has hour `h` and, when
`h ≥ 1`, the timestamp one nanosecond earlier has hour `h - 1`; every value that
`readTimeStamp` returns is below 2^48, and so is the `message_time` of every message decoded
from a complete record, whose hour is therefore the quotient. -/
theorem C22_hour_bucketing :
    (∀ t, t < 2 ^ 48 → getMsgHour t = t / 3600000000000 ∧ t / 3600000000000 ≤ 78) ∧
    (∀ h, h < 24 → h * 3600000000000 < 2 ^ 48 ∧ getMsgHour (h * 3600000000000) = h ∧
      (1 ≤ h → getMsgHour (h * 3600000000000 - 1) = h - 1)) ∧
    (∀ (buf : List Byte) (buffer : Nat), buffer + 6 ≤ buf.length →
      ∃ t, readTimeStamp buf buffer = .ok (t, buffer + 6) ∧ t < 2 ^ 48 ∧
        getMsgHour t = t / 3600000000000) ∧
    (∀ (buf : List Byte) (st : ReaderState) (tag : Byte), buf[st.buffer]? = some tag →
      tag.val ∈ vwapTags → st.buffer + 1 + getMessageSize tag.val ≤ buf.length →
      ∃ st2 message, readIteration buf st = .ok (st2, some message) ∧
        message.hdr.message_time < 2 ^ 48 ∧
        getMsgHour message.hdr.message_time = message.hdr.message_time / 3600000000000) := by
  refine ⟨getMsgHour_of_lt, ?_, ?_, ?_⟩
  · intro h hh
    have h48 : (2 : Nat) ^ 48 = 281474976710656 := by norm_num
    rw [h48]
    unfold getMsgHour
    refine ⟨by omega, by omega, ?_⟩
    intro h1
    omega
  · intro buf buffer hlen
    exact ⟨_, readTimeStamp_ok buf buffer hlen, timeStampLoop_lt buf buffer,
      (getMsgHour_of_lt _ (timeStampLoop_lt buf buffer)).1⟩
  · intro buf st tag htag hknown hlen
    obtain ⟨st2, message, h, hm⟩ := readIteration_message_time buf st tag htag hknown hlen
    have hlt : message.hdr.message_time < 2 ^ 48 := by
      rw [hm]
      exact timeStampLoop_lt buf _
    exact ⟨st2, message, h, hlt, (getMsgHour_of_lt _ hlt).1⟩

/-- Witness of C22: the largest 48-bit timestamp has hour 78; hour 9 starts at
32400000000000 ns and the nanosecond before belongs to hour 8; the timestamp of `recordBroken`
is 09:30:00, in hour 9. -/
theorem C22_hour_bucketing_witness :
    (2 ^ 48 - 1 < 2 ^ 48 ∧ getMsgHour (2 ^ 48 - 1) = (2 ^ 48 - 1) / 3600000000000 ∧
      (2 ^ 48 - 1) / 3600000000000 ≤ 78 ∧ getMsgHour (2 ^ 48 - 1) = 78) ∧
    ((9 : Nat) < 24 ∧ 9 * 3600000000000 < 2 ^ 48 ∧ getMsgHour (9 * 3600000000000) = 9 ∧
      (1 ≤ 9 → getMsgHour (9 * 3600000000000 - 1) = 9 - 1)) ∧
    (5 + 6 ≤ recordBroken.length ∧
      ∃ t, readTimeStamp recordBroken 5 = .ok (t, 5 + 6) ∧ t < 2 ^ 48 ∧
        getMsgHour t = t / 3600000000000) ∧
    readTimeStamp recordBroken 5 = .ok (clock 9 30 0, 11) ∧ getMsgHour (clock 9 30 0) = 9 :=
  ⟨⟨by decide, (C22_hour_bucketing.1 (2 ^ 48 - 1) (by decide)).1,
      (C22_hour_bucketing.1 (2 ^ 48 - 1) (by decide)).2, by decide⟩,
    ⟨by decide, C22_hour_bucketing.2.1 9 (by decide)⟩,
    ⟨by decide, C22_hour_bucketing.2.2.1 recordBroken 5 (by decide)⟩,
    by decide, by decide⟩


/-! ## Registration of a stock that is already registered -/

theorem stockAssign_registered (k : Nat) (v : Symbol) :
    ∀ sm : List (Nat × Symbol), KeysAscending sm → k ∈ sm.map Prod.fst →
      stockAssign sm k v = sm.map fun p => if p.1 = k then (k, v) else p
  | [], _, hreg => by simp at hreg
  | q :: rest, ha, hreg => by
    obtain ⟨k', v'⟩ := q
    have h' : (∀ x ∈ rest.map Prod.fst, k' < x) ∧ KeysAscending rest := by
      simpa [KeysAscending] using ha
    have hreg' : k = k' ∨ k ∈ rest.map Prod.fst := by
      simpa using hreg
    have hge : ¬ k < k' := by
      rcases hreg' with h1 | h1
      · omega
      · have := h'.1 k h1
        omega
    by_cases heq : k = k'
    · subst heq
      have hrest : rest.map (fun p => if p.1 = k then (k, v) else p) = rest := by
        have hid : ∀ p ∈ rest, (if p.1 = k then (k, v) else p) = p := by
          intro p hp
          have := h'.1 p.1 (List.mem_map_of_mem _ hp)
          have hne : ¬ p.1 = k := by omega
          simp only [hne, if_false]
        rw [List.map_congr_left hid, List.map_id']
      simp only [stockAssign, hge, if_false, if_true, List.map_cons, hrest]
    · have hmem : k ∈ rest.map Prod.fst := by
        rcases hreg' with h1 | h1
        · exact absurd h1 heq
        · exact h1
      have ih := stockAssign_registered k v rest h'.2 hmem
      have hne : ¬ k' = k := fun h => heq h.symm
      simp only [stockAssign, hge, heq, if_false, List.map_cons, hne, ih]

theorem stockAssign_keys (k : Nat) (v : Symbol) (sm : List (Nat × Symbol))
    (ha : KeysAscending sm) (hreg : k ∈ sm.map Prod.fst) :
    (stockAssign sm k v).map Prod.fst = sm.map Prod.fst := by
  rw [stockAssign_registered k v sm ha hreg, List.map_map]
  apply List.map_congr_left
  intro p _
  by_cases hp : p.1 = k
  · simp [hp]
  · simp [hp]

/-- C23: in a state whose symbol table has ascending keys (a `std::map`) and whose registered
stocks have their arrays, an R event for a stock id `k` that is already registered is processed
without fault.  Afterwards the symbol table is the old one with the entry of `k` replaced by
`(k, stock_symbol)`, so the keys are the same; all 24 buckets of `k` are 0 in `volume_map` and
in `dollar_volume_map`; the arrays of every other stock id, `order_price_map` and the match
index, entries for stock `k` included, are unchanged. -/
theorem C23_reregistration_resets (st : AggState) (hdr : ItchHeader) (stock_symbol : Symbol)
    (hk : KeysPresent st.stock_map st.volume_map st.dollar_volume_map)
    (ha : KeysAscending st.stock_map) (hreg : hdr.stock_id ∈ st.stock_map.map Prod.fst) :
    ∃ st2 out, processOne st (.StockDirectoryMessage hdr stock_symbol) = .ok (st2, out) ∧
      st2.stock_map =
        (st.stock_map.map fun p => if p.1 = hdr.stock_id then (hdr.stock_id, stock_symbol)
          else p) ∧
      (hdr.stock_id, stock_symbol) ∈ st2.stock_map ∧
      st2.stock_map.map Prod.fst = st.stock_map.map Prod.fst ∧
      (∀ h : Fin 24, bucket st2.volume_map hdr.stock_id h = 0 ∧
        bucket st2.dollar_volume_map hdr.stock_id h = 0) ∧
      (∀ s, s ≠ hdr.stock_id → st2.volume_map s = st.volume_map s ∧
        st2.dollar_volume_map s = st.dollar_volume_map s) ∧
      st2.order_price_map = st.order_price_map ∧
      st2.matchID_trade_map = st.matchID_trade_map := by
  have hstep := processOne_ok_of_handle st (.StockDirectoryMessage hdr stock_symbol) _ hk rfl
  have hform := stockAssign_registered hdr.stock_id stock_symbol st.stock_map ha hreg
  refine ⟨_, _, hstep, hform, ?_, stockAssign_keys _ _ _ ha hreg, ?_, ?_, rfl, rfl⟩
  · show (hdr.stock_id, stock_symbol) ∈ stockAssign st.stock_map hdr.stock_id stock_symbol
    rw [hform]
    obtain ⟨p, hp, hpk⟩ := List.mem_map.mp hreg
    exact List.mem_map.mpr ⟨p, hp, by simp only [hpk, if_true]⟩
  · intro h
    constructor
    · show bucket (st.volume_map.assign hdr.stock_id zeroArray) hdr.stock_id h = 0
      rw [bucket_assign_zero, if_pos rfl]
    · show bucket (st.dollar_volume_map.assign hdr.stock_id zeroArray) hdr.stock_id h = 0
      rw [bucket_assign_zero, if_pos rfl]
  · intro s hs
    constructor
    · show (st.volume_map.assign hdr.stock_id zeroArray) s = _
      simp only [UMap.assign, hs, if_false]
    · show (st.dollar_volume_map.assign hdr.stock_id zeroArray) s = _
      simp only [UMap.assign, hs, if_false]

/-- Witness of C23: in `stateTraded` stock 1 is registered as "AAA" and holds 500 shares in
hour 9 under match 1; R(1, "ZZZ") at 09:40:00 leaves the table `[(1, "ZZZ")]`, empties hour 9
of stock 1 and keeps the entry of match 1. -/
theorem C23_reregistration_resets_witness :
    KeysPresent stateTraded.stock_map stateTraded.volume_map stateTraded.dollar_volume_map ∧
    KeysAscending stateTraded.stock_map ∧ 1 ∈ stateTraded.stock_map.map Prod.fst ∧
    bucket stateTraded.volume_map 1 9 = 500 ∧
    ∃ st2 out,
      processOne stateTraded (.StockDirectoryMessage ⟨1, clock 9 40 0⟩ [90, 90, 90])
        = .ok (st2, out) ∧
      st2.stock_map = [(1, [90, 90, 90])] ∧
      bucket st2.volume_map 1 9 = 0 ∧ bucket st2.dollar_volume_map 1 9 = 0 ∧
      st2.matchID_trade_map 1 = some (1, 100000, 500, 9) := by
  obtain ⟨st2, out, h1, hsm, _, _, hz, _, _, hmi⟩ :=
    C23_reregistration_resets stateTraded ⟨1, clock 9 40 0⟩ [90, 90, 90]
      (by decide) (by decide) (by decide)
  exact ⟨by decide, by decide, by decide, by decide, st2, out, h1, hsm.trans (by decide),
    (hz 9).1, (hz 9).2, by rw [hmi]; decide⟩


/-! ## The lookups of the hourly emission -/

theorem applyTrade_fault (st : AggState) (m s mn p q : Nat) (f : Fault)
    (h : applyTrade st m s mn p q = .error f) : f = .hourOutOfBounds := by
  by_cases hm : m < 24
  · rw [applyTrade_ok st m s mn p q hm] at h
    cases h
  · simp only [applyTrade, hm, dif_neg, not_false_eq_true, Except.error.injEq] at h
    exact h.symm

theorem handleMessage_fault (st : AggState) (m : Nat) (message : ItchMessage) (f : Fault)
    (h : handleMessage st m message = .error f) : f = .hourOutOfBounds := by
  cases message with
  | StockDirectoryMessage hdr sym => cases h
  | AddOrderMessage hdr o sh pr => cases h
  | AddOrderMPIDAttributionMessage hdr o sh pr => cases h
  | OrderReplaceMessage hdr o n sh pr => cases h
  | OrderExecutedMessage hdr o q mn => exact applyTrade_fault _ _ _ _ _ _ f h
  | OrderExecutedWithPriceMessage hdr o q mn pr ep =>
    by_cases hp : pr = 78
    · simp only [handleMessage, hp, if_true] at h
      cases h
    · simp only [handleMessage, hp, if_false] at h
      exact applyTrade_fault _ _ _ _ _ _ f h
  | NonCrossTradeMessage hdr o sh pr mn => exact applyTrade_fault _ _ _ _ _ _ f h
  | CrossTradeMessage hdr sh pr mn => exact applyTrade_fault _ _ _ _ _ _ f h
  | BrokenTradeMessage hdr mn =>
    cases he : st.matchID_trade_map (mn % 65536) with
    | none =>
      simp only [handleMessage, he] at h
      cases h
    | some e =>
      obtain ⟨s, p, q, th⟩ := e
      by_cases hth : th < 24
      · rw [handleMessage_broken_ok st m hdr mn s p q th he hth] at h
        cases h
      · simp only [handleMessage, he, hth, dif_neg, not_false_eq_true,
          Except.error.injEq] at h
        exact h.symm

theorem processOne_fault (st : AggState) (message : ItchMessage) (f : Fault)
    (hk : KeysPresent st.stock_map st.volume_map st.dollar_volume_map)
    (h : processOne st message = .error f) : f = .hourOutOfBounds := by
  rw [processOne_eq st message hk] at h
  split at h
  · next f2 h2 =>
    simp only [Except.error.injEq] at h
    rw [← h]
    exact handleMessage_fault _ _ _ _ h2
  · cases h

theorem processLoop_fault : ∀ (queue : List ItchMessage) (st : AggState) (f : Fault),
    KeysPresent st.stock_map st.volume_map st.dollar_volume_map → KeysAscending st.stock_map →
    processLoop st queue = .error f → f = .hourOutOfBounds
  | [], st, f, _, _, h => by cases h
  | message :: rest, st, f, hk, ha, h => by
    simp only [processLoop] at h
    split at h
    · next f1 h1 =>
      simp only [Except.error.injEq] at h
      rw [← h]
      exact processOne_fault st message f1 hk h1
    · next st1 out1 h1 =>
      have hp := processOne_preserves st st1 out1 message h1 hk ha
      split at h
      · next f2 h2 =>
        simp only [Except.error.injEq] at h
        rw [← h]
        exact processLoop_fault rest st1 f2 hp.1 hp.2 h2
      · cases h

theorem handleMessage_keeps_arrays (st st2 : AggState) (m : Nat) (message : ItchMessage)
    (h : handleMessage st m message = .ok st2) (k : Nat) :
    ((st.volume_map k).isSome = true → (st2.volume_map k).isSome = true) ∧
    ((st.dollar_volume_map k).isSome = true → (st2.dollar_volume_map k).isSome = true) := by
  have ht : ∀ (st1 : AggState) (s mn p q : Nat), applyTrade st1 m s mn p q = .ok st2 →
      ((st1.volume_map k).isSome = true → (st2.volume_map k).isSome = true) ∧
      ((st1.dollar_volume_map k).isSome = true → (st2.dollar_volume_map k).isSome = true) := by
    intro st1 s mn p q h1
    by_cases hm : m < 24
    · rw [applyTrade_ok st1 m s mn p q hm] at h1
      cases h1
      exact ⟨bucketAdd_isSome _ _ _ _ _, bucketAdd_isSome _ _ _ _ _⟩
    · simp [applyTrade, hm] at h1
  cases message with
  | StockDirectoryMessage hdr sym =>
    cases h
    exact ⟨assign_isSome _ _ _ _, assign_isSome _ _ _ _⟩
  | AddOrderMessage hdr o sh pr => cases h; exact ⟨id, id⟩
  | AddOrderMPIDAttributionMessage hdr o sh pr => cases h; exact ⟨id, id⟩
  | OrderReplaceMessage hdr o n sh pr => cases h; exact ⟨id, id⟩
  | OrderExecutedMessage hdr o q mn =>
    exact ht { st with order_price_map :=
      st.order_price_map.assign o (st.order_price_map.subscript o 0) } _ _ _ _ h
  | OrderExecutedWithPriceMessage hdr o q mn pr ep =>
    by_cases hp : pr = 78
    · simp only [handleMessage, hp, if_true] at h
      cases h; exact ⟨id, id⟩
    · simp only [handleMessage, hp, if_false] at h
      exact ht _ _ _ _ _ h
  | NonCrossTradeMessage hdr o sh pr mn => exact ht _ _ _ _ _ h
  | CrossTradeMessage hdr sh pr mn => exact ht _ _ _ _ _ h
  | BrokenTradeMessage hdr mn =>
    cases he : st.matchID_trade_map (mn % 65536) with
    | none =>
      simp only [handleMessage, he] at h
      cases h; exact ⟨id, id⟩
    | some e =>
      obtain ⟨s, p, q, th⟩ := e
      by_cases hth : th < 24
      · rw [handleMessage_broken_ok st m hdr mn s p q th he hth] at h
        cases h
        exact ⟨bucketSub_isSome _ _ _ _ _, bucketSub_isSome _ _ _ _ _⟩
      · simp [handleMessage, he, hth] at h

/-- C24: for every sequence of events, in the state that the main loop reaches from the empty
state every key of `stock_map` is a key of `volume_map` and of `dollar_volume_map`, so the
hourly emission computed from that state, for any hour, never ends in the exception of `at`;
no run of the main loop or of the whole of `processMessage` ends in that exception.  A trade
leaves the symbol table as it is and makes sure both accumulator maps have the array of its
stock; no handler removes an array from an accumulator map. -/
theorem C24_emission_lookups (queue : List ItchMessage) :
    (∀ st out, processLoop AggState.init queue = .ok (st, out) →
      (∀ p ∈ st.stock_map, (st.volume_map p.1).isSome = true ∧
        (st.dollar_volume_map p.1).isSome = true) ∧
      ∀ hour, calcAndOutputVWAP hour st.stock_map st.volume_map st.dollar_volume_map
        ≠ .error .keyNotFound) ∧
    processLoop AggState.init queue ≠ .error .keyNotFound ∧
    processMessage queue ≠ .error .keyNotFound ∧
    (∀ (st st2 : AggState) (m s mn p q : Nat), applyTrade st m s mn p q = .ok st2 →
      st2.stock_map = st.stock_map ∧ (st2.volume_map s).isSome = true ∧
      (st2.dollar_volume_map s).isSome = true) ∧
    (∀ (st st2 : AggState) (m : Nat) (message : ItchMessage) (k : Nat),
      handleMessage st m message = .ok st2 →
      ((st.volume_map k).isSome = true → (st2.volume_map k).isSome = true) ∧
      ((st.dollar_volume_map k).isSome = true → (st2.dollar_volume_map k).isSome = true)) := by
  have hk0 : KeysPresent AggState.init.stock_map AggState.init.volume_map
      AggState.init.dollar_volume_map := by
    intro p hp; simp [AggState.init] at hp
  have ha0 : KeysAscending AggState.init.stock_map := by
    simp [AggState.init, KeysAscending]
  have hloop : processLoop AggState.init queue ≠ .error .keyNotFound := by
    intro h
    have := processLoop_fault queue AggState.init _ hk0 ha0 h
    cases this
  refine ⟨?_, hloop, ?_, ?_, ?_⟩
  · intro st out h
    have hk := (reachable_wellformed queue st out h).1
    exact ⟨hk, fun hour => calcAndOutputVWAP_no_throw hour _ _ _ hk⟩
  · intro h
    simp only [processMessage] at h
    split at h
    · next f h1 =>
      simp only [Except.error.injEq] at h
      rw [h] at h1
      exact hloop h1
    · next st out h1 =>
      rw [hourLoop_ok _ st (reachable_wellformed queue st out h1).1] at h
      cases h
  · intro st st2 m s mn p q h
    by_cases hm : m < 24
    · rw [applyTrade_ok st m s mn p q hm] at h
      cases h
      refine ⟨rfl, ?_, ?_⟩
      · show ((bucketAdd st.volume_map s ⟨m, hm⟩ q) s).isSome = true
        simp [bucketAdd, UMap.assign]
      · show ((bucketAdd st.dollar_volume_map s ⟨m, hm⟩ (u64mul p q)) s).isSome = true
        simp [bucketAdd, UMap.assign]
    · simp [applyTrade, hm] at h
  · intro st st2 m message k h
    exact handleMessage_keeps_arrays st st2 m message h k

/-- Witness of C24: in `scenarioUnregistered` stock 2 trades without a registration and stock 1
is registered; the state reached has the one symbol entry of stock 1, arrays for both stocks,
and the call for hour 9 made by the last event finds every array and writes no row. -/
theorem C24_emission_lookups_witness :
    ∃ st out, processLoop AggState.init scenarioUnregistered = .ok (st, out) ∧
      st.stock_map = [(1, [65, 65, 65])] ∧
      (st.volume_map 2).isSome = true ∧ bucket st.volume_map 2 9 = 100 ∧
      out[9]? = some ⟨9, .ok []⟩ ∧
      ((∀ p ∈ st.stock_map, (st.volume_map p.1).isSome = true ∧
        (st.dollar_volume_map p.1).isSome = true) ∧
      ∀ hour, calcAndOutputVWAP hour st.stock_map st.volume_map st.dollar_volume_map
        ≠ .error .keyNotFound) :=
  ⟨_, _, rfl, by decide, by decide, by decide, by decide,
    (C24_emission_lookups scenarioUnregistered).1 _ _ rfl⟩


/-! ## Progress and termination of the decoder -/

theorem readDataLoop_fuel (buf : List Byte) (k : Nat) : ∀ (fuel : Nat) (st : ReaderState),
    buf.length ≤ st.byte_read + fuel →
    readDataLoop buf (fuel + k) st = readDataLoop buf fuel st
  | 0, st, hf => by
    have hge : ¬ st.byte_read < buf.length := by omega
    cases k with
    | zero => rfl
    | succ k =>
      rw [Nat.zero_add]
      simp only [readDataLoop, hge, if_false]
  | fuel + 1, st, hf => by
    rw [Nat.add_right_comm]
    simp only [readDataLoop]
    by_cases hlt : st.byte_read < buf.length
    · simp only [hlt, if_true]
      cases h1 : readIteration buf st with
      | error f => rfl
      | ok r =>
        obtain ⟨st1, pushed⟩ := r
        have hadv := readIteration_byte_read buf st st1 pushed h1
        simp only [readDataLoop_fuel buf k fuel st1 (by omega)]
    · simp only [hlt, if_false]

theorem readDataLoop_eq_trace (buf : List Byte) : ∀ (fuel : Nat) (st : ReaderState),
    readDataLoop buf fuel st =
      match readDataTrace buf fuel st with
      | .error f => .error f
      | .ok (st2, trace) => .ok (st2, trace.filterMap Prod.snd)
  | 0, st => rfl
  | fuel + 1, st => by
    simp only [readDataLoop, readDataTrace]
    by_cases hlt : st.byte_read < buf.length
    · simp only [hlt, if_true]
      cases h1 : readIteration buf st with
      | error f => rfl
      | ok r =>
        obtain ⟨st1, pushed⟩ := r
        simp only [readDataLoop_eq_trace buf fuel st1]
        cases h2 : readDataTrace buf fuel st1 with
        | error f => rfl
        | ok r2 =>
          obtain ⟨st2, trace⟩ := r2
          cases pushed <;> simp [List.filterMap_cons]
    · simp only [hlt, if_false, List.filterMap_nil]

theorem byteAt_of_getElem? (buf : List Byte) (pos : Nat) (t : Byte)
    (htag : buf[pos]? = some t) : byteAt buf pos = t.val := by
  simp [byteAt, List.getD_eq_getElem?_getD, htag]

theorem readIteration_complete (buf : List Byte) (st : ReaderState) (t : Byte)
    (htag : buf[st.buffer]? = some t)
    (hlen : st.buffer + 1 + getMessageSize t.val ≤ buf.length) :
    ∃ pushed, readIteration buf st = .ok (⟨st.buffer + 1 + getMessageSize t.val,
        st.byte_read + (getMessageSize t.val + 1)⟩, pushed) ∧
      (t.val ∉ vwapTags ++ ignoredTags → pushed = none ∧ getMessageSize t.val = 0) ∧
      (t.val ∈ vwapTags → ∃ message, pushed = some message ∧ message.message_type = t.val) ∧
      (t.val ∉ vwapTags → pushed = none) := by
  by_cases hv : t.val ∈ vwapTags
  · obtain ⟨message, h, hm⟩ := readIteration_of_vwapTag buf st t htag hv hlen
    refine ⟨some message, h, ?_, fun _ => ⟨message, rfl, hm⟩, fun hn => absurd hv hn⟩
    intro hn
    exact absurd (List.mem_append_left _ hv) hn
  · by_cases hi : t.val ∈ ignoredTags
    · refine ⟨none, readIteration_of_ignoredTag buf st t htag hi, ?_, fun h => absurd h hv,
        fun _ => rfl⟩
      intro hn
      exact absurd (List.mem_append_right _ hi) hn
    · have hu : t.val ∉ vwapTags ++ ignoredTags := by
        intro h
        rcases List.mem_append.mp h with h1 | h1
        · exact hv h1
        · exact hi h1
      have h0 := getMessageSize_unknown _ hu
      refine ⟨none, ?_, fun _ => ⟨rfl, h0⟩, fun h => absurd h hv, fun _ => rfl⟩
      rw [h0]
      exact readIteration_unknown buf st t htag h0

theorem readDataTrace_complete (buf : List Byte) : ∀ (fuel : Nat) (st : ReaderState),
    st.buffer = st.byte_read → st.byte_read ≤ buf.length → buf.length ≤ st.byte_read + fuel →
    recordsComplete buf fuel st.buffer = true →
    ∃ st2 trace, readDataTrace buf fuel st = .ok (st2, trace) ∧
      st2.buffer = st2.byte_read ∧ st2.byte_read = buf.length ∧ trace.length ≤ fuel ∧
      (∀ e ∈ trace, st.buffer ≤ e.1 ∧ e.1 < buf.length ∧
        (byteAt buf e.1 ∈ vwapTags →
          ∃ message, e.2 = some message ∧ message.message_type = byteAt buf e.1) ∧
        (byteAt buf e.1 ∉ vwapTags → e.2 = none)) ∧
      (trace.map Prod.fst).Pairwise (· < ·)
  | 0, st, hb, hle, hf, _ =>
    ⟨st, [], rfl, hb, by omega, Nat.le_refl _, by simp, by simp⟩
  | fuel + 1, st, hb, hle, hf, hc => by
    by_cases hlt : st.byte_read < buf.length
    · have hpos : st.buffer < buf.length := by omega
      have htag : buf[st.buffer]? = some buf[st.buffer] := List.getElem?_eq_getElem hpos
      have hbyte := byteAt_of_getElem? buf st.buffer _ htag
      simp only [recordsComplete, hpos, if_true, Bool.and_eq_true, decide_eq_true_eq,
        hbyte] at hc
      obtain ⟨pushed, h1, _, h3, h4⟩ := readIteration_complete buf st _ htag hc.1
      obtain ⟨st2, trace, h2, hb2, hlen2, hn2, he2, hp2⟩ :=
        readDataTrace_complete buf fuel
          ⟨st.buffer + 1 + getMessageSize (buf[st.buffer]).val,
            st.byte_read + (getMessageSize (buf[st.buffer]).val + 1)⟩
          (by show st.buffer + 1 + _ = st.byte_read + (_ + 1); omega)
          (by show st.byte_read + (_ + 1) ≤ buf.length; omega)
          (by show buf.length ≤ st.byte_read + (_ + 1) + fuel; omega) hc.2
      refine ⟨st2, (st.buffer, pushed) :: trace, ?_, hb2, hlen2, ?_, ?_, ?_⟩
      · simp only [readDataTrace, hlt, if_true, h1, h2]
      · simp only [List.length_cons]
        omega
      · intro e he
        rcases List.mem_cons.mp he with rfl | he'
        · refine ⟨Nat.le_refl _, hpos, ?_, ?_⟩
          · intro hv
            rw [hbyte] at hv ⊢
            exact h3 hv
          · intro hv
            rw [hbyte] at hv
            exact h4 hv
        · obtain ⟨a1, a2, a3, a4⟩ := he2 e he'
          have a1' : st.buffer + 1 + getMessageSize (buf[st.buffer]).val ≤ e.1 := a1
          exact ⟨by omega, a2, a3, a4⟩
      · simp only [List.map_cons, List.pairwise_cons]
        refine ⟨?_, hp2⟩
        intro x hx
        obtain ⟨e, he, rfl⟩ := List.mem_map.mp hx
        have a1 : st.buffer + 1 + getMessageSize (buf[st.buffer]).val ≤ e.1 := (he2 e he).1
        omega
    · have heq : st.byte_read = buf.length := by omega
      refine ⟨st, [], ?_, hb, heq, Nat.zero_le _, by simp, by simp⟩
      simp only [readDataTrace, hlt, if_false]

/-- C25: every iteration of the loop of `readDataIntoQueue` that returns adds at least 1 to
`byte_read`, and on a byte that is none of the 23 known tags it advances the pointer and
`byte_read` by exactly 1 and pushes nothing.  For a buffer in which every record met lies
inside the buffer, the loop ends without fault after at most `length` iterations with
`byte_read` and the pointer at `length` (more iterations allowed change nothing); the messages
pushed are those of the iterations in order, the record offsets of the iterations are strictly
increasing, and an iteration pushes a message, of the type of its tag, exactly when the tag has
a creator. -/
theorem C25_decoder_progress (buf : List Byte)
    (hc : recordsComplete buf buf.length 0 = true) :
    (∀ (st st1 : ReaderState) (pushed : Option ItchMessage),
      readIteration buf st = .ok (st1, pushed) → st.byte_read < st1.byte_read) ∧
    (∀ (st : ReaderState) (t : Byte), buf[st.buffer]? = some t →
      t.val ∉ vwapTags ++ ignoredTags →
      readIteration buf st = .ok (⟨st.buffer + 1, st.byte_read + 1⟩, none)) ∧
    ∃ st trace, readDataTrace buf buf.length ⟨0, 0⟩ = .ok (st, trace) ∧
      readDataIntoQueue buf = .ok (st, trace.filterMap Prod.snd) ∧
      (∀ fuel, buf.length ≤ fuel → readDataLoop buf fuel ⟨0, 0⟩ = readDataIntoQueue buf) ∧
      st.byte_read = buf.length ∧ st.buffer = buf.length ∧ trace.length ≤ buf.length ∧
      (trace.map Prod.fst).Pairwise (· < ·) ∧
      ∀ e ∈ trace, e.1 < buf.length ∧
        (byteAt buf e.1 ∈ vwapTags →
          ∃ message, e.2 = some message ∧ message.message_type = byteAt buf e.1) ∧
        (byteAt buf e.1 ∉ vwapTags → e.2 = none) := by
  refine ⟨readIteration_byte_read buf, ?_, ?_⟩
  · intro st t htag hu
    exact readIteration_unknown buf st t htag (getMessageSize_unknown _ hu)
  · obtain ⟨st, trace, ht, hb, hlen, hn, he, hp⟩ :=
      readDataTrace_complete buf buf.length ⟨0, 0⟩ rfl (Nat.zero_le _) (by simp) hc
    refine ⟨st, trace, ht, ?_, ?_, hlen, hb.trans hlen, hn, hp, ?_⟩
    · simp only [readDataIntoQueue, readDataLoop_eq_trace buf buf.length ⟨0, 0⟩, ht]
    · intro fuel hfuel
      obtain ⟨k, rfl⟩ := Nat.exists_eq_add_of_le hfuel
      exact readDataLoop_fuel buf k buf.length ⟨0, 0⟩ (by simp)
    · intro e hmem
      exact (he e hmem).2

/-- Witness of C25: `bufferMixed` holds an S record, the byte FF, a B record and an A record;
the four iterations start at the offsets 0, 12, 13 and 32, the last two push their message, and
the loop ends with `byte_read = 68`, the length of the buffer. -/
theorem C25_decoder_progress_witness :
    recordsComplete bufferMixed bufferMixed.length 0 = true ∧
    readDataTrace bufferMixed bufferMixed.length ⟨0, 0⟩ =
      .ok (⟨68, 68⟩, [(0, none), (12, none),
        (13, some (.BrokenTradeMessage ⟨1, clock 9 30 0⟩ 5)),
        (32, some (.AddOrderMessage ⟨1, clock 9 30 0⟩ 10 500 100000))]) ∧
    ∃ st trace, readDataTrace bufferMixed bufferMixed.length ⟨0, 0⟩ = .ok (st, trace) ∧
      readDataIntoQueue bufferMixed = .ok (st, trace.filterMap Prod.snd) ∧
      (∀ fuel, bufferMixed.length ≤ fuel →
        readDataLoop bufferMixed fuel ⟨0, 0⟩ = readDataIntoQueue bufferMixed) ∧
      st.byte_read = bufferMixed.length ∧ st.buffer = bufferMixed.length ∧
      trace.length ≤ bufferMixed.length ∧
      (trace.map Prod.fst).Pairwise (· < ·) ∧
      ∀ e ∈ trace, e.1 < bufferMixed.length ∧
        (byteAt bufferMixed e.1 ∈ vwapTags →
          ∃ message, e.2 = some message ∧ message.message_type = byteAt bufferMixed e.1) ∧
        (byteAt bufferMixed e.1 ∉ vwapTags → e.2 = none) :=
  ⟨by decide, by decide, (C25_decoder_progress bufferMixed (by decide)).2.2⟩


/-- C21, evaluated: the Q event of 1000000 shares at cross price 100000 with match 4 is stored
in full, `(1, 100000, 1000000, 9)`, and adds 1000000 and 100000000000 to hour 9 of stock 1.  A
P event of 7 shares at price 10000 with the distinct match number 65540 then takes the slot of
key 4 in the match index, and the later B event of match 4 subtracts 7 and 70000, the amounts
of the P event: the run ends with `volume[1][9] = 1000000` and
`dollar_volume[1][9] = 100000000000`, where subtracting the two amounts of the Q event leaves 7
and 70000. -/
theorem C21_later_break_subtracts_other_trade :
    (∃ st out, processLoop AggState.init scenarioCross = .ok (st, out) ∧
      st.matchID_trade_map (4 % 65536) = some (1, 100000, 1000000, 9) ∧
      bucket st.volume_map 1 9 = 1000000 ∧ bucket st.dollar_volume_map 1 9 = 100000000000) ∧
    (∃ st out, processLoop AggState.init scenarioCrossThenTrade = .ok (st, out) ∧
      65540 % 65536 = 4 % 65536 ∧
      st.matchID_trade_map (4 % 65536) = some (1, 10000, 7, 9) ∧
      bucket st.volume_map 1 9 = 1000007 ∧
      bucket st.dollar_volume_map 1 9 = 100000070000) ∧
    (∃ st out, processMessage scenarioCrossBroken = .ok (st, out) ∧
      bucket st.volume_map 1 9 = 1000007 - 7 ∧
      bucket st.dollar_volume_map 1 9 = 100000070000 - 70000 ∧
      bucket st.volume_map 1 9 ≠ 1000007 - 1000000 ∧
      bucket st.dollar_volume_map 1 9 ≠ 100000070000 - 100000000000 ∧
      out[9]? = some ⟨9, .ok [⟨[68, 68, 68], 1, 9, 100000000000, 1000000⟩]⟩) :=
  ⟨⟨_, _, rfl, by decide, by decide, by decide⟩,
    ⟨_, _, rfl, by decide, by decide, by decide, by decide⟩,
    ⟨_, _, rfl, by decide, by decide, by decide, by decide, by decide⟩⟩


/-! ## Records cut by the end of the file -/

theorem readDataLoopSized_length (buf : List Byte) : ∀ (fuel : Nat) (st : ReaderState),
    readDataLoopSized buf buf.length fuel st = readDataLoop buf fuel st
  | 0, _ => rfl
  | fuel + 1, st => by
    simp only [readDataLoopSized, readDataLoop, readDataLoopSized_length buf fuel]

theorem mappedView_below (file : List Byte) (page i : Nat) (h : i < file.length) :
    (mappedView file page)[i]? = file[i]? := by
  unfold mappedView
  exact List.getElem?_append_left h

theorem mappedView_above (file : List Byte) (page i : Nat) (h : file.length ≤ i) :
    byteAt (mappedView file page) i = 0 := by
  unfold byteAt mappedView
  rw [List.getD_eq_getElem?_getD, List.getElem?_append_right h]
  cases hr : (List.replicate ((page - file.length % page) % page) (0 : Byte))[i - file.length]?
    with
  | none => rfl
  | some b =>
    have hb := List.getElem?_eq_some_iff.mp hr
    obtain ⟨hlt, hval⟩ := hb
    rw [List.getElem_replicate] at hval
    rw [← hval]
    rfl

theorem getD_mappedView (file : List Byte) (page i : Nat) :
    (mappedView file page).getD i 0 = file.getD i 0 := by
  by_cases h : i < file.length
  · exact getD_agree file (mappedView file page) i (mappedView_below file page i h)
  · have h0 := mappedView_above file page i (by omega)
    rw [List.getD_eq_default file 0 (by omega)]
    exact Fin.ext h0

theorem fieldBE_mappedView (file : List Byte) (page p n : Nat) :
    fieldBE (mappedView file page) p n = fieldBE file p n := by
  simp only [fieldBE, bytesAt, getD_mappedView]

theorem timeStampLoop_mappedView (file : List Byte) (page p : Nat) :
    timeStampLoop (mappedView file page) p = timeStampLoop file p := by
  simp only [timeStampLoop, getD_mappedView]

theorem stockField_mappedView (file : List Byte) (page p : Nat) :
    stockField (mappedView file page) p = stockField file p := by
  simp only [stockField, getD_mappedView]

theorem readIteration_mappedView (file : List Byte) (page : Nat) (st : ReaderState) (t : Byte)
    (htag : file[st.buffer]? = some t)
    (hlen : st.buffer + 1 + getMessageSize t.val ≤ file.length) :
    readIteration (mappedView file page) st = readIteration file st := by
  have hpos : st.buffer < file.length := by omega
  have htagV : (mappedView file page)[st.buffer]? = some t :=
    (mappedView_below file page st.buffer hpos).trans htag
  have hlenV : st.buffer + 1 + getMessageSize t.val ≤ (mappedView file page).length := by
    have : file.length ≤ (mappedView file page).length := by
      unfold mappedView
      rw [List.length_append]
      exact Nat.le_add_right _ _
    omega
  have hV := readIteration_vwap (mappedView file page) st t htagV hlenV
  have hF := readIteration_vwap file st t htag hlen
  by_cases hv : t.val ∈ vwapTags
  · simp only [vwapTags, List.mem_cons, List.mem_singleton, List.not_mem_nil, or_false] at hv
    rcases hv with ht | ht | ht | ht | ht | ht | ht | ht | ht
    · rw [hV.1 ht, hF.1 ht]
      simp only [fieldBE_mappedView, timeStampLoop_mappedView, stockField_mappedView]
    · rw [hV.2.1 ht, hF.2.1 ht]
      simp only [fieldBE_mappedView, timeStampLoop_mappedView]
    · rw [hV.2.2.1 ht, hF.2.2.1 ht]
      simp only [fieldBE_mappedView, timeStampLoop_mappedView]
    · rw [hV.2.2.2.1 ht, hF.2.2.2.1 ht]
      simp only [fieldBE_mappedView, timeStampLoop_mappedView]
    · rw [hV.2.2.2.2.1 ht, hF.2.2.2.2.1 ht]
      simp only [fieldBE_mappedView, timeStampLoop_mappedView, getD_mappedView]
    · rw [hV.2.2.2.2.2.1 ht, hF.2.2.2.2.2.1 ht]
      simp only [fieldBE_mappedView, timeStampLoop_mappedView]
    · rw [hV.2.2.2.2.2.2.1 ht, hF.2.2.2.2.2.2.1 ht]
      simp only [fieldBE_mappedView, timeStampLoop_mappedView]
    · rw [hV.2.2.2.2.2.2.2.1 ht, hF.2.2.2.2.2.2.2.1 ht]
      simp only [fieldBE_mappedView, timeStampLoop_mappedView]
    · rw [hV.2.2.2.2.2.2.2.2 ht, hF.2.2.2.2.2.2.2.2 ht]
      simp only [fieldBE_mappedView, timeStampLoop_mappedView]
  · by_cases hi : t.val ∈ ignoredTags
    · rw [readIteration_of_ignoredTag _ st t htagV hi, readIteration_of_ignoredTag _ st t htag hi]
    · have hu : t.val ∉ vwapTags ++ ignoredTags := by
        intro h
        rcases List.mem_append.mp h with h1 | h1
        · exact hv h1
        · exact hi h1
      have h0 := getMessageSize_unknown _ hu
      rw [readIteration_unknown _ st t htagV h0, readIteration_unknown _ st t htag h0]

theorem readDataLoopSized_mappedView (file : List Byte) (page : Nat) :
    ∀ (fuel : Nat) (st : ReaderState), st.buffer = st.byte_read →
    recordsComplete file fuel st.buffer = true →
    readDataLoopSized (mappedView file page) file.length fuel st = readDataLoop file fuel st
  | 0, _, _, _ => rfl
  | fuel + 1, st, hb, hc => by
    by_cases hlt : st.byte_read < file.length
    · have hpos : st.buffer < file.length := by omega
      have htag : file[st.buffer]? = some file[st.buffer] := List.getElem?_eq_getElem hpos
      have hbyte := byteAt_of_getElem? file st.buffer _ htag
      simp only [recordsComplete, hpos, if_true, Bool.and_eq_true, decide_eq_true_eq,
        hbyte] at hc
      obtain ⟨pushed, h1, _⟩ := readIteration_complete file st _ htag hc.1
      have hview := readIteration_mappedView file page st _ htag hc.1
      have ih := readDataLoopSized_mappedView file page fuel
        ⟨st.buffer + 1 + getMessageSize (file[st.buffer]).val,
          st.byte_read + (getMessageSize (file[st.buffer]).val + 1)⟩
        (by show st.buffer + 1 + _ = st.byte_read + (_ + 1); omega) hc.2
      simp only [readDataLoopSized, readDataLoop, hlt, if_true, hview, h1, ih]
    · simp only [readDataLoopSized, readDataLoop, hlt, if_false]

theorem readDataIntoQueue_mappedView (file : List Byte) (page : Nat)
    (hc : recordsComplete file file.length 0 = true) :
    readDataLoopSized (mappedView file page) file.length file.length ⟨0, 0⟩ =
      readDataIntoQueue file :=
  readDataLoopSized_mappedView file page file.length ⟨0, 0⟩ rfl hc

end VWAP
